import Mathlib

/-!
# Verification of the word-to-html-converter normalization pipeline

A shallow embedding of the document-tree normalization pipeline of the
word-to-html-converter repository: the tree model, the sanitizer
(`src/js/core/sanitizer.js`), the structural cleaner
(`src/js/utils/html-cleaner.js`), the mode transform set
(`src/js/utils/mode-*.js` and the unnamed mode utility files), and the
compact formatter (`src/js/utils/html-formatter.js`), together with
theorems settling the specification claims.

Trees are modelled by the inductive `Node` (Element / Text).  DOM strings
are Lean `String`s.  Each pipeline stage is a `String → String` function
that parses, transforms the tree, and serializes, mirroring the source
which round-trips through `DOMParser` / `innerHTML` in every stage.
The parser and serializer themselves are external collaborators of the
repository (browser `DOMParser` / `innerHTML`); they are modelled from the
specification (section 6) as best-effort executable functions.
-/

set_option maxHeartbeats 4000000
set_option maxRecDepth 8192

namespace WordToHtml

/-! ## JavaScript string primitives

Character-level helpers mirroring the JavaScript string operations used
throughout the source: `trim` (JS whitespace set, which includes the
non-breaking space), `toLowerCase` (ASCII case folding, sufficient for the
ASCII keywords the source matches), `includes`, `startsWith`, `endsWith`.
-/

/-- The JavaScript whitespace class (`\s`, also used by `String.prototype.trim`):
space, tab, line feed, carriage return, vertical tab, form feed,
non-breaking space, and the BOM / Unicode space separators. -/
def isJsWs (c : Char) : Bool :=
  c = ' ' ∨ c = '\t' ∨ c = '\n' ∨ c = '\r' ∨ c = '\x0b' ∨ c = '\x0c' ∨
  c.toNat = 0xA0 ∨ c.toNat = 0xFEFF ∨ c.toNat = 0x1680 ∨
  (0x2000 ≤ c.toNat ∧ c.toNat ≤ 0x200A) ∨
  c.toNat = 0x2028 ∨ c.toNat = 0x2029 ∨ c.toNat = 0x202F ∨
  c.toNat = 0x205F ∨ c.toNat = 0x3000

/-- The non-breaking space character (U+00A0), the sole content of a
spacing paragraph. -/
def nbspC : Char := Char.ofNat 0xA0

/-- The one-character string holding the non-breaking space. -/
def nbspS : String := ⟨[nbspC]⟩

/-- JS `String.prototype.trim`. -/
def jsTrim (s : String) : String :=
  ⟨((s.data.dropWhile isJsWs).reverse.dropWhile isJsWs).reverse⟩

/-- JS `str.replace(/^\s+/, '')`. -/
def jsTrimStart (s : String) : String :=
  ⟨s.data.dropWhile isJsWs⟩

/-- JS `str.replace(/\s+$/, '')`. -/
def jsTrimEnd (s : String) : String :=
  ⟨(s.data.reverse.dropWhile isJsWs).reverse⟩

/-- ASCII lower-casing of one character (JS `toLowerCase` on the ASCII range). -/
def lowerC (c : Char) : Char :=
  if 'A' ≤ c ∧ c ≤ 'Z' then Char.ofNat (c.toNat + 32) else c

/-- JS `String.prototype.toLowerCase` (ASCII folding; the source only
matches ASCII keywords such as "key takeaways", "faq", "sources:"). -/
def lowerS (s : String) : String := ⟨s.data.map lowerC⟩

/-- Does the character list `hay` start with `pre`? -/
def startsL : List Char → List Char → Bool
  | [], _ => true
  | _ :: _, [] => false
  | p :: ps, h :: hs => p = h && startsL ps hs

/-- Does `hay` contain `needle` as a contiguous sublist?  (JS `includes`.) -/
def hasSubL (needle : List Char) : List Char → Bool
  | [] => needle.isEmpty
  | c :: rest => startsL needle (c :: rest) || hasSubL needle rest

/-- JS `String.prototype.includes`. -/
def includesS (hay needle : String) : Bool := hasSubL needle.data hay.data

/-- JS `String.prototype.startsWith`. -/
def startsWithS (hay pre : String) : Bool := startsL pre.data hay.data

/-- JS `String.prototype.endsWith`. -/
def endsWithS (hay suf : String) : Bool := startsL suf.data.reverse hay.data.reverse

/-- Split a character list at every occurrence of the separator character
(JS `String.prototype.split` with a one-character separator). -/
def splitCL (sep : Char) : List Char → List (List Char)
  | [] => [[]]
  | c :: rest =>
      let r := splitCL sep rest
      if c = sep then [] :: r
      else match r with
        | [] => [[c]]
        | g :: gs => (c :: g) :: gs

/-- JS `String.prototype.split` with a one-character separator. -/
def splitS (s : String) (sep : Char) : List String :=
  (splitCL sep s.data).map (fun l => ⟨l⟩)

/-- JS `String.prototype.split('\n')` composed with join: used by the
formatter post-processing. -/
def joinS (sep : String) (l : List String) : String :=
  match l with
  | [] => ""
  | s :: rest => rest.foldl (fun acc t => acc ++ sep ++ t) s

/-! ## The tree model

`Node` is the tagged union of the specification section 3: an Element with
a tag, an ordered attribute list and ordered children, or a Text node.
Tag and attribute names are kept lower-case by the parser, as the DOM does
for HTML documents. -/

inductive Node where
  | element (tag : String) (attrs : List (String × String)) (children : List Node) : Node
  | text (s : String) : Node
deriving Repr

/-- DOM `getAttribute`: the value of the first binding of `name`, if any. -/
def getAttr (attrs : List (String × String)) (name : String) : Option String :=
  match attrs.find? (fun p => p.1 = name) with
  | some p => some p.2
  | none => none

/-- DOM `hasAttribute`. -/
def hasAttr (attrs : List (String × String)) (name : String) : Bool :=
  (getAttr attrs name).isSome

/-- DOM `setAttribute`: replace the value in place if the attribute
exists, otherwise append it at the end of the attribute list. -/
def setAttr (attrs : List (String × String)) (name v : String) : List (String × String) :=
  match attrs with
  | [] => [(name, v)]
  | (n, w) :: rest => if n = name then (n, v) :: rest else (n, w) :: setAttr rest name v

/-- DOM `removeAttribute`. -/
def removeAttr (attrs : List (String × String)) (name : String) : List (String × String) :=
  attrs.filter (fun p => p.1 ≠ name)

mutual

/-- DOM `textContent`: concatenation of all descendant text. -/
def Node.textContent : Node → String
  | .text s => s
  | .element _ _ cs => textContentL cs

/-- `textContent` of a list of sibling nodes. -/
def textContentL : List Node → String
  | [] => ""
  | n :: rest => n.textContent ++ textContentL rest

end

/-- Is this node an Element with the given tag? -/
def isElemTag (tag : String) : Node → Bool
  | .element t _ _ => t = tag
  | .text _ => false

/-- Is this node an Element node at all? -/
def Node.isElem : Node → Bool
  | .element _ _ _ => true
  | .text _ => false

/-- DOM `element.children`: the element children only. -/
def elemChildren (l : List Node) : List Node := l.filter Node.isElem

/-- Is this node a whitespace-only text node? -/
def isWsText : Node → Bool
  | .text s => jsTrim s = ""
  | .element _ _ _ => false

/-- DOM `previousElementSibling` relative to a reversed list of the
siblings that precede a node (nearest first). -/
def prevElem : List Node → Option Node
  | [] => none
  | n :: rest => if n.isElem then some n else prevElem rest

/-- DOM `nextElementSibling` relative to the list of siblings that follow
a node. -/
def nextElem : List Node → Option Node
  | [] => none
  | n :: rest => if n.isElem then some n else nextElem rest

end WordToHtml

namespace WordToHtml

/-! ## Serialization (`innerHTML`)

Modelled from the spec: the `serialize(tree) -> text` collaborator of
section 6 (the browser `innerHTML` getter used by every stage).  Text is
escaped as browsers do (`&` `<` `>` and the non-breaking space); attribute
values additionally escape the double quote.  Void elements render without
a closing tag. -/

/-- The HTML void elements relevant to serialization. -/
def voidTags : List String :=
  ["br", "hr", "img", "input", "meta", "link", "area", "base", "col",
   "embed", "source", "track", "wbr"]

/-- Escape one text character as the `innerHTML` getter does. -/
def escTextC (c : Char) : String :=
  if c = '&' then "&amp;"
  else if c = '<' then "&lt;"
  else if c = '>' then "&gt;"
  else if c = nbspC then "&nbsp;"
  else ⟨[c]⟩

/-- Escape one attribute-value character as the `innerHTML` getter does. -/
def escAttrC (c : Char) : String :=
  if c = '&' then "&amp;"
  else if c = '"' then "&quot;"
  else if c = nbspC then "&nbsp;"
  else ⟨[c]⟩

/-- Escape a text node for serialization. -/
def escText (s : String) : String := (s.data.map escTextC).foldl (· ++ ·) ""

/-- Escape an attribute value for serialization. -/
def escAttr (s : String) : String := (s.data.map escAttrC).foldl (· ++ ·) ""

/-- Serialize an attribute list. -/
def serializeAttrs (attrs : List (String × String)) : String :=
  attrs.foldl (fun acc p => acc ++ " " ++ p.1 ++ "=\"" ++ escAttr p.2 ++ "\"") ""

mutual

/-- `innerHTML`-style serialization of one node. -/
def serializeN : Node → String
  | .text s => escText s
  | .element tag attrs cs =>
      if tag ∈ voidTags then "<" ++ tag ++ serializeAttrs attrs ++ ">"
      else "<" ++ tag ++ serializeAttrs attrs ++ ">" ++ serializeL cs ++ "</" ++ tag ++ ">"

/-- `innerHTML`-style serialization of a sibling list. -/
def serializeL : List Node → String
  | [] => ""
  | n :: rest => serializeN n ++ serializeL rest

end

/-! ## Parsing (`DOMParser`)

Modelled from the spec: the `parse(text) -> Tree` collaborator of section
6 ("must tolerate malformed/partial markup without raising, producing a
best-effort tree").  A recursive-descent parser over the character list:
tags with quoted attributes, void elements, character entities, and
best-effort recovery (an unmatched `<` becomes text, an unmatched closing
tag is dropped, unclosed elements are closed at end of input).  Tag and
attribute names are lower-cased as the HTML parser does. -/

/-- Decode the character entities produced by word-processor markup and by
our serializer: named entities and decimal/hex character references. -/
def entityValue (name : List Char) : Option (List Char) :=
  let s : String := ⟨name⟩
  if s = "nbsp" then some [nbspC]
  else if s = "amp" then some ['&']
  else if s = "lt" then some ['<']
  else if s = "gt" then some ['>']
  else if s = "quot" then some ['"']
  else none

/-- Is this an ASCII letter or digit (accepted in tag names)? -/
def isNameC (c : Char) : Bool :=
  ('a' ≤ c ∧ c ≤ 'z') ∨ ('A' ≤ c ∧ c ≤ 'Z') ∨ ('0' ≤ c ∧ c ≤ '9')

/-- Is this a character allowed in an attribute name? -/
def isAttrNameC (c : Char) : Bool :=
  isNameC c ∨ c = '-' ∨ c = '_' ∨ c = ':'

/-- Decode entities inside parsed text / attribute values. -/
def decodeEntities : Nat → List Char → List Char
  | 0, l => l
  | _ + 1, [] => []
  | fuel + 1, '&' :: rest =>
      let name := rest.takeWhile (fun c => isNameC c)
      let after := rest.drop name.length
      (match after with
       | ';' :: tail =>
          match entityValue name with
          | some v => v ++ decodeEntities fuel tail
          | none => '&' :: decodeEntities fuel rest
       | _ => '&' :: decodeEntities fuel rest)
  | fuel + 1, c :: rest => c :: decodeEntities fuel rest

/-- Parse the attribute section of a start tag: returns the attributes and
the characters following the closing `>` (best-effort: unterminated tags
consume to end of input). -/
def parseAttrs : Nat → List Char → (List (String × String) × List Char)
  | 0, l => ([], l)
  | _ + 1, [] => ([], [])
  | fuel + 1, c :: rest =>
      if c = '>' then ([], rest)
      else if c = '/' ∨ isJsWs c then parseAttrs fuel rest
      else if isAttrNameC c then
        let name := (c :: rest).takeWhile isAttrNameC
        let after := (c :: rest).drop name.length
        let afterWs := after.dropWhile isJsWs
        match afterWs with
        | '=' :: tail =>
            let tail2 := tail.dropWhile isJsWs
            (match tail2 with
             | '"' :: vtail =>
                let v := vtail.takeWhile (fun c => c ≠ '"')
                let after2 := (vtail.drop v.length).drop 1
                let (attrs, rem) := parseAttrs fuel after2
                ((lowerS ⟨name⟩, ⟨decodeEntities v.length v⟩) :: attrs, rem)
             | '\'' :: vtail =>
                let v := vtail.takeWhile (fun c => c ≠ '\'')
                let after2 := (vtail.drop v.length).drop 1
                let (attrs, rem) := parseAttrs fuel after2
                ((lowerS ⟨name⟩, ⟨decodeEntities v.length v⟩) :: attrs, rem)
             | _ =>
                let v := tail2.takeWhile (fun c => ¬ isJsWs c ∧ c ≠ '>')
                let after2 := tail2.drop v.length
                let (attrs, rem) := parseAttrs fuel after2
                ((lowerS ⟨name⟩, ⟨decodeEntities v.length v⟩) :: attrs, rem))
        | _ =>
            let (attrs, rem) := parseAttrs fuel afterWs
            ((lowerS ⟨name⟩, "") :: attrs, rem)
      else parseAttrs fuel rest

/-- Parse a sibling list until end of input or a closing tag for an
ancestor (`stop` holds the open element names).  Returns the nodes and the
unconsumed input (beginning at a closing tag or empty). -/
def parseNodes (stop : List String) : Nat → List Char → (List Node × List Char)
  | 0, l => ([], l)
  | _ + 1, [] => ([], [])
  | fuel + 1, '<' :: rest =>
      (match rest with
       | '/' :: tail =>
          let name := lowerS ⟨tail.takeWhile isNameC⟩
          let after := ((tail.drop name.length).dropWhile (fun c => c ≠ '>')).drop 1
          if name.length = 0 then
            -- "</" with no name: best-effort, treat "<" as text
            let (ns, rem) := parseNodes stop fuel rest
            (mergeText "<" ns, rem)
          else if name ∈ stop then
            -- closing tag of an open ancestor: stop here, caller consumes it
            ([], '<' :: rest)
          else
            -- unmatched closing tag: drop it
            parseNodes stop fuel after
       | c :: _ =>
          if isNameC c then
            let name := lowerS ⟨rest.takeWhile isNameC⟩
            let afterName := rest.drop name.length
            let (attrs, afterTag) := parseAttrs fuel afterName
            if name ∈ voidTags then
              let (ns, rem) := parseNodes stop fuel afterTag
              (.element name attrs [] :: ns, rem)
            else
              let (kids, afterKids) := parseNodes (name :: stop) fuel afterTag
              -- consume the matching closing tag if it is ours
              let afterClose :=
                match afterKids with
                | '<' :: '/' :: t =>
                    let cname := lowerS ⟨t.takeWhile isNameC⟩
                    if cname = name then ((t.dropWhile (fun c => c ≠ '>')).drop 1)
                    else afterKids
                | _ => afterKids
              if afterClose = afterKids ∧ afterKids ≠ [] then
                -- closing tag of an outer ancestor: this element ends here
                (match afterKids with
                 | '<' :: '/' :: _ => ([.element name attrs kids], afterKids)
                 | _ =>
                    let (ns, rem) := parseNodes stop fuel afterClose
                    (.element name attrs kids :: ns, rem))
              else
                let (ns, rem) := parseNodes stop fuel afterClose
                (.element name attrs kids :: ns, rem)
          else
            -- "<" not followed by a name: best-effort, keep as text
            let (ns, rem) := parseNodes stop fuel rest
            (mergeText "<" ns, rem)
       | [] => ([.text "<"], []))
  | fuel + 1, c :: rest =>
      let txt := (c :: rest).takeWhile (fun ch => ch ≠ '<')
      let after := (c :: rest).drop txt.length
      let (ns, rem) := parseNodes stop fuel after
      (mergeText ⟨decodeEntities txt.length txt⟩ ns, rem)
where
  /-- Prepend text, merging with a leading text node as the DOM does. -/
  mergeText (s : String) : List Node → List Node
    | .text t :: ns => .text (s ++ t) :: ns
    | ns => .text s :: ns

/-- Modelled from the spec: the `parse(text) -> Tree` collaborator
(section 6), as used through `DOMParser.parseFromString(html,
'text/html').body`: best-effort parsing of a markup fragment into a
sibling list. -/
def parseHTML (s : String) : List Node :=
  (parseNodes [] (s.length * 2 + 2) s.data).1

end WordToHtml

namespace WordToHtml

/-! ## URL helpers of the sanitizer (`src/js/core/sanitizer.js`)

`cleanUrl` / `isSafeUrl` rely on the ECMAScript built-ins
`decodeURIComponent` / `encodeURIComponent` and on the browser `URL`
constructor; those built-ins are embedded executably below (UTF-8
percent-coding; absolute-URL decomposition into origin, pathname, search
and hash).  The base used by the browser to resolve relative URLs
(`window.location.href`) is environment state; it is modelled as a fixed
origin, and no theorem below depends on it. -/

/-- Hex digit value, if the character is one. -/
def hexVal (c : Char) : Option Nat :=
  if '0' ≤ c ∧ c ≤ '9' then some (c.toNat - '0'.toNat)
  else if 'a' ≤ c ∧ c ≤ 'f' then some (c.toNat - 'a'.toNat + 10)
  else if 'A' ≤ c ∧ c ≤ 'F' then some (c.toNat - 'A'.toNat + 10)
  else none

/-- Upper-case hex digit for percent-encoding. -/
def hexDigitU (n : Nat) : Char :=
  if n < 10 then Char.ofNat ('0'.toNat + n) else Char.ofNat ('A'.toNat + n - 10)

/-- UTF-8 encoding of one character as a byte list. -/
def utf8Bytes (c : Char) : List Nat :=
  let n := c.toNat
  if n < 0x80 then [n]
  else if n < 0x800 then [0xC0 + n / 64, 0x80 + n % 64]
  else if n < 0x10000 then [0xE0 + n / 4096, 0x80 + (n / 64) % 64, 0x80 + n % 64]
  else [0xF0 + n / 262144, 0x80 + (n / 4096) % 64, 0x80 + (n / 64) % 64, 0x80 + n % 64]

/-- Strict UTF-8 decoding of a byte list (used by `decodeURIComponent`;
malformed sequences make the built-in throw `URIError`, modelled as
`none`). -/
def utf8DecodeBytes : Nat → List Nat → Option (List Char)
  | 0, l => if l.isEmpty then some [] else none
  | _ + 1, [] => some []
  | fuel + 1, b :: rest =>
      if b < 0x80 then do
        let tail ← utf8DecodeBytes fuel rest
        pure (Char.ofNat b :: tail)
      else if 0xC0 ≤ b ∧ b < 0xE0 then
        match rest with
        | b1 :: rest1 =>
            if 0x80 ≤ b1 ∧ b1 < 0xC0 then do
              let n := (b - 0xC0) * 64 + (b1 - 0x80)
              let tail ← utf8DecodeBytes fuel rest1
              if n < 0x80 then none else pure (Char.ofNat n :: tail)
            else none
        | _ => none
      else if 0xE0 ≤ b ∧ b < 0xF0 then
        match rest with
        | b1 :: b2 :: rest2 =>
            if (0x80 ≤ b1 ∧ b1 < 0xC0) ∧ (0x80 ≤ b2 ∧ b2 < 0xC0) then do
              let n := (b - 0xE0) * 4096 + (b1 - 0x80) * 64 + (b2 - 0x80)
              let tail ← utf8DecodeBytes fuel rest2
              if n < 0x800 ∨ (0xD800 ≤ n ∧ n ≤ 0xDFFF) then none
              else pure (Char.ofNat n :: tail)
            else none
        | _ => none
      else if 0xF0 ≤ b ∧ b < 0xF8 then
        match rest with
        | b1 :: b2 :: b3 :: rest3 =>
            if (0x80 ≤ b1 ∧ b1 < 0xC0) ∧ (0x80 ≤ b2 ∧ b2 < 0xC0) ∧ (0x80 ≤ b3 ∧ b3 < 0xC0) then do
              let n := (b - 0xF0) * 262144 + (b1 - 0x80) * 4096 + (b2 - 0x80) * 64 + (b3 - 0x80)
              let tail ← utf8DecodeBytes fuel rest3
              if n < 0x10000 ∨ n > 0x10FFFF then none else pure (Char.ofNat n :: tail)
            else none
        | _ => none
      else none

/-- Collect the maximal leading run of `%XX` byte escapes.  Returns
`none` if a `%` is not followed by two hex digits (`URIError`). -/
def pctRun : Nat → List Char → Option (List Nat × List Char)
  | 0, l => some ([], l)
  | fuel + 1, '%' :: rest =>
      (match rest with
       | h1 :: h2 :: tail =>
          match hexVal h1, hexVal h2 with
          | some v1, some v2 =>
              (match pctRun fuel tail with
               | some (bs, rem) => some ((v1 * 16 + v2) :: bs, rem)
               | none => none)
          | _, _ => none
       | _ => none)
  | _ + 1, l => some ([], l)

/-- ECMAScript `decodeURIComponent`: decode `%XX` runs as UTF-8,
throwing (`none`) on malformed escapes or byte sequences. -/
def decodeURIComp : Nat → List Char → Option (List Char)
  | 0, l => if l.isEmpty then some [] else none
  | _ + 1, [] => some []
  | fuel + 1, '%' :: rest => do
      let (bytes, rem) ← pctRun (rest.length + 1) ('%' :: rest)
      let chars ← utf8DecodeBytes bytes.length bytes
      let tail ← decodeURIComp fuel rem
      pure (chars ++ tail)
  | fuel + 1, c :: rest => do
      let tail ← decodeURIComp fuel rest
      pure (c :: tail)

/-- `decodeURIComponent` on strings. -/
def decodeURIComponentS (s : String) : Option String :=
  (decodeURIComp (s.length + 1) s.data).map (fun l => ⟨l⟩)

/-- The characters `encodeURIComponent` leaves unescaped. -/
def uriUnescaped (c : Char) : Bool :=
  isNameC c ∨ c = '-' ∨ c = '_' ∨ c = '.' ∨ c = '!' ∨ c = '~' ∨ c = '*' ∨
  c = '\'' ∨ c = '(' ∨ c = ')'

/-- ECMAScript `encodeURIComponent`. -/
def encodeURIComponentS (s : String) : String :=
  ⟨s.data.foldr (fun c acc =>
     if uriUnescaped c then c :: acc
     else (utf8Bytes c).foldr (fun b acc2 =>
       '%' :: hexDigitU (b / 16) :: hexDigitU (b % 16) :: acc2) acc) []⟩

/-- A decomposed absolute URL, as produced by the browser `URL`
constructor: `origin`, `pathname`, `search` and `hash`. -/
structure UrlParts where
  origin : String
  pathname : String
  search : String
  hash : String
deriving Repr

/-- The scheme of an absolute URL (`"http:"` in `url.protocol` form),
or `none` when the string has no scheme and is a relative reference. -/
def urlScheme (s : String) : Option String :=
  match s.data with
  | c :: rest =>
      if ('a' ≤ lowerC c ∧ lowerC c ≤ 'z') then
        let body := rest.takeWhile (fun ch =>
          isNameC ch ∨ ch = '+' ∨ ch = '-' ∨ ch = '.')
        match rest.drop body.length with
        | ':' :: _ => some (lowerS ⟨c :: body⟩ ++ ":")
        | _ => none
      else none
  | [] => none

/-- Modelled from the spec: the origin of the page hosting the pipeline
(`window.location`), used by the browser to resolve relative URLs.  It is
environment state outside the repository; no theorem depends on it. -/
def baseOrigin : String := "http://localhost"

/-- Split `l` at the first character satisfying `p`: the part before, and
the remainder starting at that character. -/
def spanUntil (p : Char → Bool) (l : List Char) : List Char × List Char :=
  (l.takeWhile (fun c => ¬ p c), l.dropWhile (fun c => ¬ p c))

/-- The browser `new URL(input, base)` constructor, reduced to the fields
`cleanUrl` reads.  Absolute `http`/`https` URLs are decomposed; other
schemes get the opaque origin `"null"` as browsers report; relative
references resolve against the modelled base.  An `http(s)` URL with an
empty host fails (`none`). -/
def newURL (s : String) : Option UrlParts :=
  match urlScheme s with
  | some sch =>
      if sch = "http:" ∨ sch = "https:" then
        let afterScheme := s.data.drop sch.length
        match afterScheme with
        | '/' :: '/' :: hostRest =>
            let (host, rest) := spanUntil (fun c => c = '/' ∨ c = '?' ∨ c = '#') hostRest
            if host.isEmpty then none
            else
              let (path, rest2) := spanUntil (fun c => c = '?' ∨ c = '#') rest
              let (search, hashPart) := spanUntil (fun c => c = '#') rest2
              some { origin := sch ++ "//" ++ lowerS ⟨host⟩,
                     pathname := if path.isEmpty then "/" else ⟨path⟩,
                     search := ⟨search⟩, hash := ⟨hashPart⟩ }
        | _ => none
      else
        -- non-special scheme (mailto:, javascript:, ...): opaque path
        let afterScheme := s.data.drop sch.length
        let (path, rest2) := spanUntil (fun c => c = '?' ∨ c = '#') afterScheme
        let (search, hashPart) := spanUntil (fun c => c = '#') rest2
        some { origin := "null", pathname := ⟨path⟩,
               search := ⟨search⟩, hash := ⟨hashPart⟩ }
  | none =>
      -- relative reference: resolved against the page base
      let (path, rest2) := spanUntil (fun c => c = '?' ∨ c = '#') s.data
      let (search, hashPart) := spanUntil (fun c => c = '#') rest2
      let absPath := if startsWithS ⟨path⟩ "/" then ⟨path⟩ else "/" ++ ⟨path⟩
      some { origin := baseOrigin, pathname := absPath,
             search := ⟨search⟩, hash := ⟨hashPart⟩ }

end WordToHtml

namespace WordToHtml

/-! ## `cleanUrl` and `isSafeUrl` (`src/js/core/sanitizer.js`, lines 331-412) -/

/-- `replace(/[‑‒–—―]/g, '-')`: non-breaking
hyphen, figure dash, en dash, em dash and horizontal bar become hyphens. -/
def replDashC (c : Char) : Char :=
  if 0x2011 ≤ c.toNat ∧ c.toNat ≤ 0x2015 then '-' else c

/-- `replace(/ /g, ' ')`. -/
def replNbspC (c : Char) : Char := if c = nbspC then ' ' else c

/-- `replace(/\s+/g, '-')`: each whitespace run becomes one hyphen.  The
flag records whether we are inside a run already replaced. -/
def collapseWs (inRun : Bool) : List Char → List Char
  | [] => []
  | c :: rest =>
      if isJsWs c then
        if inRun then collapseWs true rest else '-' :: collapseWs true rest
      else c :: collapseWs false rest

/-- The global replace of hyphen runs with one hyphen. -/
def collapseHyph (inRun : Bool) : List Char → List Char
  | [] => []
  | c :: rest =>
      if c = '-' then
        if inRun then collapseHyph true rest else '-' :: collapseHyph true rest
      else c :: collapseHyph false rest

/-- The global replace of slash-then-hyphens with a lone slash: hyphens
directly following a slash are dropped.  The flag records being right
after a slash (or a dropped hyphen). -/
def dropHyphAfterSlash (afterSlash : Bool) : List Char → List Char
  | [] => []
  | c :: rest =>
      if c = '/' then '/' :: dropHyphAfterSlash true rest
      else if c = '-' ∧ afterSlash then dropHyphAfterSlash true rest
      else c :: dropHyphAfterSlash false rest

/-- The global replace of hyphens-then-slash with a lone slash: hyphens
directly before a slash are dropped (realized by mirroring
`dropHyphAfterSlash` on the reversed list). -/
def dropHyphBeforeSlash (l : List Char) : List Char :=
  (dropHyphAfterSlash false l.reverse).reverse

/-- Replace every occurrence of the literal `pat` by `rep`
(JS `String.prototype.replace` with a global literal-alternation regex). -/
def replaceAllL (pat rep : List Char) : Nat → List Char → List Char
  | 0, l => l
  | _ + 1, [] => []
  | fuel + 1, c :: rest =>
      if startsL pat (c :: rest) ∧ pat ≠ [] then
        rep ++ replaceAllL pat rep fuel ((c :: rest).drop pat.length)
      else c :: replaceAllL pat rep fuel rest

/-- `replaceAllL` on strings. -/
def replaceAllS (s pat rep : String) : String :=
  ⟨replaceAllL pat.data rep.data s.length s.data⟩

/-- The replace chain applied to the decoded URL inside `cleanUrl`. -/
def cleanUrlReplaceChain (decoded : String) : String :=
  let c1 := (decoded.data.map replDashC).map replNbspC
  let c2 := collapseWs false c1
  let c3 := collapseHyph false c2
  let c4 := dropHyphAfterSlash false c3
  ⟨dropHyphBeforeSlash c4⟩

/-- `cleanUrl` (sanitizer.js lines 331-387): decode percent-escapes,
normalize dash-like characters and whitespace to hyphens, collapse hyphen
runs, strip hyphens adjacent to path slashes; if anything changed,
re-encode through the `URL` constructor; if decoding throws, fall back to
literal replacement of the encoded escapes. -/
def cleanUrl (url : String) : String :=
  if url = "" then url
  else
    match decodeURIComponentS url with
    | some decoded =>
        let cleaned := cleanUrlReplaceChain decoded
        if cleaned ≠ decoded then
          match newURL cleaned with
          | some u =>
              let segs := splitS u.pathname '/'
              let decSegs := segs.mapM decodeURIComponentS
              (match decSegs with
               | some ds =>
                  u.origin ++ joinS "/" (ds.map encodeURIComponentS) ++ u.search ++ u.hash
               | none => cleaned)
          | none => cleaned
        else url
    | none =>
        let c1 := replaceAllS url "%E2%80%91" "-"
        let c2 := replaceAllS c1 "%E2%80%93" "-"
        let c3 := replaceAllS c2 "%E2%80%94" "-"
        let c4 := replaceAllS c3 "%E2%80%95" "-"
        let c5 := replaceAllS c4 "%C2%A0" "-"
        ⟨collapseHyph false c5.data⟩

/-- The safe URL protocols of the sanitizer. -/
def safeProtocols : List String := ["http:", "https:", "mailto:"]

/-- `isSafeUrl` (sanitizer.js lines 394-412): root-relative and fragment
references are safe; otherwise the URL is resolved (relative references
against the page base, whose protocol is `http:`) and its protocol checked
against the safe list; a URL the constructor rejects falls back to the
relative-reference check. -/
def isSafeUrl (url : String) : Bool :=
  if url = "" then false
  else if startsWithS url "/" ∨ startsWithS url "#" then true
  else
    match urlScheme url with
    | some sch =>
        if sch = "http:" ∨ sch = "https:" then
          match newURL url with
          | some _ => true
          | none => startsWithS url "/" ∨ startsWithS url "#"
        else sch ∈ safeProtocols
    | none => true

/-! ## The sanitizer element walk (`src/js/core/sanitizer.js`) -/

/-- The semantic allow-list of the sanitizer. -/
def allowedElems : List String :=
  ["h1", "h2", "h3", "h4", "h5", "h6",
   "p", "br", "hr",
   "ul", "ol", "li",
   "em", "i", "strong", "b",
   "sup", "sub",
   "a",
   "img",
   "blockquote", "pre", "code",
   "table", "thead", "tbody", "tr", "th", "td"]

/-- The per-tag attribute allow-list (`ALLOWED_ATTRIBUTES`): `a` keeps
`href`, `img` keeps `src` and `alt`, everything else keeps nothing. -/
def allowedAttrsFor (tag : String) : List String :=
  if tag = "a" then ["href"]
  else if tag = "img" then ["src", "alt"]
  else []

/-- Parse a `style` attribute: split on `;`, split each rule on `:`, keep
rules with exactly two parts, trimming both and lower-casing the key.
Later rules overwrite earlier ones as JS object assignment does, which the
last-binding lookup `styleLookup` realizes. -/
def parseStyle (style : String) : List (String × String) :=
  (splitS style ';').filterMap (fun rule =>
    match splitS rule ':' with
    | [k, v] => some (lowerS (jsTrim k), jsTrim v)
    | _ => none)

/-- `styleObj[key]`: the last assignment wins; a missing key reads as the
empty string (falsy), matching `styleObj[k] && ...` guards. -/
def styleLookup (so : List (String × String)) (key : String) : String :=
  (so.foldl (fun acc p => if p.1 = key then some p.2 else acc) none).getD ""

/-- ECMAScript `parseInt` on the values style sheets put in
`font-weight`: leading whitespace, an optional sign, then decimal digits;
`none` models `NaN`. -/
def parseIntJS (s : String) : Option Int :=
  let l := s.data.dropWhile isJsWs
  let (sign, l2) : Int × List Char :=
    match l with
    | '-' :: rest => (-1, rest)
    | '+' :: rest => (1, rest)
    | _ => (1, l)
  let digits := l2.takeWhile (fun c => '0' ≤ c ∧ c ≤ '9')
  if digits.isEmpty then none
  else some (sign * (digits.foldl (fun acc c => acc * 10 + (c.toNat - '0'.toNat)) 0 : Nat))

/-- `font-style` declares italic. -/
def styleIsItalic (so : List (String × String)) : Bool :=
  let v := styleLookup so "font-style"
  v ≠ "" ∧ includesS (lowerS v) "italic"

/-- `font-weight` declares bold: the keyword `bold` or a numeric weight of
at least 700. -/
def styleIsBold (so : List (String × String)) : Bool :=
  let v := styleLookup so "font-weight"
  v ≠ "" ∧ (lowerS v = "bold" ∨ (parseIntJS v).getD (-1) ≥ 700)

/-- `vertical-align` declares superscript. -/
def styleIsSup (so : List (String × String)) : Bool :=
  let v := styleLookup so "vertical-align"
  v ≠ "" ∧ (lowerS v = "super" ∨ includesS v "super" ∨ includesS v "35%" ∨ includesS v "0.6")

/-- `vertical-align` declares subscript. -/
def styleIsSub (so : List (String × String)) : Bool :=
  let v := styleLookup so "vertical-align"
  v ≠ "" ∧ (lowerS v = "sub" ∨ includesS v "sub" ∨ includesS v "-35%" ∨ includesS v "-0.6")

/-- `convertFormattingToSemanticTags` (sanitizer.js lines 82-168): inspect
a disallowed element's style; when it declares italic / bold /
superscript / subscript, build the replacement wrapper nesting
`sup`/`sub` outermost, then `strong`, then `em`, around the (already
sanitized) children.  Returns the outermost tag and its child list, or
`none` when no formatting style is present. -/
def convertFormatting (attrs : List (String × String)) (children : List Node) :
    Option (String × List Node) :=
  let style := (getAttr attrs "style").getD ""
  if style = "" then none
  else
    let so := parseStyle style
    let ital := styleIsItalic so
    let bold := styleIsBold so
    let sup := styleIsSup so
    let sub := styleIsSub so
    if ¬ ital ∧ ¬ bold ∧ ¬ sup ∧ ¬ sub then none
    else
      let afterItal : Option (String × List Node) :=
        if ital then some ("em", children) else none
      let afterBold : Option (String × List Node) :=
        if bold then
          match afterItal with
          | some (t, cs) => some ("strong", [.element t [] cs])
          | none => some ("strong", children)
        else afterItal
      let afterVert : Option (String × List Node) :=
        if sup then
          match afterBold with
          | some (t, cs) => some ("sup", [.element t [] cs])
          | none => some ("sup", children)
        else if sub then
          match afterBold with
          | some (t, cs) => some ("sub", [.element t [] cs])
          | none => some ("sub", children)
        else afterBold
      afterVert

/-- Is this attribute name unconditionally removed by
`sanitizeAttributes`? -/
def alwaysRemovedAttr (name : String) : Bool :=
  name = "style" ∨ name = "class" ∨ startsWithS name "data-" ∨
  startsWithS name "on" ∨ name = "id" ∨ name = "dir" ∨ name = "role" ∨
  name = "aria-level"

/-- `sanitizeAttributes` (sanitizer.js lines 278-324): drop the
unconditionally-removed names and everything outside the per-tag
allow-list; clean `href`/`src` values through `cleanUrl` and drop them
when the cleaned value is unsafe. -/
def sanitizeAttrs (tag : String) (attrs : List (String × String)) :
    List (String × String) :=
  let allowed := allowedAttrsFor tag
  attrs.filterMap (fun p =>
    if alwaysRemovedAttr p.1 then none
    else if p.1 ∉ allowed then none
    else if p.1 = "href" ∨ p.1 = "src" then
      let cleaned := cleanUrl p.2
      if isSafeUrl cleaned then some (p.1, cleaned) else none
    else some p)

mutual

/-- Weight of a node for the sanitizer fuel: each node costs one,
disallowed tags cost four more (they vanish or become light wrappers),
and a `style` attribute costs three more (it is consumed by the
formatting-wrapper synthesis). -/
def muN : Node → Nat
  | .text _ => 1
  | .element t a cs =>
      1 + (if t ∈ allowedElems then 0 else 4) + (if hasAttr a "style" then 3 else 0) + muL cs

/-- Total weight of a sibling list. -/
def muL : List Node → Nat
  | [] => 0
  | n :: rest => muN n + muL rest

end

/-- `sanitizeElement` (sanitizer.js lines 174-271) on a sibling list.
Disallowed elements have their children sanitized first, then either
become the synthesized formatting wrapper (which is itself re-sanitized,
as the source re-runs `sanitizeElement` on the replacement) or are
unwrapped in place.  Allowed elements get a formatting wrapper around
their children when their own style declares italic/bold, have their
attributes sanitized, and are recursed into.  The fuel only realizes
termination; `sanitizeBody` supplies enough for it never to run out. -/
def sanitizeL : Nat → List Node → List Node
  | 0, l => l
  | _ + 1, [] => []
  | fuel + 1, .text s :: rest => .text s :: sanitizeL fuel rest
  | fuel + 1, .element t a cs :: rest =>
      if t ∈ allowedElems then
        let style := (getAttr a "style").getD ""
        let so := parseStyle style
        let ital := style ≠ "" ∧ styleIsItalic so
        let bold := style ≠ "" ∧ styleIsBold so
        if ital ∨ bold then
          let cs' := sanitizeL fuel cs
          let wrapper : Node :=
            if ital ∧ bold then .element "strong" [] [.element "em" [] cs']
            else if ital then .element "em" [] cs'
            else .element "strong" [] cs'
          .element t (sanitizeAttrs t a) [wrapper] :: sanitizeL fuel rest
        else
          .element t (sanitizeAttrs t a) (sanitizeL fuel cs) :: sanitizeL fuel rest
      else
        let cs' := sanitizeL fuel cs
        match convertFormatting a cs' with
        | some (rt, rkids) => .element rt [] (sanitizeL fuel rkids) :: sanitizeL fuel rest
        | none => cs' ++ sanitizeL fuel rest

/-- The sanitizer walk over a parsed body with sufficient fuel, followed
by the top-level single-wrapper unwrap of `sanitize` (lines 59-72). -/
def sanitizeBody (body : List Node) : List Node :=
  let s := sanitizeL (muL body) body
  match elemChildren s with
  | [.element t a cs] =>
      if t ∉ allowedElems ∨ (t = "span" ∧ a = []) then cs else s
  | _ => s

/-- `sanitize` (sanitizer.js lines 45-75): guard falsy input, parse,
sanitize the tree, unwrap a lone non-semantic top-level wrapper, and
serialize. -/
def sanitize (html : String) : String :=
  if html = "" then ""
  else serializeL (sanitizeBody (parseHTML html))

end WordToHtml

namespace WordToHtml

/-! ## The structural cleaner (`src/js/utils/html-cleaner.js`)

The cleaner mutates the DOM inside a `try`; two of its code paths call
`removeChild` on an already-detached node, which raises `NotFoundError`
and makes `cleanHtml` return the original input string.  The embedding
therefore returns `Except Unit` from the tree walk, `error` marking a
thrown DOM exception. -/

/-- `BLOCK_ELEMENTS` — the same list appears in `html-cleaner.js` and
`html-formatter.js`. -/
def blockElems : List String :=
  ["div", "p", "h1", "h2", "h3", "h4", "h5", "h6", "ul", "ol", "li",
   "blockquote", "pre", "table", "thead", "tbody", "tr", "th", "td",
   "dl", "dt", "dd", "section", "article", "aside", "header", "footer",
   "nav", "main", "figure", "figcaption"]

/-- Is this tag in `BLOCK_ELEMENTS`? -/
def isBlockTag (t : String) : Bool := t ∈ blockElems

/-- Is this node a `br` element? -/
def isBr (n : Node) : Bool := isElemTag "br" n

/-- Is this node an `em` element? -/
def isEmN (n : Node) : Bool := isElemTag "em" n

mutual

/-- Total number of nodes in a tree (fuel bound for the cleaner walk). -/
def sizeN : Node → Nat
  | .text _ => 1
  | .element _ _ cs => 1 + sizeL cs

/-- Total number of nodes in a sibling list. -/
def sizeL : List Node → Nat
  | [] => 0
  | n :: rest => sizeN n + sizeL rest

end

/-- `unwrapParagraph` (html-cleaner.js lines 241-276): splice a `p`
found inside a list item into its parent, dropping `br` children and
whitespace-only text children. -/
def unwrapP (cs : List Node) : List Node :=
  cs.filterMap (fun n =>
    match n with
    | .element "br" _ _ => none
    | .element _ _ _ => some n
    | .text s => if jsTrim s ≠ "" then some (.text s) else none)

/-- Locate the first direct `em` element child of a `strong`: the
children before it, its attributes and children, and the children after
it. -/
def findDirectEm (cs : List Node) :
    Option (List Node × List (String × String) × List Node × List Node) :=
  match cs with
  | [] => none
  | n :: rest =>
      match n with
      | .element "em" ea ecs => some ([], ea, ecs, rest)
      | _ =>
          match findDirectEm rest with
          | some (pre, ea, ecs, post) => some (n :: pre, ea, ecs, post)
          | none => none

mutual

/-- `normalizeStrongEmNesting` (html-cleaner.js lines 157-234) applied to
a children list: a `strong` with a direct `em` child is replaced by a
fresh `em` wrapping a fresh `strong` holding the `em`'s content; the
nodes that followed the `em` inside the `strong` are re-inserted one by
one at `child.nextSibling`, which lands them after the new `em` in
reverse order; the nodes before the `em` stay inside the removed
`strong` and are discarded.  Other elements are recursed into; the
rewrite output itself is not revisited, as the source iterates a
snapshot. -/
def normalizeSEL : List Node → List Node
  | [] => []
  | n :: rest => normalizeSEN n ++ normalizeSEL rest

/-- The per-child step of `normalizeStrongEmNesting`: the rewrite of a
`strong` holding a direct `em`, or the recursion into any other
element. -/
def normalizeSEN : Node → List Node
  | .element "strong" sa scs =>
      (match findDirectEm scs with
       | some (_, _, emKids, post) =>
          .element "em" [] [.element "strong" [] emKids] :: post.reverse
       | none => [.element "strong" sa (normalizeSEL scs)])
  | .element t a cs => [.element t a (normalizeSEL cs)]
  | .text s => [.text s]

end

/-- One step of `mergeAdjacentEmTags`: merge the first pair of adjacent
`em` element children (the first keeps its attributes and receives the
second's children). -/
def mergeStep : List Node → Option (List Node)
  | .element "em" a1 cs1 :: .element "em" _ cs2 :: rest =>
      some (.element "em" a1 (cs1 ++ cs2) :: rest)
  | n :: rest => (mergeStep rest).map (fun r => n :: r)
  | [] => none

/-- `mergeAdjacentEmTags` (html-cleaner.js lines 286-320): repeat the
merge step until no adjacent `em` pair remains; each merge shortens the
list, so the length bounds the iteration. -/
def mergeAdjFuel : Nat → List Node → List Node
  | 0, l => l
  | f + 1, l =>
      match mergeStep l with
      | some l' => mergeAdjFuel f l'
      | none => l

/-- `mergeAdjacentEmTags` on a children list. -/
def mergeAdjEms (l : List Node) : List Node := mergeAdjFuel l.length l

/-- The child-processing loop of `cleanElement` (html-cleaner.js lines
74-121), the per-element end-of-call cleanup (strong/em canonicalization
and adjacent-`em` merge inside list items, lines 137-143), and the
trailing-sibling `br` removal a block child performs on its parent's list
(lines 125-135).  `inLi` is `nowInsideLi` of the parent element,
`parentBlock` its `BLOCK_ELEMENTS` membership.  `error` models the
`NotFoundError` thrown when the source calls `removeChild` on a node it
has already detached: this happens whenever a text child of a block
element is directly followed by a `br` (lines 110-116 remove the `br`,
then the loop revisits it), and whenever the sibling following a block
child is a `br` in a block or list-item parent (the block child's own
cleanup detaches it first).  The fuel only realizes termination;
`cleanHtml` supplies enough for it never to run out. -/
def cleanL (inLi parentBlock : Bool) : Nat → List Node → Except Unit (List Node)
  | 0, l => .ok l
  | _ + 1, [] => .ok []
  | fuel + 1, .text s :: rest =>
      (match rest with
       | .element "br" _ _ :: _ =>
          if parentBlock then .error ()
          else do
            let r ← cleanL inLi parentBlock fuel rest
            pure (.text s :: r)
       | _ => do
          let r ← cleanL inLi parentBlock fuel rest
          pure (.text s :: r))
  | fuel + 1, .element tag attrs cs :: rest =>
      if tag = "br" ∧ (inLi ∨ parentBlock) then
        cleanL inLi parentBlock fuel rest
      else if tag = "p" ∧ inLi then do
        let r ← cleanL inLi parentBlock fuel rest
        pure (unwrapP cs ++ r)
      else do
        -- recursive `cleanElement(node, nowInsideLi)` on this child
        let nowInLi := tag = "li" ∨ inLi
        let cs0 ← cleanL nowInLi (isBlockTag tag) fuel cs
        let cs1 := if nowInLi then mergeAdjEms (normalizeSEL cs0) else cs0
        let e' : Node := .element tag attrs cs1
        if isBlockTag tag then
          match rest with
          | .element "br" _ _ :: _ =>
              if inLi ∨ parentBlock then .error ()
              else pure (e' :: rest.filter (fun n => ¬ isBr n))
          | _ => do
              let r ← cleanL inLi parentBlock fuel (rest.filter (fun n => ¬ isBr n))
              pure (e' :: r)
        else do
          let r ← cleanL inLi parentBlock fuel rest
          pure (e' :: r)

/-- `cleanElement` on one element, as a reading of the walk above:
process the children, then, inside a list item, canonicalize strong/em
nesting and merge adjacent `em` siblings. -/
def cleanNode (insideLi : Bool) (fuel : Nat) : Node → Except Unit Node
  | .text s => .ok (.text s)
  | .element tag attrs cs => do
      let nowInLi := tag = "li" ∨ insideLi
      let cs' ← cleanL nowInLi (isBlockTag tag) fuel cs
      let cs'' := if nowInLi then mergeAdjEms (normalizeSEL cs') else cs'
      pure (.element tag attrs cs'')

mutual

/-- `removeBrAfterBlockElements` recursion into children. -/
def rmBrN : Node → Node
  | .text s => .text s
  | .element t a cs => .element t a (rmBrL cs)

/-- `removeBrAfterBlockElements` (html-cleaner.js lines 410-448) on a
sibling list: children first, then drop the `br` run directly following
each block element at this level. -/
def rmBrL : List Node → List Node
  | [] => []
  | n :: rest => rmBrScan false (rmBrN n :: rmBrMapL rest)

/-- Map the recursion over the remaining siblings. -/
def rmBrMapL : List Node → List Node
  | [] => []
  | n :: rest => rmBrN n :: rmBrMapL rest

/-- The scan dropping `br`s that directly follow a block element
(`afterBlock` is true inside such a run). -/
def rmBrScan (afterBlock : Bool) : List Node → List Node
  | [] => []
  | n :: rest =>
      if isBr n ∧ afterBlock then rmBrScan true rest
      else if (match n with | .element t _ _ => isBlockTag t | _ => false) then
        n :: rmBrScan true rest
      else n :: rmBrScan false rest

end

/-- Index of the first direct text child. -/
def firstTextIdx (cs : List Node) : Option Nat :=
  (cs.enum.find? (fun p => ¬ p.2.isElem)).map (·.1)

/-- Index of the last direct text child. -/
def lastTextIdx (cs : List Node) : Option Nat :=
  ((cs.enum.filter (fun p => ¬ p.2.isElem)).getLast?).map (·.1)

/-- The anchor text-trim of `trimAnchorWhitespace`: `none` models the
thrown `NotFoundError` (sole all-whitespace text child removed twice). -/
def trimAnchorChildren (cs : List Node) : Option (List Node) :=
  match firstTextIdx cs, lastTextIdx cs with
  | some fi, some li =>
      if fi = li then
        -- same node: the leading trim runs first; if it empties the node it
        -- removes it, and the both-ends branch then removes it again: throw
        match cs.get? fi with
        | some (.text s) =>
            if jsTrimStart s = "" then none
            else some (cs.enum.map (fun p =>
              if p.1 = fi then Node.text (jsTrim s) else p.2))
        | _ => some cs
      else
        -- distinct first and last text children: trim each end separately,
        -- removing a node its trim empties
        some (cs.enum.filterMap (fun p =>
          match p.2 with
          | .text s =>
              if p.1 = fi then
                (if jsTrimStart s = "" then none else some (Node.text (jsTrimStart s)))
              else if p.1 = li then
                (if jsTrimEnd s = "" then none else some (Node.text (jsTrimEnd s)))
              else some (Node.text s)
          | n => some n))
  | _, _ => some cs

mutual

/-- `trimAnchorWhitespace` (html-cleaner.js lines 328-402) on one node:
recurse into children first, then, for an anchor, trim the leading
whitespace of its first direct text child and the trailing whitespace of
its last.  A text child emptied by the leading trim is removed; if it was
the only text child, the code then calls `removeChild` on it a second
time in the same-node branch, which throws (`error`). -/
def trimAnchorN : Node → Except Unit Node
  | .text s => .ok (.text s)
  | .element tag attrs cs => do
      let cs1 ← trimAnchorL cs
      if tag ≠ "a" then pure (.element tag attrs cs1)
      else
        match trimAnchorChildren cs1 with
        | some cs2 => pure (.element tag attrs cs2)
        | none => .error ()

/-- `trimAnchorWhitespace` recursion over a sibling list. -/
def trimAnchorL : List Node → Except Unit (List Node)
  | [] => .ok []
  | n :: rest => do
      let n' ← trimAnchorN n
      let r ← trimAnchorL rest
      pure (n' :: r)

end

/-- The try block of `cleanHtml` (html-cleaner.js lines 20-50): run the
cleaning walk on the body (which is neither a list item nor a block
element), remove `br`s after block elements, trim anchor whitespace; a
DOM exception anywhere in the walk is the `error` outcome. -/
def cleanHtmlInner (body : List Node) : Except Unit (List Node) := do
  let c1 ← cleanL false false (3 * sizeL body + 3) body
  let c2 := rmBrScan false (rmBrMapL c1)
  trimAnchorL c2

/-- The boundary of `cleanHtml`: serialize the cleaned tree, or return
the original input when the walk threw. -/
def cleanHtml (html : String) : String :=
  if html = "" then ""
  else
    match cleanHtmlInner (parseHTML html) with
    | .ok t => serializeL t
    | .error _ => html

end WordToHtml

namespace WordToHtml

/-! ## Mode transform: list normalization (`src/js/utils/mode-list-normalize.js`)

For every `strong` inside a list item whose text trims to end with a
colon: rewrite the strong's markup dropping whitespace between the final
colon and the closing tag, then ensure exactly one space follows the
strong.  The source targets the enclosing `li` for the space insertion;
when the strong is nested deeper and its next sibling is an element,
`li.insertBefore` receives a child of another parent and throws, which the
stage boundary turns into returning the input unchanged. -/

/-- The replace of a final colon-then-whitespace-run by a lone colon
(the source applies it to the strong's `innerHTML`). -/
def replaceColonWsEnd (s : String) : String :=
  let rev := s.data.reverse
  let ws := rev.takeWhile isJsWs
  match rev.drop ws.length with
  | ':' :: rest => if ws.isEmpty then s else ⟨(':' :: rest).reverse⟩
  | _ => s

/-- Does this strong content trim to end with a colon? -/
def strongEndsColon (scs : List Node) : Bool :=
  endsWithS (jsTrim (textContentL scs)) ":"

/-- The walk over a list item's subtree applying the colon normalization
to each `strong` in document order.  `directLi` records that the current
sibling list is the list item's own child list (where `li.insertBefore`
is legal); the returned number counts the single-space text nodes the
source appends at the end of the `li` (`li.appendChild`) for strongs with
no following sibling.  `error` models the `NotFoundError` of
`li.insertBefore` receiving a node of another parent.  The fuel only
realizes termination across the `innerHTML` re-parse. -/
def walkLiStrongs (directLi : Bool) : Nat → List Node → Except Unit (List Node × Nat)
  | 0, l => .ok (l, 0)
  | _ + 1, [] => .ok ([], 0)
  | fuel + 1, .element "strong" sa scs :: rest =>
      if strongEndsColon scs then do
        let scs1 := parseHTML (replaceColonWsEnd (serializeL scs))
        let (scs2, a1) ← walkLiStrongs false fuel scs1
        let strongN : Node := .element "strong" sa scs2
        match rest with
        | .text t :: rest2 => do
            let t' := if jsTrim t ≠ "" then " " ++ jsTrim t else " "
            let (r, a2) ← walkLiStrongs directLi fuel rest2
            pure (strongN :: .text t' :: r, a1 + a2)
        | n :: rest2 =>
            if directLi then do
              let (r, a2) ← walkLiStrongs directLi fuel (n :: rest2)
              pure (strongN :: .text " " :: r, a1 + a2)
            else .error ()
        | [] => pure ([strongN], a1 + 1)
      else do
        let (scs2, a1) ← walkLiStrongs false fuel scs
        let (r, a2) ← walkLiStrongs directLi fuel rest
        pure (.element "strong" sa scs2 :: r, a1 + a2)
  | fuel + 1, .element t a cs :: rest => do
      let (cs2, a1) ← walkLiStrongs false fuel cs
      let (r, a2) ← walkLiStrongs directLi fuel rest
      pure (.element t a cs2 :: r, a1 + a2)
  | fuel + 1, n :: rest => do
      let (r, a2) ← walkLiStrongs directLi fuel rest
      pure (n :: r, a2)

/-- The walk over the document finding each `li` and normalizing the
strongs within it. -/
def listNormWalk : Nat → List Node → Except Unit (List Node)
  | 0, l => .ok l
  | _ + 1, [] => .ok []
  | fuel + 1, .element "li" a cs :: rest => do
      let (cs1, app) ← walkLiStrongs true (4 * (sizeL cs + (serializeL cs).length) + 4) cs
      let cs2 := cs1 ++ List.replicate app (.text " ")
      let cs3 ← listNormWalk fuel cs2
      let r ← listNormWalk fuel rest
      pure (.element "li" a cs3 :: r)
  | fuel + 1, .element t a cs :: rest => do
      let cs' ← listNormWalk fuel cs
      let r ← listNormWalk fuel rest
      pure (.element t a cs' :: r)
  | fuel + 1, n :: rest => do
      let r ← listNormWalk fuel rest
      pure (n :: r)

/-- `normalizeLists` (mode-list-normalize.js): parse, walk, serialize; a
DOM exception restores the input. -/
def listNormalize (html : String) : String :=
  if html = "" then ""
  else
    let body := parseHTML html
    match listNormWalk (2 * sizeL body + 2) body with
    | .ok t => serializeL t
    | .error _ => html

/-! ## Mode transform: heading strong wrapping (`src/unnamed/part_004`) -/

/-- The heading tags. -/
def headingTags : List String := ["h1", "h2", "h3", "h4", "h5", "h6"]

mutual

/-- `wrapHeadingsInStrong` walk: every heading whose element children are
not exactly one `strong` (and which is non-empty) gets its entire child
list moved into one new `strong`. -/
def headingStrongN : Node → Node
  | .text s => .text s
  | .element t a cs =>
      if t ∈ headingTags then
        let skip :=
          (match elemChildren cs with
           | [.element "strong" _ _] => true
           | _ => false) || cs.isEmpty
        if skip then .element t a (headingStrongL cs)
        else .element t a [.element "strong" [] (headingStrongL cs)]
      else .element t a (headingStrongL cs)

/-- `wrapHeadingsInStrong` walk over a sibling list. -/
def headingStrongL : List Node → List Node
  | [] => []
  | n :: rest => headingStrongN n :: headingStrongL rest

end

/-- `wrapHeadingsInStrong` (part_004). -/
def headingStrongWrap (html : String) : String :=
  if html = "" then "" else serializeL (headingStrongL (parseHTML html))

/-! ## Mode transform: key-takeaways formatting (`src/unnamed/part_000`) -/

/-- Does this element text contain "key takeaways" (case-insensitive)? -/
def isKTText (cs : List Node) : Bool :=
  includesS (lowerS (jsTrim (textContentL cs))) "key takeaways"

mutual

/-- `removeEmTags`: unwrap every `em` descendant, splicing its children
into its place. -/
def removeEms : List Node → List Node
  | [] => []
  | n :: rest => removeEmsN n ++ removeEms rest

/-- `removeEmTags` on one node: an `em` dissolves into its (recursively
processed) children. -/
def removeEmsN : Node → List Node
  | .element "em" _ ecs => removeEms ecs
  | .element t a cs => [.element t a (removeEms cs)]
  | .text s => [.text s]

end

mutual

/-- Replace the children of the first `strong` descendant (document
order) by a single text node; reports whether one was found. -/
def setFirstStrongText (newText : String) : List Node → (List Node × Bool)
  | [] => ([], false)
  | n :: rest =>
      match setFirstStrongN newText n with
      | (n', true) => (n' :: rest, true)
      | (_, false) =>
          let (r, f) := setFirstStrongText newText rest
          (n :: r, f)

/-- The first-strong replacement on one node. -/
def setFirstStrongN (newText : String) : Node → (Node × Bool)
  | .text s => (.text s, false)
  | .element t a cs =>
      if t = "strong" then (.element t a [.text newText], true)
      else
        let (cs', f) := setFirstStrongText newText cs
        (.element t a (if f then cs' else cs), f)

end

/-- `formatKeyTakeawaysHeading` (part_000 lines 68-92): strip `em`s from
the heading, then ensure its text ends with a colon, preferring to
rewrite the first `strong` descendant's text (with the whole heading
text), else replacing the heading content by plain text. -/
def formatKTHeading (cs : List Node) : List Node :=
  let cs1 := removeEms cs
  let text2 := jsTrim (textContentL cs1)
  if ¬ endsWithS text2 ":" then
    match setFirstStrongText (text2 ++ ":") cs1 with
    | (cs2, true) => cs2
    | (_, false) => [.text (text2 ++ ":")]
  else cs1

mutual

/-- Strip `em`s from every list item (any depth) of the key-takeaways
list. -/
def ulRemoveEms : List Node → List Node
  | [] => []
  | n :: rest => ulRemoveEmsN n :: ulRemoveEms rest

/-- The list-item `em` strip on one node. -/
def ulRemoveEmsN : Node → Node
  | .text s => .text s
  | .element t a cs =>
      if t = "li" then .element t a (removeEms cs)
      else .element t a (ulRemoveEms cs)

end

/-- After the key-takeaways heading: find the next `ul` element sibling
(walking over any other siblings) and strip `em`s from its list items. -/
def ktFindUl : List Node → List Node
  | [] => []
  | .element "ul" a cs :: rest => .element "ul" a (ulRemoveEms cs) :: rest
  | n :: rest => n :: ktFindUl rest

/-- Is this node an `h2` whose text contains "key takeaways"?  (The
match of the `querySelectorAll('h2')` scans of part_000, part_001 and
mode-spacing.js.) -/
def isKTH2 (n : Node) : Bool :=
  match n with
  | .element "h2" _ cs => isKTText cs
  | _ => false

/-- Apply `formatKeyTakeawaysHeading` to the children of a heading
node. -/
def ktH2Rewrite (n : Node) : Node :=
  match n with
  | .element t a cs => .element t a (formatKTHeading cs)
  | n => n

mutual

/-- The walk locating the first key-takeaways `h2` in document order and
applying the heading format and list de-italicization. -/
def ktWalk : List Node → (List Node × Bool)
  | [] => ([], false)
  | n :: rest =>
      if isKTH2 n then (ktH2Rewrite n :: ktFindUl rest, true)
      else
        match ktWalkN n with
        | (n', true) => (n' :: rest, true)
        | (n', false) =>
            let (r, f) := ktWalk rest
            (n' :: r, f)

/-- Descend the key-takeaways search into one node's children. -/
def ktWalkN : Node → (Node × Bool)
  | .text s => (.text s, false)
  | .element t a cs =>
      let (cs', f) := ktWalk cs
      (.element t a cs', f)

end

/-- `formatKeyTakeaways` (part_000). -/
def formatKeyTakeaways (html : String) : String :=
  if html = "" then "" else serializeL (ktWalk (parseHTML html)).1

/-! ## Mode transform: stray H1 removal (`src/unnamed/part_001`) -/

/-- After the key-takeaways `ul`: if the next element sibling is an `h1`,
remove it. -/
def h1AfterUl : List Node → List Node
  | [] => []
  | n :: rest =>
      if n.isElem then
        match n with
        | .element "h1" _ _ => rest
        | _ => n :: rest
      else n :: h1AfterUl rest

/-- After the key-takeaways heading: find the next `ul` sibling and drop
a directly following `h1`. -/
def h1FindUl : List Node → List Node
  | [] => []
  | .element "ul" a cs :: rest => .element "ul" a cs :: h1AfterUl rest
  | n :: rest => n :: h1FindUl rest

mutual

/-- The walk locating the first key-takeaways `h2` for the `h1` removal. -/
def h1rWalk : List Node → (List Node × Bool)
  | [] => ([], false)
  | n :: rest =>
      if isKTH2 n then (n :: h1FindUl rest, true)
      else
        match h1rWalkN n with
        | (n', true) => (n' :: rest, true)
        | (n', false) =>
            let (r, f) := h1rWalk rest
            (n' :: r, f)

/-- Descend the `h1`-removal search into one node's children. -/
def h1rWalkN : Node → (Node × Bool)
  | .text s => (.text s, false)
  | .element t a cs =>
      let (cs', f) := h1rWalk cs
      (.element t a cs', f)

end

/-- `removeH1AfterKeyTakeaways` (part_001). -/
def removeH1AfterKT (html : String) : String :=
  if html = "" then "" else serializeL (h1rWalk (parseHTML html)).1

/-! ## Mode transform: link attributes (`src/unnamed/part_003`) -/

/-- The `rel` update of `addLinkAttributes`: set `noopener noreferrer`
when absent; otherwise append whichever of the two words the existing
value does not contain as a substring (`String.prototype.includes`). -/
def updateRel (attrs : List (String × String)) : List (String × String) :=
  match getAttr attrs "rel" with
  | none => setAttr attrs "rel" "noopener noreferrer"
  | some rel =>
      let newRel1 :=
        if ¬ includesS rel "noopener" then
          (if rel ≠ "" then rel ++ " noopener" else "noopener")
        else rel
      let newRel2 :=
        if ¬ includesS rel "noreferrer" then
          (if newRel1 ≠ "" then newRel1 ++ " noreferrer" else "noreferrer")
        else newRel1
      if newRel2 ≠ rel then setAttr attrs "rel" newRel2 else attrs

/-- The attribute update of `addLinkAttributes` for one anchor carrying
an `href`. -/
def updateLinkAttrs (attrs : List (String × String)) : List (String × String) :=
  let a1 := if ¬ hasAttr attrs "target" then setAttr attrs "target" "_blank" else attrs
  updateRel a1

mutual

/-- `addLinkAttributes` walk over one node. -/
def linkAttrsN : Node → Node
  | .text s => .text s
  | .element "a" a cs =>
      if hasAttr a "href" then .element "a" (updateLinkAttrs a) (linkAttrsL cs)
      else .element "a" a (linkAttrsL cs)
  | .element t a cs => .element t a (linkAttrsL cs)

/-- `addLinkAttributes` walk over a sibling list. -/
def linkAttrsL : List Node → List Node
  | [] => []
  | n :: rest => linkAttrsN n :: linkAttrsL rest

end

/-- `addLinkAttributes` (part_003). -/
def addLinkAttributes (html : String) : String :=
  if html = "" then "" else serializeL (linkAttrsL (parseHTML html))

/-! ## Mode transform: relative paths (`src/unnamed/part_001`, second
file): replace each fully-qualified `href` by its path, query and
fragment; hrefs already relative or unparsable stay untouched. -/

/-- The href rewrite of `convertToRelativePaths`. -/
def relativizeHref (href : String) : String :=
  if startsWithS href "/" ∨ startsWithS href "./" ∨ startsWithS href "../" ∨
     ¬ includesS href "://" then href
  else
    match newURL href with
    | some u => u.pathname ++ u.search ++ u.hash
    | none => href

mutual

/-- `convertToRelativePaths` walk over one node. -/
def relPathsN : Node → Node
  | .text s => .text s
  | .element "a" a cs =>
      if hasAttr a "href" then
        let href := (getAttr a "href").getD ""
        if href = "" then .element "a" a (relPathsL cs)
        else .element "a" (setAttr a "href" (relativizeHref href)) (relPathsL cs)
      else .element "a" a (relPathsL cs)
  | .element t a cs => .element t a (relPathsL cs)

/-- `convertToRelativePaths` walk over a sibling list. -/
def relPathsL : List Node → List Node
  | [] => []
  | n :: rest => relPathsN n :: relPathsL rest

end

/-- `convertToRelativePaths`. -/
def convertToRelativePaths (html : String) : String :=
  if html = "" then "" else serializeL (relPathsL (parseHTML html))

end WordToHtml

namespace WordToHtml

/-! ## Mode transform: ordered-list-of-headings conversion
(`src/js/utils/mode-ol-header-conversion.js`)

The transform runs in two passes over the parsed document, as the source
does: a first pass decides which `ol` elements qualify (a heading list
not followed by another heading list), evaluated entirely on the original
tree; a second pass converts them in document order, numbering items from
per-section counters keyed by the nearest preceding top-level `h2`
(`null` when an `h1` intervenes, the list is above every `h2`, or the
list is not a top-level child).  The source reads the counter into a
`const` before iterating a list's items and writes back `counter + 1`
once per item, so every item of one list receives the same number and the
per-section counter advances by exactly one per converted list. -/

/-- `isHeaderList` (mode-ol-header-conversion.js lines 13-54): every
direct `li` child (of which there is at least one) has exactly one
element child, a `strong`, whose element children include exactly one
heading and whose direct text children are all whitespace. -/
def isHeaderListB (olKids : List Node) : Bool :=
  let lis := olKids.filter (isElemTag "li")
  ¬ lis.isEmpty ∧ lis.all (fun li =>
    match li with
    | .element _ _ lcs =>
        (match elemChildren lcs with
         | [.element "strong" _ scs] =>
            ((elemChildren scs).filter (fun n =>
               match n with
               | .element t _ _ => t ∈ headingTags
               | _ => false)).length = 1 ∧
            scs.all (fun n =>
              match n with
              | .text s => jsTrim s = ""
              | _ => true)
         | _ => false)
    | _ => false)

/-- `isFollowedByHeaderList` (lines 61-84): walk the following element
siblings, skipping paragraphs whose trimmed text is empty, a non-breaking
space, or the literal string `&nbsp;`; report whether the first other
element is a heading-list `ol`. -/
def followedByHL : List Node → Bool
  | [] => false
  | n :: rest =>
      if n.isElem then
        match n with
        | .element "p" _ pcs =>
            let t := jsTrim (textContentL pcs)
            if t = "" ∨ t = nbspS ∨ t = "&nbsp;" then followedByHL rest
            else false
        | .element "ol" _ ocs => isHeaderListB ocs
        | _ => false
      else followedByHL rest

/-- The section key of a top-level `ol` at element index `i`: scan the
top-level elements backward for an `h2` (its index is the key), stopping
at an `h1`. -/
def sectionKeyAt (bodyElems : List Node) (i : Nat) : Option Nat :=
  (List.range i).reverse.findSome? (fun j =>
    match bodyElems.get? j with
    | some (.element "h2" _ _) => some (some j)
    | some (.element "h1" _ _) => some none
    | _ => none) |>.join

mutual

/-- First pass: enumerate every `ol` of the tree in document order with
its qualification flag and section key.  `atTop` marks the top-level
sibling list; `eIdx` counts the preceding top-level elements. -/
def olPhase1 (bodyElems : List Node) : List Node → Bool → Nat → List (Bool × Option Nat)
  | [], _, _ => []
  | n :: rest, atTop, eIdx =>
      if n.isElem then
        olPhase1N bodyElems n atTop eIdx rest ++ olPhase1 bodyElems rest atTop (eIdx + 1)
      else olPhase1 bodyElems rest atTop eIdx

/-- The enumeration entries contributed by one element: its own (when it
is an `ol`, judged with its following siblings) and its descendants'. -/
def olPhase1N (bodyElems : List Node) : Node → Bool → Nat → List Node →
    List (Bool × Option Nat)
  | .text _, _, _, _ => []
  | .element t _ cs, atTop, eIdx, rest =>
      if t = "ol" then
        let q := isHeaderListB cs ∧ ¬ followedByHL rest
        let key := if atTop then sectionKeyAt bodyElems eIdx else none
        (q, key) :: olPhase1 bodyElems cs false 0
      else olPhase1 bodyElems cs false 0

end

/-- Counter-map lookup (`sectionCounters.get`). -/
def ctrGet (m : List (Option Nat × Nat)) (k : Option Nat) : Option Nat :=
  (m.find? (fun p => p.1 = k)).map (·.2)

/-- Counter-map update (`sectionCounters.set`). -/
def ctrSet (m : List (Option Nat × Nat)) (k : Option Nat) (v : Nat) : List (Option Nat × Nat) :=
  match m with
  | [] => [(k, v)]
  | (k', v') :: rest => if k' = k then (k, v) :: rest else (k', v') :: ctrSet rest k v

/-- Assign each enumerated `ol` its counter value: a qualifying list
reads the current counter of its section (initialized to 1) and the
section counter then holds `counter + 1` — the per-item
`set(sectionKey, counter + 1)` writes the same stale value once per
item. -/
def olAssign : List (Bool × Option Nat) → List (Option Nat × Nat) → List (Bool × Nat)
  | [], _ => []
  | (q, key) :: rest, m =>
      if q then
        let m1 := if (ctrGet m key).isSome then m else ctrSet m key 1
        let c := (ctrGet m1 key).getD 1
        (true, c) :: olAssign rest (ctrSet m1 key (c + 1))
      else (false, 0) :: olAssign rest m

mutual

/-- First heading descendant in document order
(`strongTag.querySelector('h1, h2, h3, h4, h5, h6')`). -/
def firstHeadingDesc : List Node → Option Node
  | [] => none
  | n :: rest =>
      match firstHeadingN n with
      | some h => some h
      | none => firstHeadingDesc rest

/-- The heading search on one node. -/
def firstHeadingN : Node → Option Node
  | .text _ => none
  | .element t a cs =>
      if t ∈ headingTags then some (.element t a cs)
      else firstHeadingDesc cs

end

/-- Convert one qualifying `ol`'s direct `li` children into numbered
headings (lines 150-183): clone each item's heading; prefix the clone's
direct `strong` child's text when it has one (from the heading-strong
feature), else the heading's own text, with `"{counter}. "` — the same
stale `counter` for every item. -/
def convertOl (olKids : List Node) (counter : Nat) : List Node :=
  (olKids.filter (isElemTag "li")).filterMap (fun li =>
    match li with
    | .element _ _ lcs =>
        (match (elemChildren lcs).find? (isElemTag "strong") with
         | some (.element _ _ scs) =>
            (match firstHeadingDesc scs with
             | some (.element ht ha hcs) =>
                (match (elemChildren hcs).find? (isElemTag "strong") with
                 | some (.element _ _ ics) =>
                    -- prefix the text of the heading's direct strong child
                    let tIn := jsTrim (textContentL ics)
                    some (Node.element ht ha
                      ((setFirstStrongTextDirect hcs (toString counter ++ ". " ++ tIn))))
                 | _ =>
                    some (Node.element ht ha
                      [.text (toString counter ++ ". " ++ jsTrim (textContentL hcs))]))
             | _ => none)
         | _ => none)
    | _ => none)
where
  /-- Replace the children of the first direct `strong` element child by
  a single text node (`innerStrong.textContent = ...`). -/
  setFirstStrongTextDirect (cs : List Node) (t : String) : List Node :=
    match cs with
    | [] => []
    | .element "strong" a _ :: rest => .element "strong" a [.text t] :: rest
    | n :: rest => n :: setFirstStrongTextDirect rest t

mutual

/-- Count the `ol` elements of a subtree (the enumeration entries its
removal discards from the live tree; their counter effects already
happened in the assignment pass). -/
def countOlsL : List Node → Nat
  | [] => 0
  | n :: rest => countOlsN n + countOlsL rest

/-- The `ol` count of one node's subtree. -/
def countOlsN : Node → Nat
  | .text _ => 0
  | .element t _ cs => (if t = "ol" then 1 else 0) + countOlsL cs

end

mutual

/-- Second pass: rewrite the tree in document order, replacing each
qualifying `ol` by its converted headings and consuming the assignment
queue. -/
def olRewrite : List (Bool × Nat) → List Node → (List (Bool × Nat) × List Node)
  | queue, [] => (queue, [])
  | queue, n :: rest =>
      let (q1, ns) := olRewriteN queue n
      let (q2, r) := olRewrite q1 rest
      (q2, ns ++ r)

/-- The rewrite of one node: a qualifying `ol` becomes its converted
headings (consuming the queue entries of the discarded nested `ol`s); any
other element is descended into. -/
def olRewriteN : List (Bool × Nat) → Node → (List (Bool × Nat) × List Node)
  | queue, .text s => (queue, [.text s])
  | queue, .element t a cs =>
      if t = "ol" then
        match queue with
        | (q, v) :: qrest =>
            if q then
              let dropped := countOlsL cs
              let newEls := convertOl cs v
              if newEls.isEmpty then (qrest.drop dropped, [.element t a cs])
              else (qrest.drop dropped, newEls)
            else
              let (q1, cs') := olRewrite qrest cs
              (q1, [.element t a cs'])
        | [] => ([], [.element t a cs])
      else
        let (q1, cs') := olRewrite queue cs
        (q1, [.element t a cs'])

end

/-- `convertOlHeaders` (mode-ol-header-conversion.js lines 91-211). -/
def convertOlHeaders (html : String) : String :=
  if html = "" then ""
  else
    let body := parseHTML html
    let bodyElems := elemChildren body
    let entries := olPhase1 bodyElems body true 0
    let queue := olAssign entries []
    serializeL (olRewrite queue body).2

end WordToHtml

namespace WordToHtml

/-! ## Mode transform: spacing insertion (`src/js/utils/mode-spacing.js`)

Six passes in the fixed order of `addSpacing` (alt-image-text,
disclaimer, sources, read-section, headings, key-takeaways), each
inserting the spacing paragraph `<p>&nbsp;</p>` subject to the guards of
its source function.  The walks emit each sibling list left to right with
the already-emitted part (nearest first) as guard context, matching the
live previous-sibling reads of the source. -/

/-- The spacing paragraph the passes insert
(`doc.createElement('p'); spacing.innerHTML = '&nbsp;'`). -/
def spacingNode : Node := .element "p" [] [.text nbspS]

/-- `isSpacingElement` (mode-spacing.js lines 57-73): a `p` whose
`innerHTML` trims to the `&nbsp;` entity (or the raw character) and whose
trimmed text is empty or the non-breaking space. -/
def isSpacingElem (n : Node) : Bool :=
  match n with
  | .element "p" _ cs =>
      let text := jsTrim (textContentL cs)
      let html := jsTrim (serializeL cs)
      (html = "&nbsp;" ∨ html = nbspS) ∧ (text = nbspS ∨ text = "")
  | _ => false

/-- The double guard every insertion runs against the siblings already
emitted before the target (nearest first): the previous element sibling,
and, skipping whitespace-only text nodes, the nearest previous sibling,
must not be a spacing paragraph. -/
def hasSpacingBefore (acc : List Node) : Bool :=
  (match prevElem acc with
   | some e => isSpacingElem e
   | none => false) ||
  (match acc.dropWhile isWsText with
   | n :: _ => n.isElem ∧ isSpacingElem n
   | [] => false)

mutual

/-- Generic insert-before pass: walk every sibling list, inserting the
spacing paragraph before each node satisfying `m` unless a spacing
paragraph already precedes it.  Realizes `addSpacingBeforeReadSection`,
`addSpacingBeforeDisclaimer` and `addSpacingBeforeAltImageText`, whose
bodies differ only in the matched text. -/
def spacingPassGo (m : Node → Bool) (acc : List Node) : List Node → List Node
  | [] => acc.reverse
  | n :: rest =>
      let n' := spacingPassN m n
      if m n' ∧ ¬ hasSpacingBefore acc then
        spacingPassGo m (n' :: spacingNode :: acc) rest
      else spacingPassGo m (n' :: acc) rest

/-- Recursion of the generic pass into one node's children. -/
def spacingPassN (m : Node → Bool) : Node → Node
  | .text s => .text s
  | .element t a cs => .element t a (spacingPassGo m [] cs)

end

/-- Run the generic pass on a sibling list. -/
def spacingPass (m : Node → Bool) (l : List Node) : List Node := spacingPassGo m [] l

/-- Match of `addSpacingBeforeReadSection`. -/
def matchRead (n : Node) : Bool :=
  match n with
  | .element "p" _ cs =>
      let t := lowerS (jsTrim (textContentL cs))
      includesS t "read also:" ∨ includesS t "read more:" ∨ includesS t "see more:"
  | _ => false

/-- Match of `addSpacingBeforeDisclaimer`. -/
def matchDisclaimer (n : Node) : Bool :=
  match n with
  | .element "p" _ cs => startsWithS (lowerS (jsTrim (textContentL cs))) "disclaimer:"
  | _ => false

/-- Match of `addSpacingBeforeAltImageText`. -/
def matchAltImage (n : Node) : Bool :=
  match n with
  | .element "p" _ cs => includesS (lowerS (jsTrim (textContentL cs))) "alt image text:"
  | _ => false

/-- Match of `addSpacingBeforeSources`: text starts with `sources:`. -/
def matchSources (n : Node) : Bool :=
  match n with
  | .element "p" _ cs => startsWithS (lowerS (jsTrim (textContentL cs))) "sources:"
  | _ => false

mutual

/-- `addSpacingBeforeSources` (mode-spacing.js lines 205-221): insert
before a `sources:` paragraph only when its previous element sibling is a
`p` whose `innerHTML` does not trim to `&nbsp;`. -/
def sourcesSpGo (acc : List Node) : List Node → List Node
  | [] => acc.reverse
  | n :: rest =>
      let n' := sourcesSpN n
      let guard :=
        match prevElem acc with
        | some (.element "p" _ pcs) => jsTrim (serializeL pcs) ≠ "&nbsp;"
        | _ => false
      if matchSources n' && guard then sourcesSpGo (n' :: spacingNode :: acc) rest
      else sourcesSpGo (n' :: acc) rest

/-- Recursion of the sources pass into one node's children. -/
def sourcesSpN : Node → Node
  | .text s => .text s
  | .element t a cs => .element t a (sourcesSpGo [] cs)

end

/-- The sources spacing pass on a sibling list. -/
def sourcesSpacingPass (l : List Node) : List Node := sourcesSpGo [] l

/-- FAQ state of `addSpacingBeforeHeadings`: whether a FAQ section
heading was seen, and whether the next `h3` is still the exempt first
question. -/
structure FaqSt where
  found : Bool
  first : Bool

/-- The tag of an element node (the empty string for text). -/
def tagOf : Node → String
  | .element t _ _ => t
  | .text _ => ""

mutual

/-- `addSpacingBeforeHeadings` (mode-spacing.js lines 115-164): walk the
headings in document order threading the FAQ state; skip the
key-takeaways heading; mark a FAQ heading (which itself still receives
spacing); exempt the first `h3` after it; otherwise insert the spacing
paragraph unless one already precedes. -/
def headingsSpGo (st : FaqSt) (acc : List Node) : List Node → (FaqSt × List Node)
  | [] => (st, acc.reverse)
  | n :: rest =>
      if tagOf n ∈ headingTags then
        let text := lowerS (jsTrim n.textContent)
        if includesS text "key takeaways" then
          let (st1, n') := headingsSpN st n
          headingsSpGo st1 (n' :: acc) rest
        else
          let st1 : FaqSt :=
            if includesS text "frequently asked questions" ∨ includesS text "faq" then
              ⟨true, true⟩
            else st
          if st1.found ∧ st1.first ∧ tagOf n = "h3" then
            let (st2, n') := headingsSpN ⟨true, false⟩ n
            headingsSpGo st2 (n' :: acc) rest
          else
            let (st2, n') := headingsSpN st1 n
            if ¬ hasSpacingBefore acc then
              headingsSpGo st2 (n' :: spacingNode :: acc) rest
            else headingsSpGo st2 (n' :: acc) rest
      else
        let (st1, n') := headingsSpN st n
        headingsSpGo st1 (n' :: acc) rest

/-- Descend the headings pass into one node's children. -/
def headingsSpN (st : FaqSt) : Node → (FaqSt × Node)
  | .text s => (st, .text s)
  | .element t a cs =>
      let (st1, cs') := headingsSpGo st [] cs
      (st1, .element t a cs')

end

/-- The headings spacing pass on a sibling list. -/
def headingsSpacingPass (l : List Node) : List Node := (headingsSpGo ⟨false, false⟩ [] l).2

/-- Insert the spacing paragraph directly before the first element of the
list (`insertBefore(spacing, elementAfterUl)`). -/
def insertBeforeFirstElem : List Node → List Node
  | [] => [spacingNode]
  | n :: rest => if n.isElem then spacingNode :: n :: rest else n :: insertBeforeFirstElem rest

/-- After the key-takeaways `ul`: add the spacing paragraph before the
next element sibling (or at the end) unless that element is already a
spacing paragraph. -/
def ktSpInsert (tail : List Node) : List Node :=
  match nextElem tail with
  | some e => if isSpacingElem e then tail else insertBeforeFirstElem tail
  | none => tail ++ [spacingNode]

/-- After the key-takeaways heading: find the next `ul` sibling and
insert the spacing after it. -/
def ktSpFindUl : List Node → List Node
  | [] => []
  | .element "ul" a cs :: rest => .element "ul" a cs :: ktSpInsert rest
  | n :: rest => n :: ktSpFindUl rest

mutual

/-- `addSpacingAfterKeyTakeaways` (mode-spacing.js lines 78-110): locate
the first key-takeaways `h2` in document order and insert the spacing
paragraph after its `ul`. -/
def ktSpWalk : List Node → (List Node × Bool)
  | [] => ([], false)
  | n :: rest =>
      if isKTH2 n then (n :: ktSpFindUl rest, true)
      else
        match ktSpWalkN n with
        | (n', true) => (n' :: rest, true)
        | (n', false) =>
            let (r, f) := ktSpWalk rest
            (n' :: r, f)

/-- Descend the key-takeaways spacing search into one node's children. -/
def ktSpWalkN : Node → (Node × Bool)
  | .text s => (.text s, false)
  | .element t a cs =>
      let (cs', f) := ktSpWalk cs
      (.element t a cs', f)

end

/-- The spacing passes composed in the order `addSpacing` runs them
(mode-spacing.js lines 22-39). -/
def addSpacingTree (l : List Node) : List Node :=
  let s1 := spacingPass matchAltImage l
  let s2 := spacingPass matchDisclaimer s1
  let s3 := sourcesSpacingPass s2
  let s4 := spacingPass matchRead s3
  let s5 := headingsSpacingPass s4
  (ktSpWalk s5).1

/-- `addSpacing` (mode-spacing.js lines 12-50). -/
def addSpacing (html : String) : String :=
  if html = "" then "" else serializeL (addSpacingTree (parseHTML html))

/-! ## Mode transform: sources normalization (`src/unnamed/part_002`) -/

/-- Skip condition of `normalizeSourcesListItems`: the item already has
exactly one element child, an `em`, and no non-whitespace direct text
outside it. -/
def liAlreadyEm (cs : List Node) : Bool :=
  (match elemChildren cs with
   | [.element "em" _ _] => true
   | _ => false) &&
  ! cs.any (fun n =>
    match n with
    | .text s => jsTrim s ≠ ""
    | _ => false)

mutual

/-- Wrap the content of every `li` (any depth) of the sources `ol` in a
single `em` unless already so wrapped. -/
def wrapLiEms : List Node → List Node
  | [] => []
  | n :: rest => wrapLiN n :: wrapLiEms rest

/-- The `em` wrap on one node. -/
def wrapLiN : Node → Node
  | .text s => .text s
  | .element t a cs =>
      if t = "li" then
        let csR := wrapLiEms cs
        .element t a (if liAlreadyEm csR then csR else [.element "em" [] csR])
      else .element t a (wrapLiEms cs)

end

/-- Is this paragraph's trimmed text `sources` or `sources:`
(case-insensitive)? -/
def isSourcesP (n : Node) : Bool :=
  match n with
  | .element "p" _ cs =>
      let lt := lowerS (jsTrim (textContentL cs))
      lt = "sources" ∨ lt = "sources:"
  | _ => false

/-- The paragraph rewrite of `normalizeSourcesParagraph`. -/
def srcPRewrite (n : Node) : Node :=
  match n with
  | .element t a _ => .element t a [.element "strong" [] [.element "em" [] [.text "Sources:"]]]
  | n => n

mutual

/-- `normalizeSources` walk: rewrite each sources paragraph to
`<strong><em>Sources:</em></strong>` and, while an ol is pending from
one, wrap the items of the next `ol` sibling in `em`.  Wrapping only
adds `em` layers, which the walk never matches, so wrapping after the
descent realizes the snapshot order of the source. -/
def srcGo (pending : Bool) : List Node → List Node
  | [] => []
  | n :: rest =>
      if isSourcesP n then srcPRewrite n :: srcGo true rest
      else if isElemTag "ol" n ∧ pending then
        (match srcGoN n with
         | .element t a cs' => .element t a (wrapLiEms cs') :: srcGo false rest
         | m => m :: srcGo false rest)
      else srcGoN n :: srcGo pending rest

/-- Descend the sources walk into one node's children. -/
def srcGoN : Node → Node
  | .text s => .text s
  | .element t a cs => .element t a (srcGo false cs)

end

/-- `normalizeSources` (part_002). -/
def normalizeSources (html : String) : String :=
  if html = "" then "" else serializeL (srcGo false (parseHTML html))

end WordToHtml

namespace WordToHtml

/-! ## The compact formatter (`src/js/utils/html-formatter.js`)

`formatElement` renders the tree with two-space indentation, blocks on
their own lines, inline content kept on one line, and spacing paragraphs
as the fixed token `<p>&nbsp;</p>`; `formatCompact` then post-processes
the text (trailing-space strip, empty-element removal, blank-line
collapse).  Text and attribute values are emitted raw, as the source
concatenates them without escaping. -/

/-- `INLINE_ELEMENTS` of the formatter. -/
def inlineElems : List String :=
  ["a", "em", "i", "strong", "b", "span", "code", "sup", "sub",
   "small", "mark", "del", "ins", "u", "abbr", "cite", "q", "samp", "var"]

/-- `isSpacingParagraph` (html-formatter.js lines 36-46). -/
def isSpacingPF (n : Node) : Bool :=
  match n with
  | .element "p" _ cs =>
      let html := jsTrim (serializeL cs)
      let text := textContentL cs
      html = "&nbsp;" ∨ html = nbspS ∨
      (jsTrim text = "" ∧ (includesS html "&nbsp;" ∨ html = nbspS)) ∨
      text = nbspS ∨ jsTrim text = nbspS
  | _ => false

/-- Two-space indentation. -/
def indentS (level : Nat) : String := String.mk (List.replicate (2 * level) ' ')

/-- The raw attribute rendering of the formatter. -/
def fmtAttrs (attrs : List (String × String)) : String :=
  attrs.foldl (fun acc p => acc ++ " " ++ p.1 ++ "=\"" ++ p.2 ++ "\"") ""

/-- Is this text node entirely whitespace but nonempty? -/
def isSpaceOnlyText (s : String) : Bool :=
  jsTrim s = "" ∧ s ≠ "" ∧ s.data.all isJsWs

mutual

/-- `formatElement` (html-formatter.js lines 48-203). -/
def formatN (insideLi : Bool) (level : Nat) : Node → String
  | .text s => s
  | .element tag attrs cs =>
      let isBlock := isBlockTag tag
      let isLi := tag = "li"
      if isSpacingPF (.element tag attrs cs) then
        "\n" ++ indentS level ++ "<p>&nbsp;</p>"
      else if tag ∈ voidTags then
        "<" ++ tag ++ fmtAttrs attrs ++ ">"
      else
        let openingTag := "<" ++ tag ++ fmtAttrs attrs ++ ">"
        let (content, hasBlockKids, hasContent, blockTags) :=
          formatKids (isLi ∨ insideLi) level none cs
        if ¬ hasContent then ""
        else
          let closingTag := "</" ++ tag ++ ">"
          if isBlock then
            if tag = "p" ∧ insideLi then openingTag ++ content ++ closingTag
            else
              let onlyHasP := hasBlockKids ∧ ¬ blockTags.isEmpty ∧
                blockTags.all (fun t => t = "p")
              if isLi ∧ (onlyHasP ∨ (¬ hasBlockKids ∧ jsTrim content ≠ "")) then
                "\n" ++ indentS level ++ openingTag ++ content ++ closingTag
              else if ¬ hasBlockKids ∧ jsTrim content ≠ "" then
                "\n" ++ indentS level ++ openingTag ++ content ++ closingTag
              else
                "\n" ++ indentS level ++ openingTag ++ content ++ "\n" ++ indentS level ++ closingTag
          else openingTag ++ content ++ closingTag

/-- The child loop of `formatElement`: fold the children carrying the
previous sibling (for the between-elements test of whitespace-only text)
and accumulating content, block-child presence, content presence and the
block child tags. -/
def formatKids (childInsideLi : Bool) (level : Nat) (prev : Option Node) :
    List Node → (String × Bool × Bool × List String)
  | [] => ("", false, false, [])
  | n :: rest =>
      let (tailC, tailB, tailH, tailT) := formatKids childInsideLi level (some n) rest
      match n with
      | .element ct cattrs ccs =>
          let skipInline := ct ∈ inlineElems ∧ jsTrim (textContentL ccs) = "" ∧
            (elemChildren ccs).isEmpty
          let isSp := isSpacingPF (.element ct cattrs ccs)
          let skipBlock := isBlockTag ct ∧ jsTrim (textContentL ccs) = "" ∧
            (elemChildren ccs).isEmpty ∧ ¬ isSp
          if skipInline ∨ skipBlock then (tailC, tailB, tailH, tailT)
          else
            let childLevel := if isBlockTag ct then level + 1 else level
            let formatted := formatN childInsideLi childLevel (.element ct cattrs ccs)
            let isB := isBlockTag ct
            ((if formatted ≠ "" then formatted ++ tailC else tailC),
             isB ∨ tailB,
             (formatted ≠ "") ∨ tailH,
             (if isB then ct :: tailT else tailT))
      | .text s =>
          let between : Bool :=
            (match prev with | some p => p.isElem | none => false) ||
            (match rest with | m :: _ => m.isElem | [] => false)
          if jsTrim s ≠ "" ∨ (isSpaceOnlyText s ∧ between) then
            (s ++ tailC, tailB, true, tailT)
          else (tailC, tailB, tailH, tailT)

end

/-- Split into lines, strip trailing whitespace from each, drop empty
lines, rejoin (html-formatter.js lines 237-240). -/
def fmtLines (s : String) : String :=
  joinS "\n" (((splitS s '\n').map jsTrimEnd).filter (fun l => l ≠ ""))

/-- One left-to-right scan replacing `<t></t>` by `rep t` for any tag in
`tags`, without revisiting replacements — the semantics of one global
regex replace over a tag alternation. -/
def tagPairScan (tags : List String) (rep : String → String) : Nat → List Char → List Char
  | 0, l => l
  | _ + 1, [] => []
  | fuel + 1, c :: rest =>
      match tags.find? (fun t => startsL ("<" ++ t ++ "></" ++ t ++ ">").data (c :: rest)) with
      | some t =>
          (rep t).data ++ tagPairScan tags rep fuel
            ((c :: rest).drop ("<" ++ t ++ "></" ++ t ++ ">").length)
      | none => c :: tagPairScan tags rep fuel rest

/-- Consume a run of whitespace characters, `&nbsp;` entities and
non-breaking spaces; reports whether an entity or non-breaking space
occurred. -/
def pSpaceRun : Nat → List Char → (Bool × List Char)
  | 0, l => (false, l)
  | fuel + 1, l =>
      if startsL "&nbsp;".data l then
        let (_, r) := pSpaceRun fuel (l.drop 6)
        (true, r)
      else
        match l with
        | c :: rest =>
            if c = nbspC then
              let (_, r) := pSpaceRun fuel rest
              (true, r)
            else if isJsWs c then
              let (b, r) := pSpaceRun fuel rest
              (b, r)
            else (false, l)
        | [] => (false, [])

/-- The scan realizing the whitespace-paragraph replace of
`formatCompact` (lines 251-257): a `<p>` holding only whitespace,
`&nbsp;` entities and non-breaking spaces up to its `</p>` becomes the
spacing token when any entity or non-breaking space occurred, and
vanishes otherwise. -/
def pNbspScan : Nat → List Char → List Char
  | 0, l => l
  | _ + 1, [] => []
  | fuel + 1, c :: rest =>
      if startsL "<p>".data (c :: rest) then
        let after := (c :: rest).drop 3
        let (hadNbsp, r) := pSpaceRun after.length after
        if startsL "</p>".data r then
          (if hadNbsp then "<p>&nbsp;</p>".data else []) ++ pNbspScan fuel (r.drop 4)
        else '<' :: 'p' :: '>' :: pNbspScan fuel after
      else c :: pNbspScan fuel rest

/-- Collapse three or more consecutive newlines to exactly two
(lines 259). -/
def collapseNl : Nat → List Char → List Char
  | 0, l => l
  | _ + 1, [] => []
  | fuel + 1, c :: rest =>
      if c = '\n' then
        let run := (c :: rest).takeWhile (fun x => x = '\n')
        let tail := (c :: rest).drop run.length
        (if run.length ≥ 3 then ['\n', '\n'] else run) ++ collapseNl fuel tail
      else c :: collapseNl fuel rest

/-- `formatCompact` (html-formatter.js lines 210-264), DOM branch: format
each top-level node (a trimmed nonempty text node is emitted on its own
line), then run the post-processing passes. -/
def formatCompact (html : String) : String :=
  if html = "" then ""
  else
    let body := parseHTML html
    let result := body.foldl (fun acc n =>
      match n with
      | .element _ _ _ => acc ++ formatN false 0 n
      | .text s => if jsTrim s ≠ "" then acc ++ "\n" ++ jsTrim s else acc) ""
    let r1 := fmtLines result
    let r2 : String := ⟨tagPairScan voidTags (fun t => "<" ++ t ++ ">") r1.length r1.data⟩
    let r3 : String := ⟨tagPairScan inlineElems (fun _ => "") r2.length r2.data⟩
    let r4 : String := ⟨tagPairScan ["p"] (fun _ => "") r3.length r3.data⟩
    let r5 : String := ⟨pNbspScan r4.length r4.data⟩
    jsTrim ⟨collapseNl r5.length r5.data⟩

/-! ## The mode processor and pipeline entry
(`src/js/utils/mode-processor.js`, `src/unnamed/part_005`) -/

/-- The feature flags of the mode processor.  The source tests
`features.x !== false` for every transform but `relativePaths` (tested
`=== true`), so a key absent from the UI feature object behaves as
enabled; each field here holds the effective enabled flag. -/
structure Features where
  headingStrong : Bool
  keyTakeaways : Bool
  h1Removal : Bool
  linkAttributes : Bool
  relativePaths : Bool
  spacing : Bool
  olHeaderConversion : Bool
  sourcesNormalize : Bool

/-- The defaults of the UI (`currentFeatures` in part_005):
`relativePaths` off, everything else on — the object omits
`olHeaderConversion` and `sourcesNormalize`, which the `!== false` tests
treat as enabled. -/
def defaultFeatures : Features :=
  ⟨true, true, true, true, false, true, true, true⟩

/-- `processMode` (mode-processor.js lines 14-103): list normalization
for every mode; the blogs chain (heading strong, key takeaways, h1
removal, link attributes, ol-header conversion, spacing, relative paths,
sources normalization) and the shoppables chain in their fixed orders. -/
def processMode (html mode : String) (f : Features) : String :=
  if html = "" then ""
  else
    let p0 := listNormalize html
    if mode = "regular" then p0
    else if mode = "blogs" then
      let p1 := if f.headingStrong then headingStrongWrap p0 else p0
      let p2 := if f.keyTakeaways then formatKeyTakeaways p1 else p1
      let p3 := if f.h1Removal then removeH1AfterKT p2 else p2
      let p4 := if f.linkAttributes then addLinkAttributes p3 else p3
      let p5 := if f.olHeaderConversion then convertOlHeaders p4 else p4
      let p6 := if f.spacing then addSpacing p5 else p5
      let p7 := if f.relativePaths then convertToRelativePaths p6 else p6
      if f.sourcesNormalize then normalizeSources p7 else p7
    else if mode = "shoppables" then
      let p1 := if f.headingStrong then headingStrongWrap p0 else p0
      let p2 := if f.linkAttributes then addLinkAttributes p1 else p1
      let p3 := if f.relativePaths then convertToRelativePaths p2 else p2
      let p4 := if f.olHeaderConversion then convertOlHeaders p3 else p3
      if f.sourcesNormalize then normalizeSources p4 else p4
    else p0

/-- `convertToHtml` (part_005 lines 947-987): the pipeline entry
composing sanitize, clean, the mode transform set and the compact
formatter. -/
def convertToHtml (html mode : String) (f : Features) : String :=
  formatCompact (processMode (cleanHtml (sanitize html)) mode f)


/-! ## The formatter catch fallback (`src/js/utils/html-formatter.js`
lines 266-331)

When the DOM branch of `formatCompact` throws, control falls through the
catch to a regex-based path that trims the input, collapses whitespace
between tags, breaks lines before opening block tags and merges short
closing tags — so this boundary rewrites the text instead of restoring
it. -/

/-- A character of the regex word class. -/
def isWordC (c : Char) : Bool := c.isAlpha ∨ c.isDigit ∨ c = '_'

/-- The global replace collapsing whitespace runs between a closing and
an opening angle bracket (line 268). -/
def gtWsLtScan : Nat → List Char → List Char
  | 0, l => l
  | _ + 1, [] => []
  | fuel + 1, c :: rest =>
      if c = '>' then
        let ws := rest.takeWhile isJsWs
        if ¬ ws.isEmpty ∧ (rest.drop ws.length).head? = some '<' then
          '>' :: gtWsLtScan fuel (rest.drop ws.length)
        else c :: gtWsLtScan fuel rest
      else c :: gtWsLtScan fuel rest

/-- The global tag replace of the fallback (lines 271-284): each
bracketed run without nested brackets whose content starts with word
characters naming a block element, and which is neither self-closing nor
ends in a slash, gets a newline before it. -/
def tagBreakScan : Nat → List Char → List Char
  | 0, l => l
  | _ + 1, [] => []
  | fuel + 1, c :: rest =>
      if c = '<' then
        let content := rest.takeWhile (fun x => x ≠ '<' ∧ x ≠ '>')
        match rest.drop content.length with
        | '>' :: tail2 =>
            if content.isEmpty then c :: tagBreakScan fuel rest
            else
              let m := '<' :: (content ++ ['>'])
              let w := content.takeWhile isWordC
              if w.isEmpty then m ++ tagBreakScan fuel tail2
              else
                let tagName := lowerS ⟨w⟩
                let trimmed := jsTrim ⟨content⟩
                if ¬ (endsWithS trimmed "/" ∨ tagName ∈ voidTags) ∧
                    tagName ∈ blockElems then
                  '\n' :: (m ++ tagBreakScan fuel tail2)
                else m ++ tagBreakScan fuel tail2
        | _ => c :: tagBreakScan fuel rest
      else c :: tagBreakScan fuel rest

/-- The tag scan of `isInlineOnly` (lines 340-353): every bracketed tag
name, opening or closing, terminated by whitespace or the closing
bracket, must avoid the block-element list. -/
def inlineOnlyScan : Nat → List Char → Bool
  | 0, _ => true
  | _ + 1, [] => true
  | fuel + 1, c :: rest =>
      if c = '<' then
        let rest2 := match rest with | '/' :: r => r | r => r
        let w := rest2.takeWhile isWordC
        match rest2.drop w.length with
        | d :: tail =>
            if ¬ w.isEmpty ∧ (isJsWs d ∨ d = '>') then
              if lowerS ⟨w⟩ ∈ blockElems then false
              else inlineOnlyScan fuel tail
            else inlineOnlyScan fuel rest
        | [] => inlineOnlyScan fuel rest
      else inlineOnlyScan fuel rest

/-- `isInlineOnly` (html-formatter.js lines 340-353). -/
def isInlineOnly (s : String) : Bool := inlineOnlyScan s.length s.data

/-- First index of a substring (JS `indexOf`). -/
def idxOfSubL (needle : List Char) : List Char → Option Nat
  | [] => if needle.isEmpty then some 0 else none
  | c :: rest =>
      if startsL needle (c :: rest) then some 0
      else (idxOfSubL needle rest).map (· + 1)

/-- The opening-tag line match of the merge loop (line 294): an opening
bracket, a word-character tag name, attribute characters up to the first
closing bracket, and the rest of the line. -/
def lineOpenMatch (line : String) : Option (String × String) :=
  match line.data with
  | '<' :: cs =>
      let w := cs.takeWhile isWordC
      if w.isEmpty then none
      else
        let afterW := (cs.drop w.length).takeWhile (fun c => c ≠ '>')
        match (cs.drop w.length).drop afterW.length with
        | '>' :: restC => some (⟨w⟩, ⟨restC⟩)
        | _ => none
  | _ => none

/-- The closing-tag merge loop of the fallback (lines 287-326): trimmed
nonempty lines are kept; a line opening a block element whose closing
tag occurs in its remainder pushes the line and moves the text after the
closing tag onto the next line when the span content is inline-only or
blank; a line opening a block element closed exactly by the next line is
merged with it (re-appending its own remainder) under the same content
test. -/
def mergeLines : Nat → List String → List String
  | 0, l => l
  | _ + 1, [] => []
  | fuel + 1, l0 :: restL =>
      let line := jsTrim l0
      if line = "" then mergeLines fuel restL
      else
        match lineOpenMatch line with
        | some (tagName, rest) =>
            if lowerS tagName ∈ blockElems then
              let closingTag := "</" ++ tagName ++ ">"
              match idxOfSubL closingTag.data rest.data with
              | some ci =>
                  let content : String := ⟨rest.data.take ci⟩
                  let afterClosing : String :=
                    ⟨rest.data.drop (ci + closingTag.length)⟩
                  if isInlineOnly content ∨ jsTrim content = "" then
                    if jsTrim afterClosing ≠ "" then
                      match restL with
                      | l1 :: restL2 =>
                          line :: mergeLines fuel ((l1 ++ afterClosing) :: restL2)
                      | [] => line :: mergeLines fuel [afterClosing]
                    else line :: mergeLines fuel restL
                  else line :: mergeLines fuel restL
              | none =>
                  match restL with
                  | l1 :: restL2 =>
                      if jsTrim l1 = closingTag ∧
                          (isInlineOnly rest ∨ jsTrim rest = "") then
                        (line ++ rest ++ closingTag) :: mergeLines fuel restL2
                      else line :: mergeLines fuel restL
                  | [] => line :: mergeLines fuel restL
            else line :: mergeLines fuel restL
        | none => line :: mergeLines fuel restL


/-- The regex fallback branch of `formatCompact` (lines 266-331). -/
def fmtFallback (html : String) : String :=
  let f0 := jsTrim html
  let f1 : String := ⟨gtWsLtScan f0.length f0.data⟩
  let f2 : String := ⟨tagBreakScan f1.length f1.data⟩
  let lines := splitS f2 '\n'
  let processed := mergeLines (2 * f2.length + 2 * lines.length + 2) lines
  let r := String.intercalate "\n" ((processed.map jsTrim).filter (fun l => l ≠ ""))
  jsTrim ⟨collapseNl r.length r.data⟩

/-- The try/catch boundary of `formatCompact` (lines 216-331) as a
function of the DOM branch outcome: a success is returned as is, an
exception falls through the catch to the regex fallback on the input. -/
def fmtCatch (inner : Except Unit String) (html : String) : String :=
  match inner with
  | .ok r => r
  | .error _ => fmtFallback html

/-- Modelled from the claim's wording, for the refinement comparison: the
URL has no percent sign, no dash-like character (U+2011 through U+2015),
no non-breaking space, no whitespace, and no two consecutive hyphens. -/
def urlClaimFree (url : String) : Bool :=
  url.data.all (fun c => ¬ (c = '%') ∧ ¬ (0x2011 ≤ c.toNat ∧ c.toNat ≤ 0x2015) ∧
    c ≠ nbspC ∧ ¬ isJsWs c) ∧ ¬ includesS url "--"

mutual

/-- The allow-list closure invariant on one node: a text node, or an
allowed element carrying only attributes of its per-tag allow-list, with
closed children. -/
def goodN : Node → Bool
  | .text _ => true
  | .element t a cs =>
      decide (t ∈ allowedElems) &&
      a.all (fun p => decide (p.1 ∈ allowedAttrsFor t)) && goodL cs

/-- The allow-list closure invariant on a sibling list. -/
def goodL : List Node → Bool
  | [] => true
  | n :: rest => goodN n && goodL rest

end

/-- Are some two immediately adjacent siblings at the head both spacing
paragraphs? -/
def pairSp (n : Node) : List Node → Bool
  | m :: _ => isSpacingElem n && isSpacingElem m
  | [] => false

mutual

/-- Does this node contain, at any depth, two immediately adjacent
sibling spacing paragraphs? -/
def adjSpN : Node → Bool
  | .text _ => false
  | .element _ _ cs => adjSpL cs

/-- Does this sibling list contain, at any depth, two immediately
adjacent spacing paragraphs? -/
def adjSpL : List Node → Bool
  | [] => false
  | n :: rest => adjSpN n || pairSp n rest || adjSpL rest

end

/-- The boundary pair of an append: last of the first part against head
of the second. -/
def pairLast (xs ys : List Node) : Bool :=
  match xs.getLast?, ys.head? with
  | some a, some b => isSpacingElem a && isSpacingElem b
  | _, _ => false

/-- The previous-sibling guard of the sources pass, as read from the
already-emitted prefix. -/
def srcGuard (acc : List Node) : Bool :=
  match prevElem acc with
  | some (.element "p" _ pcs) => jsTrim (serializeL pcs) ≠ "&nbsp;"
  | _ => false

/-- The FAQ-state update of the headings pass for one heading text. -/
def hdFaqSt (st : FaqSt) (text : String) : FaqSt :=
  if includesS text "frequently asked questions" ∨ includesS text "faq" then
    ⟨true, true⟩
  else st

end WordToHtml

namespace WordToHtml

/-! ## Helpers for stating concrete claims -/

mutual

/-- First element with the given tag, in document order
(`querySelector`). -/
def findTagL (t : String) : List Node → Option Node
  | [] => none
  | n :: rest =>
      match findTagN t n with
      | some e => some e
      | none => findTagL t rest

/-- The tag search on one node. -/
def findTagN (t : String) : Node → Option Node
  | .text _ => none
  | .element t' a cs =>
      if t' = t then some (.element t' a cs) else findTagL t cs

end

mutual

/-- Does the tree contain an element with the given tag? -/
def hasTagL (t : String) : List Node → Bool
  | [] => false
  | n :: rest => hasTagN t n || hasTagL t rest

/-- The tag test on one node. -/
def hasTagN (t : String) : Node → Bool
  | .text _ => false
  | .element t' _ cs => t' = t || hasTagL t cs

end

/-- `processMode` in blogs mode with the default features unfolds to the
blogs transform chain. -/
theorem processMode_blogs (h : String) (hne : h ≠ "") :
    processMode h "blogs" defaultFeatures =
    normalizeSources (addSpacing (convertOlHeaders (addLinkAttributes
      (removeH1AfterKT (formatKeyTakeaways (headingStrongWrap (listNormalize h))))))) := by
  unfold processMode defaultFeatures
  simp [hne]

/-! ## Claim C1 -/

/-- The first blogs-mode pipeline run on the failing input: the
key-takeaways formatter copies the whole heading text into the heading's
first `strong` and appends a colon. -/
theorem c1_run1 :
    convertToHtml "<h2><strong>Key</strong> Takeaways</h2>" "blogs" defaultFeatures =
    "<h2><strong>Key Takeaways:</strong> Takeaways</h2>" := by
  have h1 : sanitize "<h2><strong>Key</strong> Takeaways</h2>" =
      "<h2><strong>Key</strong> Takeaways</h2>" := by decide
  have h2 : cleanHtml "<h2><strong>Key</strong> Takeaways</h2>" =
      "<h2><strong>Key</strong> Takeaways</h2>" := by decide
  have h3 : listNormalize "<h2><strong>Key</strong> Takeaways</h2>" =
      "<h2><strong>Key</strong> Takeaways</h2>" := by decide
  have h4 : headingStrongWrap "<h2><strong>Key</strong> Takeaways</h2>" =
      "<h2><strong>Key</strong> Takeaways</h2>" := by decide
  have h5 : formatKeyTakeaways "<h2><strong>Key</strong> Takeaways</h2>" =
      "<h2><strong>Key Takeaways:</strong> Takeaways</h2>" := by decide
  have h6 : removeH1AfterKT "<h2><strong>Key Takeaways:</strong> Takeaways</h2>" =
      "<h2><strong>Key Takeaways:</strong> Takeaways</h2>" := by decide
  have h7 : addLinkAttributes "<h2><strong>Key Takeaways:</strong> Takeaways</h2>" =
      "<h2><strong>Key Takeaways:</strong> Takeaways</h2>" := by decide
  have h8 : convertOlHeaders "<h2><strong>Key Takeaways:</strong> Takeaways</h2>" =
      "<h2><strong>Key Takeaways:</strong> Takeaways</h2>" := by decide
  have h9 : addSpacing "<h2><strong>Key Takeaways:</strong> Takeaways</h2>" =
      "<h2><strong>Key Takeaways:</strong> Takeaways</h2>" := by decide
  have h10 : normalizeSources "<h2><strong>Key Takeaways:</strong> Takeaways</h2>" =
      "<h2><strong>Key Takeaways:</strong> Takeaways</h2>" := by decide
  have h11 : formatCompact "<h2><strong>Key Takeaways:</strong> Takeaways</h2>" =
      "<h2><strong>Key Takeaways:</strong> Takeaways</h2>" := by decide
  unfold convertToHtml
  rw [h1, h2, processMode_blogs _ (by decide), h3, h4, h5, h6, h7, h8, h9, h10, h11]

/-- The second run on the first run's output appends another copy of the
heading text and colon: the heading text still does not end with a colon
(it ends in "Takeaways"), so the formatter fires again. -/
theorem c1_run2 :
    convertToHtml "<h2><strong>Key Takeaways:</strong> Takeaways</h2>" "blogs" defaultFeatures =
    "<h2><strong>Key Takeaways: Takeaways:</strong> Takeaways</h2>" := by
  have h1 : sanitize "<h2><strong>Key Takeaways:</strong> Takeaways</h2>" =
      "<h2><strong>Key Takeaways:</strong> Takeaways</h2>" := by decide
  have h2 : cleanHtml "<h2><strong>Key Takeaways:</strong> Takeaways</h2>" =
      "<h2><strong>Key Takeaways:</strong> Takeaways</h2>" := by decide
  have h3 : listNormalize "<h2><strong>Key Takeaways:</strong> Takeaways</h2>" =
      "<h2><strong>Key Takeaways:</strong> Takeaways</h2>" := by decide
  have h4 : headingStrongWrap "<h2><strong>Key Takeaways:</strong> Takeaways</h2>" =
      "<h2><strong>Key Takeaways:</strong> Takeaways</h2>" := by decide
  have h5 : formatKeyTakeaways "<h2><strong>Key Takeaways:</strong> Takeaways</h2>" =
      "<h2><strong>Key Takeaways: Takeaways:</strong> Takeaways</h2>" := by decide
  have h6 : removeH1AfterKT "<h2><strong>Key Takeaways: Takeaways:</strong> Takeaways</h2>" =
      "<h2><strong>Key Takeaways: Takeaways:</strong> Takeaways</h2>" := by decide
  have h7 : addLinkAttributes "<h2><strong>Key Takeaways: Takeaways:</strong> Takeaways</h2>" =
      "<h2><strong>Key Takeaways: Takeaways:</strong> Takeaways</h2>" := by decide
  have h8 : convertOlHeaders "<h2><strong>Key Takeaways: Takeaways:</strong> Takeaways</h2>" =
      "<h2><strong>Key Takeaways: Takeaways:</strong> Takeaways</h2>" := by decide
  have h9 : addSpacing "<h2><strong>Key Takeaways: Takeaways:</strong> Takeaways</h2>" =
      "<h2><strong>Key Takeaways: Takeaways:</strong> Takeaways</h2>" := by decide
  have h10 : normalizeSources "<h2><strong>Key Takeaways: Takeaways:</strong> Takeaways</h2>" =
      "<h2><strong>Key Takeaways: Takeaways:</strong> Takeaways</h2>" := by decide
  have h11 : formatCompact "<h2><strong>Key Takeaways: Takeaways:</strong> Takeaways</h2>" =
      "<h2><strong>Key Takeaways: Takeaways:</strong> Takeaways</h2>" := by decide
  unfold convertToHtml
  rw [h1, h2, processMode_blogs _ (by decide), h3, h4, h5, h6, h7, h8, h9, h10, h11]

/-- C1: the full pipeline is not idempotent.  In blogs mode, on the input
`<h2><strong>Key</strong> Takeaways</h2>`, running the pipeline twice
yields a different output than running it once: the key-takeaways
formatter appends the whole heading text plus a colon to the heading's
first `strong` on every run in which the heading text does not yet end
with a colon, so the heading grows on each run.  The specification
demands `pipeline(pipeline(x)) == pipeline(x)` for every input; the code
violates it at this input. -/
theorem c1_pipeline_not_idempotent :
    convertToHtml (convertToHtml "<h2><strong>Key</strong> Takeaways</h2>" "blogs"
        defaultFeatures) "blogs" defaultFeatures ≠
    convertToHtml "<h2><strong>Key</strong> Takeaways</h2>" "blogs" defaultFeatures := by
  rw [c1_run1, c1_run2]
  decide

/-! ## Claim C3 -/

/-- C3: heading-list numbering is broken in the code.  On the
specification's own scenario — an `h2` section followed by a two-item
heading list — the conversion emits "1. One" and "1. Two" rather than
"1. One" and "2. Two": the source reads the section counter into a
`const` before iterating the items and stores the same stale `counter +
1` once per item, so every item of one list gets the same number.  On two
`h2` sections each followed by a three-item heading list, every produced
heading is numbered "1."  (neither 1,2,3 per section as claimed, nor
1..6 globally). -/
theorem c3_counter_stale :
    convertOlHeaders
        "<h2>Section</h2><ol><li><strong><h3>One</h3></strong></li><li><strong><h3>Two</h3></strong></li></ol>" =
      "<h2>Section</h2><h3>1. One</h3><h3>1. Two</h3>" ∧
    ("<h2>Section</h2><h3>1. One</h3><h3>1. Two</h3>" : String) ≠
      "<h2>Section</h2><h3>1. One</h3><h3>2. Two</h3>" ∧
    convertOlHeaders
        ("<h2>A</h2><ol><li><strong><h3>P</h3></strong></li><li><strong><h3>Q</h3></strong></li><li><strong><h3>R</h3></strong></li></ol>" ++
         "<h2>B</h2><ol><li><strong><h3>X</h3></strong></li><li><strong><h3>Y</h3></strong></li><li><strong><h3>Z</h3></strong></li></ol>") =
      "<h2>A</h2><h3>1. P</h3><h3>1. Q</h3><h3>1. R</h3><h2>B</h2><h3>1. X</h3><h3>1. Y</h3><h3>1. Z</h3>" := by
  refine ⟨by decide, by decide, by decide⟩

end WordToHtml

namespace WordToHtml

/-! ## Claim C7 -/

/-- The blogs-mode pipeline run on the key-takeaways scenario input. -/
theorem c7_run :
    convertToHtml "<h2>Key Takeaways</h2><ul><li><em><strong>A: </strong>text</em></li></ul><h1>Title</h1>"
        "blogs" defaultFeatures =
    "<h2><strong>Key Takeaways:</strong></h2>\n<ul>\n  <li><strong>A:</strong> text</li>\n</ul>\n<p>&nbsp;</p>" := by
  have h1 : sanitize "<h2>Key Takeaways</h2><ul><li><em><strong>A: </strong>text</em></li></ul><h1>Title</h1>" =
      "<h2>Key Takeaways</h2><ul><li><em><strong>A: </strong>text</em></li></ul><h1>Title</h1>" := by decide
  have h2 : cleanHtml "<h2>Key Takeaways</h2><ul><li><em><strong>A: </strong>text</em></li></ul><h1>Title</h1>" =
      "<h2>Key Takeaways</h2><ul><li><em><strong>A: </strong>text</em></li></ul><h1>Title</h1>" := by decide
  have h3 : listNormalize "<h2>Key Takeaways</h2><ul><li><em><strong>A: </strong>text</em></li></ul><h1>Title</h1>" =
      "<h2>Key Takeaways</h2><ul><li><em><strong>A:</strong> text</em></li></ul><h1>Title</h1>" := by decide
  have h4 : headingStrongWrap "<h2>Key Takeaways</h2><ul><li><em><strong>A:</strong> text</em></li></ul><h1>Title</h1>" =
      "<h2><strong>Key Takeaways</strong></h2><ul><li><em><strong>A:</strong> text</em></li></ul><h1><strong>Title</strong></h1>" := by decide
  have h5 : formatKeyTakeaways "<h2><strong>Key Takeaways</strong></h2><ul><li><em><strong>A:</strong> text</em></li></ul><h1><strong>Title</strong></h1>" =
      "<h2><strong>Key Takeaways:</strong></h2><ul><li><strong>A:</strong> text</li></ul><h1><strong>Title</strong></h1>" := by decide
  have h6 : removeH1AfterKT "<h2><strong>Key Takeaways:</strong></h2><ul><li><strong>A:</strong> text</li></ul><h1><strong>Title</strong></h1>" =
      "<h2><strong>Key Takeaways:</strong></h2><ul><li><strong>A:</strong> text</li></ul>" := by decide
  have h7 : addLinkAttributes "<h2><strong>Key Takeaways:</strong></h2><ul><li><strong>A:</strong> text</li></ul>" =
      "<h2><strong>Key Takeaways:</strong></h2><ul><li><strong>A:</strong> text</li></ul>" := by decide
  have h8 : convertOlHeaders "<h2><strong>Key Takeaways:</strong></h2><ul><li><strong>A:</strong> text</li></ul>" =
      "<h2><strong>Key Takeaways:</strong></h2><ul><li><strong>A:</strong> text</li></ul>" := by decide
  have h9 : addSpacing "<h2><strong>Key Takeaways:</strong></h2><ul><li><strong>A:</strong> text</li></ul>" =
      "<h2><strong>Key Takeaways:</strong></h2><ul><li><strong>A:</strong> text</li></ul><p>&nbsp;</p>" := by decide
  have h10 : normalizeSources "<h2><strong>Key Takeaways:</strong></h2><ul><li><strong>A:</strong> text</li></ul><p>&nbsp;</p>" =
      "<h2><strong>Key Takeaways:</strong></h2><ul><li><strong>A:</strong> text</li></ul><p>&nbsp;</p>" := by decide
  have h11 : formatCompact "<h2><strong>Key Takeaways:</strong></h2><ul><li><strong>A:</strong> text</li></ul><p>&nbsp;</p>" =
      "<h2><strong>Key Takeaways:</strong></h2>\n<ul>\n  <li><strong>A:</strong> text</li>\n</ul>\n<p>&nbsp;</p>" := by decide
  unfold convertToHtml
  rw [h1, h2, processMode_blogs _ (by decide), h3, h4, h5, h6, h7, h8, h9, h10, h11]

/-- C7: on the scenario input
`<h2>Key Takeaways</h2><ul><li><em><strong>A: </strong>text</em></li></ul><h1>Title</h1>`
processed in blogs mode with the default features, the output's
key-takeaways heading text ends with "Key Takeaways:", no `em` element
remains inside the list following that heading, and the `h1` after the
list is removed. -/
theorem c7_key_takeaways_scenario :
    (let out := parseHTML (convertToHtml
      "<h2>Key Takeaways</h2><ul><li><em><strong>A: </strong>text</em></li></ul><h1>Title</h1>"
      "blogs" defaultFeatures)
    ((findTagL "h2" out).elim false
      (fun h => endsWithS h.textContent "Key Takeaways:")) = true ∧
    ((findTagL "ul" out).elim false (fun u => ¬ hasTagN "em" u)) = true ∧
    hasTagL "h1" out = false) := by
  rw [c7_run]
  refine ⟨by decide, by decide, by decide⟩

end WordToHtml

namespace WordToHtml

/-! ## Claim C4 -/

/-- C4, counterexample: inside a list item, the cleaner rewrites
`<strong><em>a</em>b</strong>` to `<em><strong>a</strong></em>b` — the
trailing sibling "b" of the inner `em` ends up after the new outer `em`,
as a sibling, not inside it as the claim states
(`<em><strong>a</strong>b</em>`). -/
theorem c4_trailing_outside_em :
    cleanHtml "<ul><li><strong><em>a</em>b</strong></li></ul>" =
      "<ul><li><em><strong>a</strong></em>b</li></ul>" ∧
    ("<ul><li><em><strong>a</strong></em>b</li></ul>" : String) ≠
      "<ul><li><em><strong>a</strong>b</em></li></ul>" := by
  refine ⟨by decide, by decide⟩

/-- `findDirectEm` locates the first direct `em` child past any non-`em`
content. -/
theorem findDirectEm_append (pre : List Node) (ea : List (String × String))
    (ecs post : List Node) (h : ∀ n ∈ pre, isElemTag "em" n = false) :
    findDirectEm (pre ++ .element "em" ea ecs :: post) = some (pre, ea, ecs, post) := by
  induction pre with
  | nil => simp [findDirectEm]
  | cons n pre' ih =>
      have hn : isElemTag "em" n = false := h n (by simp)
      have ih' := ih (fun m hm => h m (by simp [hm]))
      cases n with
      | text s => simp [findDirectEm, ih']
      | element t a cs =>
          have ht : t ≠ "em" := by
            intro he
            subst he
            simp [isElemTag] at hn
          simp only [List.cons_append, findDirectEm]
          split
          · next heq => exact absurd (by injection heq) ht
          · rw [List.append_eq, ih']

/-- C4, amended: inside a list item, a `strong` whose first direct `em`
child follows only non-`em` content is rewritten to a fresh `em` wrapping
a fresh `strong` holding the `em`'s content in order; the siblings that
followed the `em` inside the `strong` are relocated after the new outer
`em`, as its siblings, in reverse order; the content before the `em` is
discarded with the removed `strong`; and the reverse nesting (`em`
wrapping `strong`) is left unchanged. -/
theorem c4_strong_em_rewrite :
    (∀ (sa ea : List (String × String)) (pre ecs post : List Node),
      (∀ n ∈ pre, isElemTag "em" n = false) →
      normalizeSEN (.element "strong" sa (pre ++ .element "em" ea ecs :: post)) =
        .element "em" [] [.element "strong" [] ecs] :: post.reverse) ∧
    (∀ (ea sa : List (String × String)) (scs : List Node),
      findDirectEm scs = none →
      normalizeSEN (.element "em" ea [.element "strong" sa scs]) =
        [.element "em" ea [.element "strong" sa (normalizeSEL scs)]]) := by
  constructor
  · intro sa ea pre ecs post h
    simp [normalizeSEN, findDirectEm_append pre ea ecs post h]
  · intro ea sa scs h
    simp [normalizeSEN, normalizeSEL, h]

/-- Witness for the amended C4 at concrete inputs. -/
theorem c4_strong_em_rewrite_witness :
    normalizeSEN (.element "strong" [] [.text "x", .element "em" [] [.text "a"],
        .text "b", .text "c"]) =
      .element "em" [] [.element "strong" [] [.text "a"]] :: [.text "c", .text "b"] ∧
    normalizeSEN (.element "em" [] [.element "strong" [] [.text "a"]]) =
      [.element "em" [] [.element "strong" [] [.text "a"]]] := by
  constructor
  · exact c4_strong_em_rewrite.1 [] [] [.text "x"] [.text "a"] [.text "b", .text "c"]
      (by intro n hn; simp at hn; cases hn; simp_all [isElemTag])
  · have h := c4_strong_em_rewrite.2 [] [] [.text "a"] (by simp [findDirectEm])
    rw [show normalizeSEL [Node.text "a"] = [Node.text "a"] from rfl] at h
    exact h

/-! ## Claim C5 -/

/-- C5, counterexample: an anchor with `rel="xnoopener noreferrer"` keeps
its `rel` unchanged (only `target` is added), although "noopener" is not
among its space-separated tokens — the source tests substring containment,
not token membership, so the missing token is not appended as the claim
requires. -/
theorem c5_substring_not_token :
    addLinkAttributes "<p><a href=\"/x\" rel=\"xnoopener noreferrer\">t</a></p>" =
      "<p><a href=\"/x\" rel=\"xnoopener noreferrer\" target=\"_blank\">t</a></p>" ∧
    ("noopener" ∈ splitS "xnoopener noreferrer" ' ') = False := by
  refine ⟨by decide, by decide⟩

/-- A string does not equal itself extended by a nonempty suffix. -/
theorem append_ne_self (r s : String) (hs : s ≠ "") : r ++ s ≠ r := by
  intro h
  have hlen : (r ++ s).length = r.length := by rw [h]
  rw [String.length_append] at hlen
  have : s.length = 0 := by omega
  exact hs (by cases s with | mk d => cases d with | nil => rfl | cons c cs => simp [String.length] at this)

/-- Appending a nonempty string gives a nonempty string. -/
theorem append_ne_empty (r s : String) (hs : s ≠ "") : r ++ s ≠ "" := by
  intro h
  have hlen : (r ++ s).length = 0 := by rw [h]; rfl
  rw [String.length_append] at hlen
  have : s.length = 0 := by omega
  exact hs (by cases s with | mk d => cases d with | nil => rfl | cons c cs => simp [String.length] at this)

/-- C5, amended: the `rel` update of link-attribute injection is additive
over substring containment, not token membership: with no `rel`, it sets
`noopener noreferrer`; with an existing value it appends (space-
separated) whichever of the two words is not already a substring of the
value, and leaves the value alone when both occur as substrings; in
particular `rel="noopener"` ends as exactly `noopener noreferrer`, whose
token list has no duplicate. -/
theorem c5_rel_additive :
    (∀ attrs, hasAttr attrs "rel" = false →
      updateRel attrs = setAttr attrs "rel" "noopener noreferrer") ∧
    (∀ attrs r, getAttr attrs "rel" = some r →
      includesS r "noopener" = true → includesS r "noreferrer" = true →
      updateRel attrs = attrs) ∧
    (∀ attrs r, getAttr attrs "rel" = some r → r ≠ "" →
      includesS r "noopener" = true → includesS r "noreferrer" = false →
      updateRel attrs = setAttr attrs "rel" (r ++ " noreferrer")) ∧
    (∀ attrs r, getAttr attrs "rel" = some r → r ≠ "" →
      includesS r "noopener" = false → includesS r "noreferrer" = true →
      updateRel attrs = setAttr attrs "rel" (r ++ " noopener")) ∧
    (∀ attrs r, getAttr attrs "rel" = some r → r ≠ "" →
      includesS r "noopener" = false → includesS r "noreferrer" = false →
      updateRel attrs = setAttr attrs "rel" (r ++ " noopener" ++ " noreferrer")) ∧
    (∀ attrs, getAttr attrs "rel" = some "noopener" →
      updateRel attrs = setAttr attrs "rel" "noopener noreferrer") ∧
    splitS "noopener noreferrer" ' ' = ["noopener", "noreferrer"] := by
  refine ⟨?_, ?_, ?_, ?_, ?_, ?_, by decide⟩
  · intro attrs h
    unfold updateRel
    have : getAttr attrs "rel" = none := by
      unfold hasAttr at h
      cases hg : getAttr attrs "rel" with
      | none => rfl
      | some v => rw [hg] at h; simp at h
    rw [this]
  · intro attrs r hg h1 h2
    unfold updateRel
    rw [hg]
    simp [h1, h2]
  · intro attrs r hg hr h1 h2
    unfold updateRel
    rw [hg]
    simp only [h1, h2, Bool.not_true, Bool.not_false, if_neg, if_true, if_false]
    simp [hr, append_ne_self r " noreferrer" (by decide)]
  · intro attrs r hg hr h1 h2
    unfold updateRel
    rw [hg]
    simp only [h1, h2]
    simp [hr, append_ne_self r " noopener" (by decide)]
  · intro attrs r hg hr h1 h2
    unfold updateRel
    rw [hg]
    simp only [h1, h2]
    have hne : (r ++ " noopener") ++ " noreferrer" ≠ r := by
      rw [String.append_assoc]
      exact append_ne_self r _ (by decide)
    simp [hr, append_ne_empty r " noopener" (by decide), hne]
  · intro attrs hg
    unfold updateRel
    rw [hg]
    simp [show includesS "noopener" "noopener" = true from by decide,
      show includesS "noopener" "noreferrer" = false from by decide,
      show ("noopener" : String) ≠ "" from by decide,
      show ("noopener" ++ " noreferrer" : String) = "noopener noreferrer" from by decide,
      show ("noopener noreferrer" : String) ≠ "noopener" from by decide]

/-- Witness for the amended C5 at concrete inputs. -/
theorem c5_rel_additive_witness :
    updateRel [("href", "/x")] = [("href", "/x"), ("rel", "noopener noreferrer")] ∧
    updateRel [("rel", "noopener")] = [("rel", "noopener noreferrer")] := by
  constructor
  · rw [c5_rel_additive.1 [("href", "/x")] (by decide)]
    decide
  · rw [c5_rel_additive.2.2.2.2.2.1 [("rel", "noopener")] (by decide)]
    decide

end WordToHtml

namespace WordToHtml

/-! ## Claim C8 -/

/-- C8, counterexample: a `sources:` paragraph directly preceded by a
heading receives no spacing paragraph, although the heading is not the
spacing marker — the source inserts only when the previous element
sibling is a `p` whose innerHTML does not trim to the `&nbsp;` entity;
after a plain paragraph the insertion does occur. -/
theorem c8_heading_blocks_insert :
    serializeL (sourcesSpacingPass (parseHTML "<h2>Refs</h2><p>Sources: A</p>")) =
      "<h2>Refs</h2><p>Sources: A</p>" ∧
    matchSources (Node.element "p" [] [Node.text "Sources: A"]) = true ∧
    isSpacingElem (Node.element "h2" [] [Node.text "Refs"]) = false ∧
    serializeL (sourcesSpacingPass (parseHTML "<p>Intro</p><p>Sources: A</p>")) =
      "<p>Intro</p><p>&nbsp;</p><p>Sources: A</p>" := by
  refine ⟨by decide, by decide, by decide, by decide⟩

/-- C8, amended: in a two-sibling context ending in a `sources:`
paragraph, the sources pass inserts the spacing paragraph exactly when
the first sibling is a `p` element whose processed innerHTML does not
trim to the `&nbsp;` entity; a `p` trimming to `&nbsp;`, any non-`p`
element (headings included), and any text node block the insertion. -/
theorem c8_sources_guard (a xa : List (String × String)) (cs xcs : List Node)
    (hm : matchSources (sourcesSpN (.element "p" a cs)) = true) :
    (jsTrim (serializeL (sourcesSpGo [] xcs)) ≠ "&nbsp;" →
      sourcesSpGo [] [.element "p" xa xcs, .element "p" a cs] =
        [sourcesSpN (.element "p" xa xcs), spacingNode,
          sourcesSpN (.element "p" a cs)]) ∧
    (jsTrim (serializeL (sourcesSpGo [] xcs)) = "&nbsp;" →
      sourcesSpGo [] [.element "p" xa xcs, .element "p" a cs] =
        [sourcesSpN (.element "p" xa xcs), sourcesSpN (.element "p" a cs)]) ∧
    (∀ t, t ≠ "p" →
      sourcesSpGo [] [.element t xa xcs, .element "p" a cs] =
        [sourcesSpN (.element t xa xcs), sourcesSpN (.element "p" a cs)]) ∧
    (∀ s, sourcesSpGo [] [.text s, .element "p" a cs] =
        [.text s, sourcesSpN (.element "p" a cs)]) := by
  have hm' : matchSources (Node.element "p" a (sourcesSpGo [] cs)) = true := hm
  refine ⟨?_, ?_, ?_, ?_⟩
  · intro h
    simp [sourcesSpGo, sourcesSpN, prevElem, Node.isElem, hm', h]
  · intro h
    simp [sourcesSpGo, sourcesSpN, prevElem, Node.isElem, hm', h]
  · intro t ht
    simp [sourcesSpGo, sourcesSpN, prevElem, Node.isElem, hm']
    split
    · next heq =>
        injection Option.some.inj heq with h1 h2 h3
        exact absurd h1 ht
    · rfl
  · intro s
    simp [sourcesSpGo, sourcesSpN, prevElem, Node.isElem, hm']

/-- Witness for the amended C8 at concrete inputs. -/
theorem c8_sources_guard_witness :
    sourcesSpGo [] [.element "p" [] [.text "Intro"],
        .element "p" [] [.text "Sources: A"]] =
      [.element "p" [] [.text "Intro"], spacingNode,
        .element "p" [] [.text "Sources: A"]] ∧
    sourcesSpGo [] [.element "h2" [] [.text "Refs"],
        .element "p" [] [.text "Sources: A"]] =
      [.element "h2" [] [.text "Refs"], .element "p" [] [.text "Sources: A"]] := by
  constructor
  · have h := (c8_sources_guard [] [] [.text "Sources: A"] [.text "Intro"]
      (by decide)).1 (by decide)
    rw [show sourcesSpN (.element "p" [] [.text "Intro"]) =
          Node.element "p" [] [.text "Intro"] from rfl,
        show sourcesSpN (.element "p" [] [.text "Sources: A"]) =
          Node.element "p" [] [.text "Sources: A"] from rfl] at h
    exact h
  · have h := (c8_sources_guard [] [] [.text "Sources: A"] [.text "Refs"]
      (by decide)).2.2.1 "h2" (by decide)
    rw [show sourcesSpN (.element "h2" [] [.text "Refs"]) =
          Node.element "h2" [] [.text "Refs"] from rfl,
        show sourcesSpN (.element "p" [] [.text "Sources: A"]) =
          Node.element "p" [] [.text "Sources: A"] from rfl] at h
    exact h

end WordToHtml
namespace WordToHtml

/-! ## Claim C9 -/

/-- C9, counterexample: the formatter's boundary does not restore its
input on an internal exception — the catch falls through to the regex
fallback, which rewrites the text (here trimming the inter-paragraph gap
and breaking the paragraphs onto separate lines). -/
theorem c9_formatter_boundary_modifies :
    fmtCatch (.error ()) "<p>a</p> <p>b</p>" = "<p>a</p>\n<p>b</p>" ∧
    fmtCatch (.error ()) "<p>a</p> <p>b</p>" ≠ "<p>a</p> <p>b</p>" := by
  refine ⟨by decide, by decide⟩

/-- C9, amended: the DOM-walking mode stages whose walks can throw do
catch the exception at their boundary and return their input unmodified
— the cleaner and the list normalizer restore the input whenever their
inner computation errors — but the formatter's catch instead falls
through to the modifying regex fallback (and only a success of its DOM
branch is returned as is). -/
theorem c9_stage_boundaries :
    (∀ html, html ≠ "" →
      cleanHtmlInner (parseHTML html) = .error () →
      cleanHtml html = html) ∧
    (∀ html, html ≠ "" →
      listNormWalk (2 * sizeL (parseHTML html) + 2) (parseHTML html) = .error () →
      listNormalize html = html) ∧
    (∀ html r, fmtCatch (.ok r) html = r) ∧
    (∀ html, fmtCatch (.error ()) html = fmtFallback html) := by
  refine ⟨?_, ?_, fun _ _ => rfl, fun _ => rfl⟩
  · intro html hne h
    unfold cleanHtml
    rw [if_neg hne, h]
  · intro html hne h
    unfold listNormalize
    rw [if_neg hne]
    simp only []
    rw [h]

/-- Witness for the amended C9: a cleaning walk that throws (a text node
followed by `br` under a block parent) and a normalizing walk that
throws (a colon strong nested below the list item with an element next
sibling), each returning the input. -/
theorem c9_stage_boundaries_witness :
    (("<p>a<br>b</p>" : String) ≠ "" ∧
      cleanHtmlInner (parseHTML "<p>a<br>b</p>") = .error () ∧
      cleanHtml "<p>a<br>b</p>" = "<p>a<br>b</p>") ∧
    (("<ul><li><p><strong>A:</strong><em>i</em></p></li></ul>" : String) ≠ "" ∧
      listNormWalk
        (2 * sizeL (parseHTML "<ul><li><p><strong>A:</strong><em>i</em></p></li></ul>") + 2)
        (parseHTML "<ul><li><p><strong>A:</strong><em>i</em></p></li></ul>") = .error () ∧
      listNormalize "<ul><li><p><strong>A:</strong><em>i</em></p></li></ul>" =
        "<ul><li><p><strong>A:</strong><em>i</em></p></li></ul>") := by
  refine ⟨⟨by decide, rfl, ?_⟩, ⟨by decide, rfl, ?_⟩⟩
  · exact c9_stage_boundaries.1 _ (by decide) rfl
  · exact c9_stage_boundaries.2.1 _ (by decide) rfl

end WordToHtml

namespace WordToHtml

/-! ## Claim C10 -/

lemma decodeURIComp_no_pct : ∀ (l : List Char) (fuel : Nat), l.length ≤ fuel →
    (∀ c ∈ l, c ≠ '%') → decodeURIComp fuel l = some l := by
  intro l
  induction l with
  | nil =>
      intro fuel _ _
      cases fuel with
      | zero => rfl
      | succ n => rfl
  | cons c rest ih =>
      intro fuel hlen hc
      cases fuel with
      | zero => simp at hlen
      | succ n =>
          have hcp : c ≠ '%' := hc c (by simp)
          unfold decodeURIComp
          split
          · omega
          · rename_i heq
            exact absurd heq (by simp)
          · rename_i heq
            exact absurd ((List.cons.inj heq).1) hcp
          · rename_i hx heq1 heq2
            obtain ⟨hcc, hrr⟩ := List.cons.inj heq2
            have hfe := Nat.succ.inj heq1
            subst hfe
            subst hcc
            subst hrr
            rw [ih _ (by simpa using hlen) (fun x hx2 => hc x (by simp [hx2]))]
            rfl


lemma map_replDashC_id (l : List Char)
    (h : ∀ c ∈ l, ¬ (0x2011 ≤ c.toNat ∧ c.toNat ≤ 0x2015)) :
    l.map replDashC = l := by
  induction l with
  | nil => rfl
  | cons c rest ih =>
      simp only [List.map_cons]
      rw [ih (fun x hx => h x (by simp [hx]))]
      have hid : replDashC c = c := by
        unfold replDashC
        rw [if_neg (h c (by simp))]
      rw [hid]

lemma map_replNbspC_id (l : List Char) (h : ∀ c ∈ l, ¬ isJsWs c = true) :
    l.map replNbspC = l := by
  induction l with
  | nil => rfl
  | cons c rest ih =>
      simp only [List.map_cons]
      rw [ih (fun x hx => h x (by simp [hx]))]
      have hc : c ≠ nbspC := by
        intro he
        exact h c (by simp) (by rw [he]; decide)
      unfold replNbspC
      rw [if_neg hc]

lemma collapseWs_id (l : List Char) (h : ∀ c ∈ l, ¬ isJsWs c = true) :
    collapseWs false l = l := by
  induction l with
  | nil => rfl
  | cons c rest ih =>
      unfold collapseWs
      rw [if_neg (by simpa using h c (by simp))]
      rw [ih (fun x hx => h x (by simp [hx]))]

lemma collapseHyph_id_flag : ∀ (l : List Char) (b : Bool),
    hasSubL ['-', '-'] l = false →
    (b = true → l.head? ≠ some '-') → collapseHyph b l = l := by
  intro l
  induction l with
  | nil => intro b _ _; cases b <;> rfl
  | cons c rest ih =>
      intro b hsub hhead
      have hsub' : hasSubL ['-', '-'] rest = false := by
        simp [hasSubL] at hsub
        exact hsub.2
      by_cases hc : c = '-'
      · subst hc
        have hb : b = false := by
          cases b with
          | false => rfl
          | true => exact absurd rfl (fun h2 => hhead h2 rfl)
        subst hb
        have hrh : rest.head? ≠ some '-' := by
          simp [hasSubL, startsL] at hsub
          cases rest with
          | nil => simp
          | cons d r2 =>
              simp [startsL] at hsub ⊢
              exact fun he => hsub.1 he.symm
        unfold collapseHyph
        rw [if_pos rfl, if_neg (by decide)]
        rw [ih true hsub' (fun _ => hrh)]
      · unfold collapseHyph
        rw [if_neg hc]
        rw [ih false hsub' (by simp)]

lemma dropHyphAfterSlash_id_flag : ∀ (l : List Char) (b : Bool),
    hasSubL ['/', '-'] l = false →
    (b = true → l.head? ≠ some '-') → dropHyphAfterSlash b l = l := by
  intro l
  induction l with
  | nil => intro b _ _; cases b <;> rfl
  | cons c rest ih =>
      intro b hsub hhead
      have hsub' : hasSubL ['/', '-'] rest = false := by
        simp [hasSubL] at hsub
        exact hsub.2
      by_cases hc : c = '/'
      · subst hc
        have hrh : rest.head? ≠ some '-' := by
          simp [hasSubL, startsL] at hsub
          cases rest with
          | nil => simp
          | cons d r2 =>
              simp [startsL] at hsub ⊢
              exact fun he => hsub.1 he.symm
        unfold dropHyphAfterSlash
        rw [if_pos rfl]
        rw [ih true hsub' (fun _ => hrh)]
      · have hnd : ¬ (c = '-' ∧ b = true) := by
          intro ⟨h1, h2⟩
          exact hhead h2 (by rw [h1]; rfl)
        unfold dropHyphAfterSlash
        rw [if_neg hc]
        rw [if_neg (by
          intro hand
          exact hnd ⟨hand.1, by cases b with | true => rfl | false => exact absurd hand.2 (by simp)⟩)]
        rw [ih false hsub' (by simp)]


lemma hasSub2_snoc (a b c : Char) (xs : List Char) :
    hasSubL [a, b] (xs ++ [c]) = true ↔
      (hasSubL [a, b] xs = true ∨ (xs.getLast? = some a ∧ b = c)) := by
  induction xs with
  | nil => simp [hasSubL, startsL]
  | cons x xs ih =>
      cases xs with
      | nil =>
          simp [hasSubL, startsL, List.getLast?]
          exact fun _ => eq_comm
      | cons y ys =>
          simp only [List.cons_append, hasSubL, startsL, Bool.or_eq_true,
            Bool.and_eq_true, decide_eq_true_eq] at ih ⊢
          constructor
          · rintro (h | h)
            · exact Or.inl (Or.inl h)
            · rcases ih.1 h with h2 | h2
              · exact Or.inl (Or.inr h2)
              · exact Or.inr (by simpa [List.getLast?] using h2)
          · rintro ((h | h) | h)
            · exact Or.inl h
            · exact Or.inr (ih.2 (Or.inl h))
            · exact Or.inr (ih.2 (Or.inr (by simpa [List.getLast?] using h)))

lemma hasSub2_rev (a b : Char) : ∀ l : List Char,
    hasSubL [a, b] l.reverse = true ↔ hasSubL [b, a] l = true := by
  intro l
  induction l with
  | nil => simp [hasSubL]
  | cons c rest ih =>
      rw [List.reverse_cons, hasSub2_snoc]
      simp only [hasSubL, startsL, Bool.or_eq_true, Bool.and_eq_true,
        decide_eq_true_eq, List.getLast?_reverse]
      constructor
      · rintro (h | ⟨h1, h2⟩)
        · exact Or.inr (ih.1 h)
        · refine Or.inl ⟨h2, ?_⟩
          cases rest with
          | nil => simp at h1
          | cons d r2 =>
              simp at h1
              simp [startsL, h1]
      · rintro (⟨h1, h2⟩ | h)
        · refine Or.inr ⟨?_, h1⟩
          cases rest with
          | nil => simp [startsL] at h2
          | cons d r2 =>
              simp [startsL] at h2
              simp [h2.symm]
        · exact Or.inl (ih.2 h)


/-- C10, counterexample: a URL free of every character class the claim
names (no percent escapes, dash-likes, non-breaking spaces, whitespace
or double hyphens) is still rewritten — `cleanUrl` also strips a hyphen
directly following a path slash. -/
theorem c10_slash_hyphen_rewritten :
    urlClaimFree "http://a/-b" = true ∧
    cleanUrl "http://a/-b" = "http://a/b" ∧
    cleanUrl "http://a/-b" ≠ "http://a/-b" := by
  refine ⟨by decide, by decide, by decide⟩

/-- C10, amended: the claim's freeness set is sufficient only together
with the absence of a hyphen adjacent to a slash: a URL with no percent
sign, dash-like character, non-breaking space, whitespace or double
hyphen, and without the substrings "/-" and "-/", passes through
`cleanUrl` unchanged. -/
theorem c10_cleanUrl_identity (url : String)
    (h : urlClaimFree url = true)
    (h2 : includesS url "/-" = false)
    (h3 : includesS url "-/" = false) :
    cleanUrl url = url := by
  by_cases hempty : url = ""
  · rw [hempty]; rfl
  · simp only [urlClaimFree, Bool.and_eq_true, List.all_eq_true, decide_eq_true_eq,
      Bool.not_eq_true] at h
    obtain ⟨hall, hdd⟩ := h
    have hnp : ∀ c ∈ url.data, c ≠ '%' := fun c hc => (hall c hc).1
    have hdash : ∀ c ∈ url.data, ¬ (0x2011 ≤ c.toNat ∧ c.toNat ≤ 0x2015) :=
      fun c hc => (hall c hc).2.1
    have hws : ∀ c ∈ url.data, ¬ isJsWs c = true :=
      fun c hc => by simp [(hall c hc).2.2.2]
    have hdec : decodeURIComponentS url = some url := by
      unfold decodeURIComponentS
      rw [decodeURIComp_no_pct url.data (url.length + 1) (by
        have : url.length = url.data.length := rfl
        omega) hnp]
      rfl
    have hdd' : hasSubL ['-', '-'] url.data = false := hdd
    have h2' : hasSubL ['/', '-'] url.data = false := h2
    have hrev : hasSubL ['/', '-'] url.data.reverse = false := by
      cases hq : hasSubL ['/', '-'] url.data.reverse with
      | false => rfl
      | true =>
          have := (hasSub2_rev '/' '-' url.data).1 hq
          rw [show hasSubL ['-', '/'] url.data = includesS url "-/" from rfl, h3] at this
          exact absurd this (by simp)
    have hchain : cleanUrlReplaceChain url = url := by
      simp only [cleanUrlReplaceChain]
      rw [map_replDashC_id _ hdash, map_replNbspC_id _ hws, collapseWs_id _ hws,
          collapseHyph_id_flag _ false hdd' (by simp),
          dropHyphAfterSlash_id_flag _ false h2' (by simp)]
      unfold dropHyphBeforeSlash
      rw [dropHyphAfterSlash_id_flag _ false hrev (by simp), List.reverse_reverse]
    unfold cleanUrl
    rw [if_neg hempty, hdec]
    simp only []
    rw [hchain]
    simp

/-- Witness for the amended C10 at a concrete clean URL. -/
theorem c10_cleanUrl_identity_witness :
    urlClaimFree "https://example.com/a-b?q=1#f" = true ∧
    cleanUrl "https://example.com/a-b?q=1#f" = "https://example.com/a-b?q=1#f" :=
  ⟨by decide, c10_cleanUrl_identity _ (by decide) (by decide) (by decide)⟩


end WordToHtml

namespace WordToHtml

/-! ## Claim C2 -/

lemma goodL_append (l1 l2 : List Node) (h1 : goodL l1 = true)
    (h2 : goodL l2 = true) : goodL (l1 ++ l2) = true := by
  induction l1 with
  | nil => simpa using h2
  | cons n rest ih =>
      simp only [goodL, Bool.and_eq_true] at h1
      simp only [List.cons_append, goodL, Bool.and_eq_true]
      exact ⟨h1.1, ih h1.2⟩

lemma sanitizeAttrs_all (t : String) (a : List (String × String)) :
    (sanitizeAttrs t a).all (fun p => decide (p.1 ∈ allowedAttrsFor t)) = true := by
  unfold sanitizeAttrs
  induction a with
  | nil => rfl
  | cons p rest ih =>
      simp only [List.filterMap_cons]
      by_cases h1 : alwaysRemovedAttr p.1
      · simpa [h1] using ih
      · by_cases h2 : p.1 ∈ allowedAttrsFor t
        · by_cases h3 : p.1 = "href" ∨ p.1 = "src"
          · by_cases h4 : isSafeUrl (cleanUrl p.2)
            · simp only [h1, h2, h3, h4, if_neg, if_pos, ite_true, ite_false]
              simp_all
            · simp_all
          · simp_all
        · simp_all

lemma hasAttr_sanitizeAttrs_style (t : String) (a : List (String × String)) :
    hasAttr (sanitizeAttrs t a) "style" = false := by
  have hall := sanitizeAttrs_all t a
  simp only [List.all_eq_true, decide_eq_true_eq] at hall
  unfold hasAttr getAttr
  cases hf : (sanitizeAttrs t a).find? (fun p => p.1 = "style") with
  | none => rfl
  | some p =>
      have hmem := List.mem_of_find?_eq_some hf
      have hp := List.find?_some hf
      simp at hp
      have := hall p hmem
      rw [hp] at this
      unfold allowedAttrsFor at this
      by_cases ht : t = "a" <;> by_cases ht2 : t = "img" <;> simp_all


lemma muN_pos (n : Node) : 1 ≤ muN n := by
  cases n with
  | text s => simp [muN]
  | element t a cs => simp [muN]; omega

lemma muL_append (l1 l2 : List Node) : muL (l1 ++ l2) = muL l1 + muL l2 := by
  induction l1 with
  | nil => simp [muL]
  | cons n rest ih => simp [muL, ih]; omega

lemma goodL_mem (l : List Node) (n : Node) (hg : goodL l = true) (hm : n ∈ l) :
    goodN n = true := by
  induction l with
  | nil => simp at hm
  | cons m rest ih =>
      simp only [goodL, Bool.and_eq_true] at hg
      rcases List.mem_cons.1 hm with h | h
      · rw [h]; exact hg.1
      · exact ih hg.2 h

lemma getAttr_getD_ne (a : List (String × String)) (s : String)
    (h : (getAttr a s).getD "" ≠ "") : hasAttr a s = true := by
  unfold hasAttr
  cases hg : getAttr a s with
  | none => rw [hg] at h; simp at h
  | some v => rfl

lemma convertFormatting_some_bound (a : List (String × String)) (cs : List Node)
    (rt : String) (rkids : List Node)
    (h : convertFormatting a cs = some (rt, rkids)) :
    rt ∈ allowedElems ∧ muL rkids ≤ 2 + muL cs ∧ hasAttr a "style" = true := by
  unfold convertFormatting at h
  by_cases h0 : (getAttr a "style").getD "" = ""
  · simp [h0] at h
  · have hstyle : hasAttr a "style" = true := getAttr_getD_ne a "style" h0
    refine ⟨?_, ?_, hstyle⟩ <;>
    · simp only [h0, ite_false, if_neg] at h
      set so := parseStyle ((getAttr a "style").getD "") with hso
      by_cases hi : styleIsItalic so <;> by_cases hb : styleIsBold so <;>
        by_cases hsp : styleIsSup so <;> by_cases hsb : styleIsSub so <;>
        simp [hi, hb, hsp, hsb] at h <;>
        (try obtain ⟨h1, h2⟩ := h) <;>
        (try subst h1) <;> (try subst h2) <;>
        simp [muL, muN, allowedElems, hasAttr, getAttr] <;> omega


lemma san_mu_good : ∀ (fuel : Nat) (l : List Node), muL l ≤ fuel →
    muL (sanitizeL fuel l) ≤ muL l ∧ goodL (sanitizeL fuel l) = true := by
  intro fuel
  induction fuel with
  | zero =>
      intro l hl
      have hnil : l = [] := by
        cases l with
        | nil => rfl
        | cons n rest =>
            have := muN_pos n
            simp [muL] at hl
            omega
      subst hnil
      exact ⟨by simp [sanitizeL], by simp [sanitizeL, goodL]⟩
  | succ f ih =>
      intro l hl
      cases l with
      | nil => exact ⟨by simp [sanitizeL], by simp [sanitizeL, goodL]⟩
      | cons n rest =>
          cases n with
          | text s =>
              have hr : muL rest ≤ f := by simp [muL, muN] at hl; omega
              obtain ⟨ihm, ihg⟩ := ih rest hr
              constructor
              · simp only [sanitizeL, muL, muN]
                omega
              · simp only [sanitizeL, goodL, goodN, Bool.and_eq_true]
                exact ⟨by trivial, ihg⟩
          | element t a cs =>
              have hmuE : muL (Node.element t a cs :: rest) =
                  (1 + (if t ∈ allowedElems then 0 else 4) +
                   (if hasAttr a "style" then 3 else 0) + muL cs) + muL rest := by
                simp [muL, muN]
              have hcs : muL cs ≤ f := by rw [hmuE] at hl; omega
              have hrest : muL rest ≤ f := by rw [hmuE] at hl; omega
              obtain ⟨ihmc, ihgc⟩ := ih cs hcs
              obtain ⟨ihmr, ihgr⟩ := ih rest hrest
              by_cases hT : t ∈ allowedElems
              · simp only [sanitizeL, if_pos hT]
                by_cases hIB : ((getAttr a "style").getD "" ≠ "" ∧
                      styleIsItalic (parseStyle ((getAttr a "style").getD ""))) ∨
                    ((getAttr a "style").getD "" ≠ "" ∧
                      styleIsBold (parseStyle ((getAttr a "style").getD ""))) 
                · rw [if_pos hIB]
                  have hstyle : hasAttr a "style" = true := by
                    rcases hIB with ⟨h1, _⟩ | ⟨h1, _⟩ <;> exact getAttr_getD_ne a "style" h1
                  have hwrapmu : muN (if ((getAttr a "style").getD "" ≠ "" ∧
                        styleIsItalic (parseStyle ((getAttr a "style").getD ""))) ∧
                        ((getAttr a "style").getD "" ≠ "" ∧
                        styleIsBold (parseStyle ((getAttr a "style").getD ""))) then
                        Node.element "strong" [] [Node.element "em" [] (sanitizeL f cs)]
                      else if ((getAttr a "style").getD "" ≠ "" ∧
                        styleIsItalic (parseStyle ((getAttr a "style").getD ""))) then
                        Node.element "em" [] (sanitizeL f cs)
                      else Node.element "strong" [] (sanitizeL f cs)) ≤
                      2 + muL (sanitizeL f cs) := by
                    split
                    · simp [muN, muL, hasAttr, getAttr, allowedElems]
                      try omega
                    · split <;> simp [muN, muL, hasAttr, getAttr, allowedElems]
                  have hwrapgood : goodN (if ((getAttr a "style").getD "" ≠ "" ∧
                        styleIsItalic (parseStyle ((getAttr a "style").getD ""))) ∧
                        ((getAttr a "style").getD "" ≠ "" ∧
                        styleIsBold (parseStyle ((getAttr a "style").getD ""))) then
                        Node.element "strong" [] [Node.element "em" [] (sanitizeL f cs)]
                      else if ((getAttr a "style").getD "" ≠ "" ∧
                        styleIsItalic (parseStyle ((getAttr a "style").getD ""))) then
                        Node.element "em" [] (sanitizeL f cs)
                      else Node.element "strong" [] (sanitizeL f cs)) = true := by
                    split
                    · simp [goodN, goodL, allowedElems, ihgc]
                    · split <;> simp [goodN, goodL, allowedElems, ihgc]
                  constructor
                  · have hss := hasAttr_sanitizeAttrs_style t a
                    simp only [muL, muN, hT, hstyle, hss, Bool.false_eq_true,
                      ite_true, ite_false]
                    omega
                  · simp only [goodL]
                    rw [Bool.and_eq_true]
                    refine ⟨?_, ihgr⟩
                    simp only [goodN]
                    rw [Bool.and_eq_true, Bool.and_eq_true]
                    refine ⟨⟨by simp [hT], sanitizeAttrs_all t a⟩, ?_⟩
                    simp only [goodL]
                    rw [Bool.and_eq_true]
                    exact ⟨hwrapgood, rfl⟩
                · rw [if_neg hIB]
                  constructor
                  · have hss := hasAttr_sanitizeAttrs_style t a
                    simp only [muL, muN, hT, hss, Bool.false_eq_true,
                      ite_true, ite_false]
                    split <;> omega
                  · simp only [goodL]
                    rw [Bool.and_eq_true]
                    refine ⟨?_, ihgr⟩
                    simp only [goodN]
                    rw [Bool.and_eq_true, Bool.and_eq_true]
                    exact ⟨⟨by simp [hT], sanitizeAttrs_all t a⟩, ihgc⟩
              · simp only [sanitizeL, if_neg hT]
                cases hcf : convertFormatting a (sanitizeL f cs) with
                | none =>
                    constructor
                    · rw [muL_append]
                      simp only [muL, muN, hT, Bool.false_eq_true, ite_true, ite_false]
                      split <;> omega
                    · exact goodL_append _ _ ihgc ihgr
                | some p =>
                    obtain ⟨rt, rkids⟩ := p
                    obtain ⟨hrt, hrk, hstyle⟩ :=
                      convertFormatting_some_bound a (sanitizeL f cs) rt rkids hcf
                    have hrkF : muL rkids ≤ f := by
                      rw [hmuE, if_neg hT, if_pos hstyle] at hl
                      omega
                    obtain ⟨ihmk, ihgk⟩ := ih rkids hrkF
                    constructor
                    · have h2 : hasAttr ([] : List (String × String)) "style" = false := rfl
                      simp only [muL, muN, hrt, h2, hstyle, hT, Bool.false_eq_true,
                        ite_true, ite_false]
                      omega
                    · simp only [goodL]
                      rw [Bool.and_eq_true]
                      refine ⟨?_, ihgr⟩
                      simp only [goodN]
                      rw [Bool.and_eq_true, Bool.and_eq_true]
                      exact ⟨⟨by simp [hrt], by simp⟩, ihgk⟩


/-- C2, confirmed: after the sanitizer walk and the top-level unwrap, no
element tag outside the semantic allow-list and no attribute outside its
per-tag allow-list survives, for every parsed body. -/
theorem c2_sanitizer_allowlist_closure (body : List Node) :
    goodL (sanitizeBody body) = true := by
  unfold sanitizeBody
  have hgood := (san_mu_good (muL body) body (Nat.le_refl _)).2
  simp only []
  split
  · rename_i t a cs heq
    have hmem : Node.element t a cs ∈ sanitizeL (muL body) body := by
      have : Node.element t a cs ∈ elemChildren (sanitizeL (muL body) body) := by
        rw [heq]; simp
      exact List.mem_of_mem_filter this
    have hgn := goodL_mem _ _ hgood hmem
    simp only [goodN] at hgn
    rw [Bool.and_eq_true, Bool.and_eq_true] at hgn
    split
    · exact hgn.2
    · exact hgood
  · exact hgood


end WordToHtml

namespace WordToHtml

/-! ## Claim C6 -/

lemma mem_dropWhile_of_not (p : Char → Bool) (c : Char) :
    ∀ l : List Char, c ∈ l → p c = false → c ∈ l.dropWhile p := by
  intro l
  induction l with
  | nil => intro h; simp at h
  | cons a rest ih =>
      intro hm hp
      by_cases ha : p a
      · rw [List.dropWhile_cons_of_pos ha]
        rcases List.mem_cons.1 hm with h | h
        · rw [h] at hp; rw [hp] at ha; simp at ha
        · exact ih h hp
      · rw [List.dropWhile_cons_of_neg ha]
        exact hm

lemma mem_jsTrim (c : Char) (s : String) (hm : c ∈ s.data)
    (hw : isJsWs c = false) : c ∈ (jsTrim s).data := by
  unfold jsTrim
  have h1 : c ∈ s.data.dropWhile isJsWs := mem_dropWhile_of_not _ _ _ hm hw
  have h2 : c ∈ (s.data.dropWhile isJsWs).reverse := List.mem_reverse.2 h1
  have h3 : c ∈ (s.data.dropWhile isJsWs).reverse.dropWhile isJsWs :=
    mem_dropWhile_of_not _ _ _ h2 hw
  exact List.mem_reverse.2 h3

lemma serializeN_elem_lt (t : String) (a : List (String × String))
    (cs : List Node) : '<' ∈ (serializeN (.element t a cs)).data := by
  unfold serializeN
  split <;> simp [String.data_append]

lemma serializeL_elem_lt : ∀ (l : List Node) (t : String)
    (a : List (String × String)) (cs : List Node),
    (.element t a cs) ∈ l → '<' ∈ (serializeL l).data := by
  intro l
  induction l with
  | nil => intro t a cs h; simp at h
  | cons n rest ih =>
      intro t a cs h
      rw [show serializeL (n :: rest) = serializeN n ++ serializeL rest from rfl]
      rw [String.data_append]
      rcases List.mem_cons.1 h with h | h
      · rw [← h] at *
        exact List.mem_append.2 (Or.inl (by rw [h]; exact serializeN_elem_lt t a cs))
      · exact List.mem_append.2 (Or.inr (ih t a cs h))

/-- Spacing paragraphs hold only text children: an element child would
put an opening bracket into the serialized, trimmed interior. -/
lemma isSpacingElem_allText (t : String) (a : List (String × String))
    (cs : List Node) (h : isSpacingElem (.element t a cs) = true) :
    t = "p" ∧ cs.all (fun n => ! n.isElem) = true := by
  unfold isSpacingElem at h
  have ht : t = "p" := by
    by_contra hne
    split at h
    · next heq => injection heq with h1 h2 h3; exact hne h1
    · simp at h
  subst ht
  refine ⟨rfl, ?_⟩
  simp only [List.all_eq_true]
  intro n hn
  by_contra hel
  have : ∃ et ea ecs, n = Node.element et ea ecs := by
    cases n with
    | text s => simp [Node.isElem] at hel
    | element et ea ecs => exact ⟨et, ea, ecs, rfl⟩
  obtain ⟨et, ea, ecs, rfl⟩ := this
  have hlt : '<' ∈ (serializeL cs).data := serializeL_elem_lt cs et ea ecs hn
  have hlt2 : '<' ∈ (jsTrim (serializeL cs)).data := mem_jsTrim _ _ hlt (by decide)
  split at h
  · next heq =>
      simp only [decide_eq_true_eq] at h
      rcases h with ⟨hhtml | hhtml, _⟩ <;>
      · injection heq with h1 h2 h3
        subst h3
        rw [hhtml] at hlt2
        exact absurd hlt2 (by decide)
  · simp at h


lemma escTextC_no_nbsp (c : Char) : nbspC ∉ (escTextC c).data := by
  unfold escTextC
  split
  · decide
  · split
    · decide
    · split
      · decide
      · split
        · decide
        · rename_i h4
          intro he
          simp at he
          exact h4 he.symm

lemma foldl_append_no_mem (c : Char) : ∀ (l : List String) (init : String),
    c ∉ init.data → (∀ x ∈ l, c ∉ x.data) →
    c ∉ (l.foldl (· ++ ·) init).data := by
  intro l
  induction l with
  | nil =>
      intro init h1 _
      simpa using h1
  | cons s rest ih =>
      intro init h1 h2
      simp only [List.foldl_cons]
      refine ih (init ++ s) ?_ (fun x hx => h2 x (by simp [hx]))
      rw [String.data_append]
      intro hmem
      rcases List.mem_append.1 hmem with h | h
      · exact h1 h
      · exact h2 s (by simp) h

lemma escText_no_nbsp (s : String) : nbspC ∉ (escText s).data := by
  unfold escText
  refine foldl_append_no_mem _ _ _ (by simp) ?_
  intro x hx
  rcases List.mem_map.1 hx with ⟨c, _, rfl⟩
  exact escTextC_no_nbsp c

lemma serializeL_allText_no_nbsp : ∀ cs : List Node,
    cs.all (fun n => ! n.isElem) = true → nbspC ∉ (serializeL cs).data := by
  intro cs
  induction cs with
  | nil => intro _; simp [serializeL]
  | cons n rest ih =>
      intro hall
      simp only [List.all_cons, Bool.and_eq_true] at hall
      rw [show serializeL (n :: rest) = serializeN n ++ serializeL rest from rfl,
        String.data_append]
      intro hmem
      rcases List.mem_append.1 hmem with h | h
      · cases n with
        | text s => exact escText_no_nbsp s h
        | element t a c2 => simp [Node.isElem] at hall
      · exact ih hall.2 h

lemma mem_of_mem_jsTrim (c : Char) (s : String)
    (h : c ∈ (jsTrim s).data) : c ∈ s.data := by
  unfold jsTrim at h
  have h1 := List.mem_reverse.1 h
  have h2 := (List.dropWhile_sublist (l := (s.data.dropWhile isJsWs).reverse)
    (p := isJsWs)).subset h1
  have h3 := List.mem_reverse.1 h2
  exact (List.dropWhile_sublist (l := s.data) (p := isJsWs)).subset h3

lemma jsTrim_serializeL_ne_nbspS (cs : List Node) :
    jsTrim (serializeL cs) ≠ nbspS := by
  intro heq
  by_cases hall : cs.all (fun n => ! n.isElem) = true
  · have hno := serializeL_allText_no_nbsp cs hall
    have : nbspC ∈ (jsTrim (serializeL cs)).data := by
      rw [heq]; decide
    exact hno (mem_of_mem_jsTrim _ _ this)
  · have : ∃ n ∈ cs, n.isElem = true := by
      by_contra hc
      push_neg at hc
      exact hall (by
        simp only [List.all_eq_true]
        intro n hn
        have := hc n hn
        simp [this])
    obtain ⟨n, hn, hel⟩ := this
    obtain ⟨t, a, c2, rfl⟩ : ∃ t a c2, n = Node.element t a c2 := by
      cases n with
      | text s => simp [Node.isElem] at hel
      | element t a c2 => exact ⟨t, a, c2, rfl⟩
    have hlt : '<' ∈ (jsTrim (serializeL cs)).data :=
      mem_jsTrim _ _ (serializeL_elem_lt cs t a c2 hn) (by decide)
    rw [heq] at hlt
    exact absurd hlt (by decide)

/-- A spacing paragraph's interior always serializes and trims to the
entity form. -/
lemma isSpacingElem_html (t : String) (a : List (String × String))
    (cs : List Node) (h : isSpacingElem (.element t a cs) = true) :
    t = "p" ∧ jsTrim (serializeL cs) = "&nbsp;" := by
  unfold isSpacingElem at h
  split at h
  · next heq =>
      injection heq with h1 h2 h3
      subst h3
      simp only [decide_eq_true_eq] at h
      rcases h with ⟨hh | hh, _⟩
      · exact ⟨h1, hh⟩
      · exact absurd hh (jsTrim_serializeL_ne_nbspS _)
  · simp at h

lemma guard_head_not_spacing (acc : List Node)
    (h : hasSpacingBefore acc = false) (a : Node) (ha : acc.head? = some a) :
    isSpacingElem a = false := by
  cases acc with
  | nil => simp at ha
  | cons b rest =>
      obtain rfl : b = a := by simpa using ha
      cases b with
      | text s => rfl
      | element t at2 cs =>
          unfold hasSpacingBefore at h
          rw [Bool.or_eq_false_iff] at h
          have h1 := h.1
          rw [show prevElem (Node.element t at2 cs :: rest) =
            some (Node.element t at2 cs) from by simp [prevElem, Node.isElem]] at h1
          exact h1


lemma adjSpL_append : ∀ xs ys : List Node,
    adjSpL (xs ++ ys) = true ↔
      (adjSpL xs = true ∨ adjSpL ys = true ∨ pairLast xs ys = true) := by
  intro xs
  induction xs with
  | nil =>
      intro ys
      simp [adjSpL, pairLast]
  | cons n rest ih =>
      intro ys
      cases rest with
      | nil =>
          simp only [List.cons_append, List.nil_append, adjSpL, Bool.or_eq_true]
          cases ys with
          | nil => simp [pairSp, pairLast, adjSpL]
          | cons y ys2 =>
              simp only [pairSp, pairLast, List.getLast?, List.head?, adjSpL,
                Bool.or_eq_true]
              tauto
      | cons r rs =>
          simp only [List.cons_append, List.append_eq, adjSpL, Bool.or_eq_true] at ih ⊢
          have hp1 : ∀ X : List Node, pairSp n (r :: X) =
              (isSpacingElem n && isSpacingElem r) := fun _ => rfl
          simp only [hp1]
          have hlast : pairLast (n :: r :: rs) ys = pairLast (r :: rs) ys := by
            simp [pairLast, List.getLast?]
          rw [hlast, ih ys]
          tauto

lemma adjSpL_cons_iff (n : Node) (rest : List Node) :
    adjSpL (n :: rest) = true ↔
      (adjSpN n = true ∨ pairSp n rest = true ∨ adjSpL rest = true) := by
  simp [adjSpL, or_assoc]

lemma spacingNode_isSpacing : isSpacingElem spacingNode = true := by decide

lemma spacingNode_adjFree : adjSpN spacingNode = false := by decide

lemma heading_not_spacing (n : Node) (h : tagOf n ∈ headingTags) :
    isSpacingElem n = false := by
  cases n with
  | text s => rfl
  | element t a cs =>
      unfold isSpacingElem
      split
      · next heq =>
          injection heq with h1 h2 h3
          subst h1
          simp [tagOf, headingTags] at h
      · rfl

lemma matchRead_not_spacing (n : Node) (hm : matchRead n = true) :
    isSpacingElem n = false := by
  cases n with
  | text s => rfl
  | element t a cs =>
      unfold isSpacingElem
      split
      · next heq =>
          injection heq with h1 h2 h3
          subst h1
          subst h3
          unfold matchRead at hm
          rw [Bool.eq_false_iff]
          intro hsp
          simp only [decide_eq_true_eq] at hsp hm
          rcases hsp with ⟨_, ht | ht⟩ <;> rw [ht] at hm <;>
            exact absurd hm (by decide)
      · rfl

lemma matchDisclaimer_not_spacing (n : Node) (hm : matchDisclaimer n = true) :
    isSpacingElem n = false := by
  cases n with
  | text s => rfl
  | element t a cs =>
      unfold isSpacingElem
      split
      · next heq =>
          injection heq with h1 h2 h3
          subst h1
          subst h3
          unfold matchDisclaimer at hm
          rw [Bool.eq_false_iff]
          intro hsp
          simp only [decide_eq_true_eq] at hsp hm
          rcases hsp with ⟨_, ht | ht⟩ <;> rw [ht] at hm <;>
            exact absurd hm (by decide)
      · rfl

lemma matchAltImage_not_spacing (n : Node) (hm : matchAltImage n = true) :
    isSpacingElem n = false := by
  cases n with
  | text s => rfl
  | element t a cs =>
      unfold isSpacingElem
      split
      · next heq =>
          injection heq with h1 h2 h3
          subst h1
          subst h3
          unfold matchAltImage at hm
          rw [Bool.eq_false_iff]
          intro hsp
          simp only [decide_eq_true_eq] at hsp hm
          rcases hsp with ⟨_, ht | ht⟩ <;> rw [ht] at hm <;>
            exact absurd hm (by decide)
      · rfl

lemma matchSources_not_spacing (n : Node) (hm : matchSources n = true) :
    isSpacingElem n = false := by
  cases n with
  | text s => rfl
  | element t a cs =>
      unfold isSpacingElem
      split
      · next heq =>
          injection heq with h1 h2 h3
          subst h1
          subst h3
          unfold matchSources at hm
          rw [Bool.eq_false_iff]
          intro hsp
          simp only [decide_eq_true_eq] at hsp hm
          rcases hsp with ⟨_, ht | ht⟩ <;> rw [ht] at hm <;>
            exact absurd hm (by decide)
      · rfl


lemma sizeN_pos (n : Node) : 1 ≤ sizeN n := by
  cases n with
  | text s => simp [sizeN]
  | element t a cs => simp [sizeN]

lemma spacingPassGo_nil (m : Node → Bool) (acc : List Node) :
    spacingPassGo m acc [] = acc.reverse := rfl

lemma spacingPassGo_cons (m : Node → Bool) (acc : List Node) (n : Node)
    (rest : List Node) :
    spacingPassGo m acc (n :: rest) =
      (if m (spacingPassN m n) = true ∧ ¬ hasSpacingBefore acc = true then
        spacingPassGo m (spacingPassN m n :: spacingNode :: acc) rest
      else spacingPassGo m (spacingPassN m n :: acc) rest) := rfl

lemma spacingPassGo_allText (m : Node → Bool) (hmT : ∀ s, m (.text s) = false) :
    ∀ (cs : List Node) (acc : List Node), cs.all (fun n => ! n.isElem) = true →
    spacingPassGo m acc cs = acc.reverse ++ cs := by
  intro cs
  induction cs with
  | nil => intro acc _; simp [spacingPassGo_nil]
  | cons n rest ih =>
      intro acc hall
      simp only [List.all_cons, Bool.and_eq_true] at hall
      obtain ⟨s, rfl⟩ : ∃ s, n = Node.text s := by
        cases n with
        | text s => exact ⟨s, rfl⟩
        | element t a cs2 => simp [Node.isElem] at hall
      rw [spacingPassGo_cons]
      rw [if_neg (by
        intro hc
        rw [show spacingPassN m (Node.text s) = Node.text s from rfl] at hc
        rw [hmT s] at hc
        exact absurd hc.1 (by simp))]
      rw [show spacingPassN m (Node.text s) = Node.text s from rfl]
      rw [ih (Node.text s :: acc) hall.2]
      simp

lemma mem_spacingPassGo_acc (m : Node → Bool) :
    ∀ (cs acc : List Node) (x : Node), x ∈ acc → x ∈ spacingPassGo m acc cs := by
  intro cs
  induction cs with
  | nil =>
      intro acc x hx
      rw [spacingPassGo_nil]
      simpa using hx
  | cons n rest ih =>
      intro acc x hx
      rw [spacingPassGo_cons]
      split
      · exact ih _ x (by simp [hx])
      · exact ih _ x (by simp [hx])

lemma spacingPassGo_output_elem (m : Node → Bool) :
    ∀ (cs acc : List Node), (∃ x ∈ cs, x.isElem = true) →
    ∃ y ∈ spacingPassGo m acc cs, y.isElem = true := by
  intro cs
  induction cs with
  | nil =>
      intro acc h
      obtain ⟨x, hx, _⟩ := h
      simp at hx
  | cons n rest ih =>
      intro acc h
      by_cases hel : n.isElem = true
      · obtain ⟨t, a, cs2, rfl⟩ : ∃ t a cs2, n = Node.element t a cs2 := by
          cases n with
          | text s => simp [Node.isElem] at hel
          | element t a cs2 => exact ⟨t, a, cs2, rfl⟩
        have hel2 : (spacingPassN m (Node.element t a cs2)).isElem = true := rfl
        rw [spacingPassGo_cons]
        split
        · exact ⟨_, mem_spacingPassGo_acc m rest _ _ (by simp), hel2⟩
        · exact ⟨_, mem_spacingPassGo_acc m rest _ _ (by simp), hel2⟩
      · have hrest : ∃ x ∈ rest, x.isElem = true := by
          obtain ⟨x, hx, hxe⟩ := h
          rcases List.mem_cons.1 hx with h2 | h2
          · rw [h2] at hxe; exact absurd hxe hel
          · exact ⟨x, h2, hxe⟩
        rw [spacingPassGo_cons]
        split
        · exact ih _ hrest
        · exact ih _ hrest

lemma spacingPassN_spacing_fix (m : Node → Bool)
    (hmT : ∀ s, m (.text s) = false) (n : Node)
    (hsp : isSpacingElem (spacingPassN m n) = true) :
    spacingPassN m n = n ∧ isSpacingElem n = true := by
  cases n with
  | text s => exact absurd hsp (by simp [spacingPassN, isSpacingElem])
  | element t a cs =>
      have hout : spacingPassN m (Node.element t a cs) =
          Node.element t a (spacingPassGo m [] cs) := rfl
      rw [hout] at hsp
      obtain ⟨htp, hall⟩ := isSpacingElem_allText _ _ _ hsp
      have hcsT : cs.all (fun x => ! x.isElem) = true := by
        by_contra hc
        have : ∃ x ∈ cs, x.isElem = true := by
          by_contra hc2
          push_neg at hc2
          exact hc (by
            simp only [List.all_eq_true]
            intro x hx
            have := hc2 x hx
            simp [this])
        obtain ⟨y, hy, hye⟩ := spacingPassGo_output_elem m cs [] this
        simp only [List.all_eq_true] at hall
        have := hall y hy
        rw [hye] at this
        simp at this
      have hid : spacingPassGo m [] cs = cs := by
        rw [spacingPassGo_allText m hmT cs [] hcsT]
        simp
      rw [hout, hid]
      rw [hid] at hsp
      exact ⟨rfl, hsp⟩


lemma pairLast_some (xs ys : List Node) (a b : Node)
    (hx : xs.getLast? = some a) (hy : ys.head? = some b) :
    pairLast xs ys = (isSpacingElem a && isSpacingElem b) := by
  unfold pairLast
  rw [hx, hy]

lemma pairLast_none_left (xs ys : List Node) (hx : xs.getLast? = none) :
    pairLast xs ys = false := by
  unfold pairLast
  rw [hx]

lemma spacingPass_noAdj_aux (m : Node → Bool)
    (hmT : ∀ s, m (.text s) = false)
    (hmS : ∀ x, m x = true → isSpacingElem x = false) :
    ∀ (k : Nat),
    (∀ n, sizeN n ≤ k → adjSpN n = false →
      adjSpN (spacingPassN m n) = false) ∧
    (∀ (cs acc : List Node), sizeL cs ≤ k →
      adjSpL acc.reverse = false →
      (∀ a r, acc.head? = some a → cs.head? = some r →
        ¬(isSpacingElem a = true ∧ isSpacingElem r = true)) →
      adjSpL cs = false →
      adjSpL (spacingPassGo m acc cs) = false) := by
  intro k
  induction k with
  | zero =>
      constructor
      · intro n hs _
        have := sizeN_pos n
        omega
      · intro cs acc hs hacc _ _
        cases cs with
        | nil => rw [spacingPassGo_nil]; exact hacc
        | cons n rest =>
            have := sizeN_pos n
            simp [sizeL] at hs
            omega
  | succ k ih =>
      obtain ⟨ihN, ihL⟩ := ih
      have nodePart : ∀ n, sizeN n ≤ k + 1 → adjSpN n = false →
          adjSpN (spacingPassN m n) = false := by
        intro n hs hadj
        cases n with
        | text s => exact hadj
        | element t a cs =>
            have hcs : sizeL cs ≤ k := by simp [sizeN] at hs; omega
            have : adjSpL cs = false := hadj
            exact ihL cs [] hcs rfl (by intro a2 r h1 _; simp at h1) this
      refine ⟨nodePart, ?_⟩
      intro cs acc hsize hacc hbound hadj
      cases cs with
      | nil => rw [spacingPassGo_nil]; exact hacc
      | cons n rest =>
          have hN : adjSpN n = false := by
            rw [adjSpL] at hadj
            rw [Bool.or_eq_false_iff, Bool.or_eq_false_iff] at hadj
            exact hadj.1.1
          have hPair : pairSp n rest = false := by
            rw [adjSpL] at hadj
            rw [Bool.or_eq_false_iff, Bool.or_eq_false_iff] at hadj
            exact hadj.1.2
          have hRest : adjSpL rest = false := by
            rw [adjSpL] at hadj
            rw [Bool.or_eq_false_iff, Bool.or_eq_false_iff] at hadj
            exact hadj.2
          have hsr : sizeL rest ≤ k := by
            have := sizeN_pos n
            simp [sizeL] at hsize
            omega
          have hN' : adjSpN (spacingPassN m n) = false :=
            nodePart n (by simp [sizeL] at hsize; have := sizeN_pos n; omega) hN
          rw [spacingPassGo_cons]
          by_cases hcond : m (spacingPassN m n) = true ∧
              ¬ hasSpacingBefore acc = true
          · rw [if_pos hcond]
            have hn'S : isSpacingElem (spacingPassN m n) = false :=
              hmS _ hcond.1
            have hguard : hasSpacingBefore acc = false := by
              cases hB : hasSpacingBefore acc with
              | false => rfl
              | true => exact absurd hB hcond.2
            refine ihL rest _ hsr ?_ ?_ hRest
            · rw [show (spacingPassN m n :: spacingNode :: acc).reverse =
                acc.reverse ++ [spacingNode, spacingPassN m n] from by simp]
              rw [Bool.eq_false_iff]
              intro hT
              rcases (adjSpL_append _ _).1 hT with h | h | h
              · rw [hacc] at h; simp at h
              · rw [show adjSpL [spacingNode, spacingPassN m n] =
                  (adjSpN spacingNode || pairSp spacingNode [spacingPassN m n] ||
                   (adjSpN (spacingPassN m n) || pairSp (spacingPassN m n) [] ||
                    adjSpL [])) from rfl] at h
                rw [spacingNode_adjFree, hN'] at h
                rw [show pairSp spacingNode [spacingPassN m n] =
                  (isSpacingElem spacingNode && isSpacingElem (spacingPassN m n))
                  from rfl] at h
                rw [hn'S] at h
                simp [pairSp, adjSpL] at h
              · cases hhead : acc.head? with
                | none =>
                    rw [pairLast_none_left _ _ (by
                      rw [List.getLast?_reverse]; exact hhead)] at h
                    simp at h
                | some a =>
                    rw [pairLast_some _ ([spacingNode, spacingPassN m n])
                      a spacingNode (by
                        rw [List.getLast?_reverse]; exact hhead)
                      (by rfl)] at h
                    rw [guard_head_not_spacing acc hguard a hhead] at h
                    simp at h
            · intro a r ha hr
              have : spacingPassN m n = a := by simpa using ha
              rw [← this, hn'S]
              simp
          · rw [if_neg hcond]
            refine ihL rest _ hsr ?_ ?_ hRest
            · rw [show (spacingPassN m n :: acc).reverse =
                acc.reverse ++ [spacingPassN m n] from by simp]
              rw [Bool.eq_false_iff]
              intro hT
              rcases (adjSpL_append _ _).1 hT with h | h | h
              · rw [hacc] at h; simp at h
              · rw [show adjSpL [spacingPassN m n] =
                  (adjSpN (spacingPassN m n) || pairSp (spacingPassN m n) [] ||
                   adjSpL []) from rfl] at h
                rw [hN'] at h
                simp [pairSp, adjSpL] at h
              · cases hhead : acc.head? with
                | none =>
                    rw [pairLast_none_left _ _ (by
                      rw [List.getLast?_reverse]; exact hhead)] at h
                    simp at h
                | some a =>
                    rw [pairLast_some _ ([spacingPassN m n])
                      a (spacingPassN m n) (by
                        rw [List.getLast?_reverse]; exact hhead)
                      (by rfl)] at h
                    rw [Bool.and_eq_true] at h
                    obtain ⟨hfix, hnsp⟩ :=
                      spacingPassN_spacing_fix m hmT n h.2
                    exact hbound a n hhead rfl ⟨h.1, hnsp⟩
            · intro a r ha hr
              have ha2 : spacingPassN m n = a := by simpa using ha
              intro ⟨h1, h2⟩
              rw [← ha2] at h1
              obtain ⟨hfix, hnsp⟩ := spacingPassN_spacing_fix m hmT n h1
              rw [show pairSp n rest = (isSpacingElem n && isSpacingElem r) from by
                cases rest with
                | nil => simp at hr
                | cons r2 rs =>
                    have : r2 = r := by simpa using hr
                    rw [this]
                    rfl] at hPair
              rw [hnsp, h2] at hPair
              simp at hPair

/-- The generic insert-before pass preserves freedom from adjacent
spacing paragraphs, for any matcher that rejects text nodes and spacing
paragraphs. -/
lemma spacingPass_noAdj (m : Node → Bool)
    (hmT : ∀ s, m (.text s) = false)
    (hmS : ∀ x, m x = true → isSpacingElem x = false)
    (l : List Node) (h : adjSpL l = false) :
    adjSpL (spacingPass m l) = false := by
  unfold spacingPass
  exact (spacingPass_noAdj_aux m hmT hmS (sizeL l)).2 l [] (Nat.le_refl _)
    rfl (by intro a r h1 _; simp at h1) h


lemma sourcesSpGo_nil (acc : List Node) : sourcesSpGo acc [] = acc.reverse := rfl

lemma sourcesSpGo_cons (acc : List Node) (n : Node) (rest : List Node) :
    sourcesSpGo acc (n :: rest) =
      (if matchSources (sourcesSpN n) && srcGuard acc then
        sourcesSpGo (sourcesSpN n :: spacingNode :: acc) rest
      else sourcesSpGo (sourcesSpN n :: acc) rest) := rfl

lemma srcGuard_head_not_spacing (acc : List Node) (h : srcGuard acc = true)
    (a : Node) (ha : acc.head? = some a) : isSpacingElem a = false := by
  cases acc with
  | nil => simp at ha
  | cons b rest =>
      obtain rfl : b = a := by simpa using ha
      cases b with
      | text s => rfl
      | element t a2 cs =>
          unfold srcGuard at h
          rw [show prevElem (Node.element t a2 cs :: rest) =
            some (Node.element t a2 cs) from by simp [prevElem, Node.isElem]] at h
          rw [Bool.eq_false_iff]
          intro hsp
          obtain ⟨htp, htrim⟩ := isSpacingElem_html t a2 cs hsp
          subst htp
          simp only [decide_eq_true_eq] at h
          exact h htrim
  
lemma sourcesSpGo_allText :
    ∀ (cs : List Node) (acc : List Node), cs.all (fun n => ! n.isElem) = true →
    sourcesSpGo acc cs = acc.reverse ++ cs := by
  intro cs
  induction cs with
  | nil => intro acc _; simp [sourcesSpGo_nil]
  | cons n rest ih =>
      intro acc hall
      simp only [List.all_cons, Bool.and_eq_true] at hall
      obtain ⟨s, rfl⟩ : ∃ s, n = Node.text s := by
        cases n with
        | text s => exact ⟨s, rfl⟩
        | element t a cs2 => simp [Node.isElem] at hall
      rw [sourcesSpGo_cons]
      rw [if_neg (by
        rw [show sourcesSpN (Node.text s) = Node.text s from rfl]
        rw [show matchSources (Node.text s) = false from rfl]
        simp)]
      rw [show sourcesSpN (Node.text s) = Node.text s from rfl]
      rw [ih (Node.text s :: acc) hall.2]
      simp

lemma mem_sourcesSpGo_acc :
    ∀ (cs acc : List Node) (x : Node), x ∈ acc → x ∈ sourcesSpGo acc cs := by
  intro cs
  induction cs with
  | nil =>
      intro acc x hx
      rw [sourcesSpGo_nil]
      simpa using hx
  | cons n rest ih =>
      intro acc x hx
      rw [sourcesSpGo_cons]
      split
      · exact ih _ x (by simp [hx])
      · exact ih _ x (by simp [hx])

lemma sourcesSpGo_output_elem :
    ∀ (cs acc : List Node), (∃ x ∈ cs, x.isElem = true) →
    ∃ y ∈ sourcesSpGo acc cs, y.isElem = true := by
  intro cs
  induction cs with
  | nil =>
      intro acc h
      obtain ⟨x, hx, _⟩ := h
      simp at hx
  | cons n rest ih =>
      intro acc h
      by_cases hel : n.isElem = true
      · obtain ⟨t, a, cs2, rfl⟩ : ∃ t a cs2, n = Node.element t a cs2 := by
          cases n with
          | text s => simp [Node.isElem] at hel
          | element t a cs2 => exact ⟨t, a, cs2, rfl⟩
        have hel2 : (sourcesSpN (Node.element t a cs2)).isElem = true := rfl
        rw [sourcesSpGo_cons]
        split
        · exact ⟨_, mem_sourcesSpGo_acc rest _ _ (by simp), hel2⟩
        · exact ⟨_, mem_sourcesSpGo_acc rest _ _ (by simp), hel2⟩
      · have hrest : ∃ x ∈ rest, x.isElem = true := by
          obtain ⟨x, hx, hxe⟩ := h
          rcases List.mem_cons.1 hx with h2 | h2
          · rw [h2] at hxe; exact absurd hxe hel
          · exact ⟨x, h2, hxe⟩
        rw [sourcesSpGo_cons]
        split
        · exact ih _ hrest
        · exact ih _ hrest

lemma sourcesSpN_spacing_fix (n : Node)
    (hsp : isSpacingElem (sourcesSpN n) = true) :
    sourcesSpN n = n ∧ isSpacingElem n = true := by
  cases n with
  | text s => exact absurd hsp (by simp [sourcesSpN, isSpacingElem])
  | element t a cs =>
      have hout : sourcesSpN (Node.element t a cs) =
          Node.element t a (sourcesSpGo [] cs) := rfl
      rw [hout] at hsp
      obtain ⟨htp, hall⟩ := isSpacingElem_allText _ _ _ hsp
      have hcsT : cs.all (fun x => ! x.isElem) = true := by
        by_contra hc
        have : ∃ x ∈ cs, x.isElem = true := by
          by_contra hc2
          push_neg at hc2
          exact hc (by
            simp only [List.all_eq_true]
            intro x hx
            have := hc2 x hx
            simp [this])
        obtain ⟨y, hy, hye⟩ := sourcesSpGo_output_elem cs [] this
        simp only [List.all_eq_true] at hall
        have := hall y hy
        rw [hye] at this
        simp at this
      have hid : sourcesSpGo [] cs = cs := by
        rw [sourcesSpGo_allText cs [] hcsT]
        simp
      rw [hout, hid]
      rw [hid] at hsp
      exact ⟨rfl, hsp⟩

lemma sourcesSp_noAdj_aux :
    ∀ (k : Nat),
    (∀ n, sizeN n ≤ k → adjSpN n = false → adjSpN (sourcesSpN n) = false) ∧
    (∀ (cs acc : List Node), sizeL cs ≤ k →
      adjSpL acc.reverse = false →
      (∀ a r, acc.head? = some a → cs.head? = some r →
        ¬(isSpacingElem a = true ∧ isSpacingElem r = true)) →
      adjSpL cs = false →
      adjSpL (sourcesSpGo acc cs) = false) := by
  intro k
  induction k with
  | zero =>
      constructor
      · intro n hs _
        have := sizeN_pos n
        omega
      · intro cs acc hs hacc _ _
        cases cs with
        | nil => rw [sourcesSpGo_nil]; exact hacc
        | cons n rest =>
            have := sizeN_pos n
            simp [sizeL] at hs
            omega
  | succ k ih =>
      obtain ⟨ihN, ihL⟩ := ih
      have nodePart : ∀ n, sizeN n ≤ k + 1 → adjSpN n = false →
          adjSpN (sourcesSpN n) = false := by
        intro n hs hadj
        cases n with
        | text s => exact hadj
        | element t a cs =>
            have hcs : sizeL cs ≤ k := by simp [sizeN] at hs; omega
            have : adjSpL cs = false := hadj
            exact ihL cs [] hcs rfl (by intro a2 r h1 _; simp at h1) this
      refine ⟨nodePart, ?_⟩
      intro cs acc hsize hacc hbound hadj
      cases cs with
      | nil => rw [sourcesSpGo_nil]; exact hacc
      | cons n rest =>
          have hN : adjSpN n = false := by
            rw [adjSpL] at hadj
            rw [Bool.or_eq_false_iff, Bool.or_eq_false_iff] at hadj
            exact hadj.1.1
          have hPair : pairSp n rest = false := by
            rw [adjSpL] at hadj
            rw [Bool.or_eq_false_iff, Bool.or_eq_false_iff] at hadj
            exact hadj.1.2
          have hRest : adjSpL rest = false := by
            rw [adjSpL] at hadj
            rw [Bool.or_eq_false_iff, Bool.or_eq_false_iff] at hadj
            exact hadj.2
          have hsr : sizeL rest ≤ k := by
            have := sizeN_pos n
            simp [sizeL] at hsize
            omega
          have hN' : adjSpN (sourcesSpN n) = false :=
            nodePart n (by simp [sizeL] at hsize; have := sizeN_pos n; omega) hN
          rw [sourcesSpGo_cons]
          by_cases hcond : (matchSources (sourcesSpN n) && srcGuard acc) = true
          · rw [if_pos hcond]
            rw [Bool.and_eq_true] at hcond
            have hn'S : isSpacingElem (sourcesSpN n) = false :=
              matchSources_not_spacing _ hcond.1
            refine ihL rest _ hsr ?_ ?_ hRest
            · rw [show (sourcesSpN n :: spacingNode :: acc).reverse =
                acc.reverse ++ [spacingNode, sourcesSpN n] from by simp]
              rw [Bool.eq_false_iff]
              intro hT
              rcases (adjSpL_append _ _).1 hT with h | h | h
              · rw [hacc] at h; simp at h
              · rw [show adjSpL [spacingNode, sourcesSpN n] =
                  (adjSpN spacingNode || pairSp spacingNode [sourcesSpN n] ||
                   (adjSpN (sourcesSpN n) || pairSp (sourcesSpN n) [] ||
                    adjSpL [])) from rfl] at h
                rw [spacingNode_adjFree, hN'] at h
                rw [show pairSp spacingNode [sourcesSpN n] =
                  (isSpacingElem spacingNode && isSpacingElem (sourcesSpN n))
                  from rfl] at h
                rw [hn'S] at h
                simp [pairSp, adjSpL] at h
              · cases hhead : acc.head? with
                | none =>
                    rw [pairLast_none_left _ _ (by
                      rw [List.getLast?_reverse]; exact hhead)] at h
                    simp at h
                | some a =>
                    rw [pairLast_some _ ([spacingNode, sourcesSpN n])
                      a spacingNode (by
                        rw [List.getLast?_reverse]; exact hhead)
                      (by rfl)] at h
                    rw [srcGuard_head_not_spacing acc hcond.2 a hhead] at h
                    simp at h
            · intro a r ha hr
              have : sourcesSpN n = a := by simpa using ha
              rw [← this, hn'S]
              simp
          · rw [if_neg hcond]
            refine ihL rest _ hsr ?_ ?_ hRest
            · rw [show (sourcesSpN n :: acc).reverse =
                acc.reverse ++ [sourcesSpN n] from by simp]
              rw [Bool.eq_false_iff]
              intro hT
              rcases (adjSpL_append _ _).1 hT with h | h | h
              · rw [hacc] at h; simp at h
              · rw [show adjSpL [sourcesSpN n] =
                  (adjSpN (sourcesSpN n) || pairSp (sourcesSpN n) [] ||
                   adjSpL []) from rfl] at h
                rw [hN'] at h
                simp [pairSp, adjSpL] at h
              · cases hhead : acc.head? with
                | none =>
                    rw [pairLast_none_left _ _ (by
                      rw [List.getLast?_reverse]; exact hhead)] at h
                    simp at h
                | some a =>
                    rw [pairLast_some _ ([sourcesSpN n])
                      a (sourcesSpN n) (by
                        rw [List.getLast?_reverse]; exact hhead)
                      (by rfl)] at h
                    rw [Bool.and_eq_true] at h
                    obtain ⟨hfix, hnsp⟩ := sourcesSpN_spacing_fix n h.2
                    exact hbound a n hhead rfl ⟨h.1, hnsp⟩
            · intro a r ha hr
              have ha2 : sourcesSpN n = a := by simpa using ha
              intro ⟨h1, h2⟩
              rw [← ha2] at h1
              obtain ⟨hfix, hnsp⟩ := sourcesSpN_spacing_fix n h1
              rw [show pairSp n rest = (isSpacingElem n && isSpacingElem r) from by
                cases rest with
                | nil => simp at hr
                | cons r2 rs =>
                    have : r2 = r := by simpa using hr
                    rw [this]
                    rfl] at hPair
              rw [hnsp, h2] at hPair
              simp at hPair

/-- The sources pass preserves freedom from adjacent spacing
paragraphs. -/
lemma sourcesSpacingPass_noAdj (l : List Node) (h : adjSpL l = false) :
    adjSpL (sourcesSpacingPass l) = false := by
  unfold sourcesSpacingPass
  exact (sourcesSp_noAdj_aux (sizeL l)).2 l [] (Nat.le_refl _)
    rfl (by intro a r h1 _; simp at h1) h


lemma headingsSpGo_nil (st : FaqSt) (acc : List Node) :
    headingsSpGo st acc [] = (st, acc.reverse) := rfl

lemma headingsSpGo_cons (st : FaqSt) (acc : List Node) (n : Node)
    (rest : List Node) :
    headingsSpGo st acc (n :: rest) =
      (if tagOf n ∈ headingTags then
        (if includesS (lowerS (jsTrim n.textContent)) "key takeaways" then
          headingsSpGo (headingsSpN st n).1 ((headingsSpN st n).2 :: acc) rest
        else
          (if (hdFaqSt st (lowerS (jsTrim n.textContent))).found ∧
              (hdFaqSt st (lowerS (jsTrim n.textContent))).first ∧
              tagOf n = "h3" then
            headingsSpGo (headingsSpN ⟨true, false⟩ n).1
              ((headingsSpN ⟨true, false⟩ n).2 :: acc) rest
          else
            (if ¬ hasSpacingBefore acc = true then
              headingsSpGo
                (headingsSpN (hdFaqSt st (lowerS (jsTrim n.textContent))) n).1
                ((headingsSpN (hdFaqSt st (lowerS (jsTrim n.textContent))) n).2 ::
                  spacingNode :: acc) rest
            else
              headingsSpGo
                (headingsSpN (hdFaqSt st (lowerS (jsTrim n.textContent))) n).1
                ((headingsSpN (hdFaqSt st (lowerS (jsTrim n.textContent))) n).2 ::
                  acc) rest)))
      else
        headingsSpGo (headingsSpN st n).1 ((headingsSpN st n).2 :: acc) rest) :=
  rfl

lemma headingsSpN_text (st : FaqSt) (s : String) :
    headingsSpN st (.text s) = (st, .text s) := rfl

lemma headingsSpN_elem (st : FaqSt) (t : String) (a : List (String × String))
    (cs : List Node) :
    headingsSpN st (.element t a cs) =
      ((headingsSpGo st [] cs).1, .element t a (headingsSpGo st [] cs).2) := rfl

lemma headingsSpN_tag (st : FaqSt) (n : Node) :
    tagOf (headingsSpN st n).2 = tagOf n := by
  cases n with
  | text s => rfl
  | element t a cs => rfl

lemma headingsSpGo_allText :
    ∀ (cs : List Node) (st : FaqSt) (acc : List Node),
    cs.all (fun n => ! n.isElem) = true →
    headingsSpGo st acc cs = (st, acc.reverse ++ cs) := by
  intro cs
  induction cs with
  | nil => intro st acc _; simp [headingsSpGo_nil]
  | cons n rest ih =>
      intro st acc hall
      simp only [List.all_cons, Bool.and_eq_true] at hall
      obtain ⟨s, rfl⟩ : ∃ s, n = Node.text s := by
        cases n with
        | text s => exact ⟨s, rfl⟩
        | element t a cs2 => simp [Node.isElem] at hall
      rw [headingsSpGo_cons]
      rw [if_neg (by
        rw [show tagOf (Node.text s) = "" from rfl]
        decide)]
      rw [headingsSpN_text]
      rw [ih st (Node.text s :: acc) hall.2]
      simp

lemma mem_headingsSpGo_acc :
    ∀ (cs : List Node) (st : FaqSt) (acc : List Node) (x : Node), x ∈ acc →
    x ∈ (headingsSpGo st acc cs).2 := by
  intro cs
  induction cs with
  | nil =>
      intro st acc x hx
      rw [headingsSpGo_nil]
      simpa using hx
  | cons n rest ih =>
      intro st acc x hx
      rw [headingsSpGo_cons]
      split
      · split
        · exact ih _ _ x (by simp [hx])
        · split
          · exact ih _ _ x (by simp [hx])
          · split
            · exact ih _ _ x (by simp [hx])
            · exact ih _ _ x (by simp [hx])
      · exact ih _ _ x (by simp [hx])

lemma headingsSpGo_output_elem :
    ∀ (cs : List Node) (st : FaqSt) (acc : List Node),
    (∃ x ∈ cs, x.isElem = true) →
    ∃ y ∈ (headingsSpGo st acc cs).2, y.isElem = true := by
  intro cs
  induction cs with
  | nil =>
      intro st acc h
      obtain ⟨x, hx, _⟩ := h
      simp at hx
  | cons n rest ih =>
      intro st acc h
      by_cases hel : n.isElem = true
      · obtain ⟨t, a, cs2, rfl⟩ : ∃ t a cs2, n = Node.element t a cs2 := by
          cases n with
          | text s => simp [Node.isElem] at hel
          | element t a cs2 => exact ⟨t, a, cs2, rfl⟩
        have hel2 : ∀ st2 : FaqSt,
            ((headingsSpN st2 (Node.element t a cs2)).2).isElem = true :=
          fun _ => rfl
        rw [headingsSpGo_cons]
        split
        · split
          · exact ⟨(headingsSpN st (Node.element t a cs2)).2,
              mem_headingsSpGo_acc rest _ _ _ (by simp), hel2 st⟩
          · split
            · exact ⟨(headingsSpN ⟨true, false⟩ (Node.element t a cs2)).2,
                mem_headingsSpGo_acc rest _ _ _ (by simp), hel2 _⟩
            · split
              · exact ⟨(headingsSpN (hdFaqSt st (lowerS (jsTrim
                    (Node.element t a cs2).textContent)))
                    (Node.element t a cs2)).2,
                  mem_headingsSpGo_acc rest _ _ _ (by simp), hel2 _⟩
              · exact ⟨(headingsSpN (hdFaqSt st (lowerS (jsTrim
                    (Node.element t a cs2).textContent)))
                    (Node.element t a cs2)).2,
                  mem_headingsSpGo_acc rest _ _ _ (by simp), hel2 _⟩
        · exact ⟨(headingsSpN st (Node.element t a cs2)).2,
            mem_headingsSpGo_acc rest _ _ _ (by simp), hel2 st⟩
      · have hrest : ∃ x ∈ rest, x.isElem = true := by
          obtain ⟨x, hx, hxe⟩ := h
          rcases List.mem_cons.1 hx with h2 | h2
          · rw [h2] at hxe; exact absurd hxe hel
          · exact ⟨x, h2, hxe⟩
        rw [headingsSpGo_cons]
        split
        · split
          · exact ih _ _ hrest
          · split
            · exact ih _ _ hrest
            · split
              · exact ih _ _ hrest
              · exact ih _ _ hrest
        · exact ih _ _ hrest

lemma headingsSpN_spacing_fix (st : FaqSt) (n : Node)
    (hsp : isSpacingElem ((headingsSpN st n).2) = true) :
    (headingsSpN st n).2 = n ∧ isSpacingElem n = true := by
  cases n with
  | text s => exact absurd hsp (by simp [headingsSpN_text, isSpacingElem])
  | element t a cs =>
      rw [headingsSpN_elem] at hsp ⊢
      obtain ⟨htp, hall⟩ := isSpacingElem_allText _ _ _ hsp
      have hcsT : cs.all (fun x => ! x.isElem) = true := by
        by_contra hc
        have : ∃ x ∈ cs, x.isElem = true := by
          by_contra hc2
          push_neg at hc2
          exact hc (by
            simp only [List.all_eq_true]
            intro x hx
            have := hc2 x hx
            simp [this])
        obtain ⟨y, hy, hye⟩ := headingsSpGo_output_elem cs st [] this
        simp only [List.all_eq_true] at hall
        have := hall y hy
        rw [hye] at this
        simp at this
      have hid : (headingsSpGo st [] cs).2 = cs := by
        rw [headingsSpGo_allText cs st [] hcsT]
        simp
      rw [hid]
      rw [hid] at hsp
      exact ⟨rfl, hsp⟩


lemma accrev_snoc_ok (acc : List Node) (x : Node)
    (hacc : adjSpL acc.reverse = false) (hxN : adjSpN x = false)
    (hpair : ∀ a, acc.head? = some a →
      ¬(isSpacingElem a = true ∧ isSpacingElem x = true)) :
    adjSpL (x :: acc).reverse = false := by
  rw [show (x :: acc).reverse = acc.reverse ++ [x] from by simp]
  rw [Bool.eq_false_iff]
  intro hT
  rcases (adjSpL_append _ _).1 hT with h | h | h
  · rw [hacc] at h; simp at h
  · rw [show adjSpL [x] = (adjSpN x || pairSp x [] || adjSpL []) from rfl] at h
    rw [hxN] at h
    simp [pairSp, adjSpL] at h
  · cases hhead : acc.head? with
    | none =>
        rw [pairLast_none_left _ _ (by
          rw [List.getLast?_reverse]; exact hhead)] at h
        simp at h
    | some a =>
        rw [pairLast_some _ ([x]) a x (by
          rw [List.getLast?_reverse]; exact hhead) (by rfl)] at h
        rw [Bool.and_eq_true] at h
        exact hpair a hhead h

lemma accrev_insert_ok (acc : List Node) (x : Node)
    (hacc : adjSpL acc.reverse = false) (hxN : adjSpN x = false)
    (hxS : isSpacingElem x = false)
    (hguard : ∀ a, acc.head? = some a → isSpacingElem a = false) :
    adjSpL (x :: spacingNode :: acc).reverse = false := by
  rw [show (x :: spacingNode :: acc).reverse =
    acc.reverse ++ [spacingNode, x] from by simp]
  rw [Bool.eq_false_iff]
  intro hT
  rcases (adjSpL_append _ _).1 hT with h | h | h
  · rw [hacc] at h; simp at h
  · rw [show adjSpL [spacingNode, x] =
      (adjSpN spacingNode || pairSp spacingNode [x] ||
       (adjSpN x || pairSp x [] || adjSpL [])) from rfl] at h
    rw [spacingNode_adjFree, hxN] at h
    rw [show pairSp spacingNode [x] =
      (isSpacingElem spacingNode && isSpacingElem x) from rfl] at h
    rw [hxS] at h
    simp [pairSp, adjSpL] at h
  · cases hhead : acc.head? with
    | none =>
        rw [pairLast_none_left _ _ (by
          rw [List.getLast?_reverse]; exact hhead)] at h
        simp at h
    | some a =>
        rw [pairLast_some _ ([spacingNode, x]) a spacingNode (by
          rw [List.getLast?_reverse]; exact hhead) (by rfl)] at h
        rw [hguard a hhead] at h
        simp at h

lemma headingsSp_noAdj_aux : ∀ (k : Nat),
    (∀ (st : FaqSt) (n : Node), sizeN n ≤ k → adjSpN n = false →
      adjSpN ((headingsSpN st n).2) = false) ∧
    (∀ (cs : List Node) (st : FaqSt) (acc : List Node), sizeL cs ≤ k →
      adjSpL acc.reverse = false →
      (∀ a r, acc.head? = some a → cs.head? = some r →
        ¬(isSpacingElem a = true ∧ isSpacingElem r = true)) →
      adjSpL cs = false →
      adjSpL ((headingsSpGo st acc cs).2) = false) := by
  intro k
  induction k with
  | zero =>
      constructor
      · intro st n hs _
        have := sizeN_pos n
        omega
      · intro cs st acc hs hacc _ _
        cases cs with
        | nil => rw [headingsSpGo_nil]; exact hacc
        | cons n rest =>
            have := sizeN_pos n
            simp [sizeL] at hs
            omega
  | succ k ih =>
      obtain ⟨ihN, ihL⟩ := ih
      have nodePart : ∀ (st : FaqSt) (n : Node), sizeN n ≤ k + 1 →
          adjSpN n = false → adjSpN ((headingsSpN st n).2) = false := by
        intro st n hs hadj
        cases n with
        | text s => exact hadj
        | element t a cs =>
            have hcs : sizeL cs ≤ k := by simp [sizeN] at hs; omega
            rw [headingsSpN_elem]
            exact ihL cs st [] hcs rfl (by intro a2 r h1 _; simp at h1) hadj
      refine ⟨nodePart, ?_⟩
      intro cs st acc hsize hacc hbound hadj
      cases cs with
      | nil => rw [headingsSpGo_nil]; exact hacc
      | cons n rest =>
          have hN : adjSpN n = false := by
            rw [adjSpL] at hadj
            rw [Bool.or_eq_false_iff, Bool.or_eq_false_iff] at hadj
            exact hadj.1.1
          have hPair : pairSp n rest = false := by
            rw [adjSpL] at hadj
            rw [Bool.or_eq_false_iff, Bool.or_eq_false_iff] at hadj
            exact hadj.1.2
          have hRest : adjSpL rest = false := by
            rw [adjSpL] at hadj
            rw [Bool.or_eq_false_iff, Bool.or_eq_false_iff] at hadj
            exact hadj.2
          have hsr : sizeL rest ≤ k := by
            have := sizeN_pos n
            simp [sizeL] at hsize
            omega
          have hsn : sizeN n ≤ k + 1 := by
            simp [sizeL] at hsize
            have := sizeN_pos n
            omega
          have hN' : ∀ st2 : FaqSt, adjSpN ((headingsSpN st2 n).2) = false :=
            fun st2 => nodePart st2 n hsn hN
          have hBoundFix : ∀ (st2 : FaqSt) (a : Node), acc.head? = some a →
              ¬(isSpacingElem a = true ∧
                isSpacingElem ((headingsSpN st2 n).2) = true) := by
            intro st2 a ha
            intro ⟨h1, h2⟩
            obtain ⟨hfix, hnsp⟩ := headingsSpN_spacing_fix st2 n h2
            exact hbound a n ha rfl ⟨h1, hnsp⟩
          have hPairFix : ∀ (st2 : FaqSt) (r : Node), rest.head? = some r →
              ¬(isSpacingElem ((headingsSpN st2 n).2) = true ∧
                isSpacingElem r = true) := by
            intro st2 r hr
            intro ⟨h1, h2⟩
            obtain ⟨hfix, hnsp⟩ := headingsSpN_spacing_fix st2 n h1
            rw [show pairSp n rest = (isSpacingElem n && isSpacingElem r) from by
              cases rest with
              | nil => simp at hr
              | cons r2 rs =>
                  have : r2 = r := by simpa using hr
                  rw [this]
                  rfl] at hPair
            rw [hnsp, h2] at hPair
            simp at hPair
          rw [headingsSpGo_cons]
          by_cases hH : tagOf n ∈ headingTags
          · rw [if_pos hH]
            have hHead' : ∀ st2 : FaqSt,
                isSpacingElem ((headingsSpN st2 n).2) = false := by
              intro st2
              refine heading_not_spacing _ ?_
              rw [headingsSpN_tag]
              exact hH
            by_cases hKT : includesS (lowerS (jsTrim n.textContent))
                "key takeaways" = true
            · rw [if_pos hKT]
              refine ihL rest _ _ hsr
                (accrev_snoc_ok acc _ hacc (hN' st) (hBoundFix st)) ?_ hRest
              intro a r ha hr
              have : (headingsSpN st n).2 = a := by simpa using ha
              rw [← this]
              exact hPairFix st r hr
            · rw [if_neg hKT]
              by_cases hFAQ : (hdFaqSt st (lowerS (jsTrim n.textContent))).found
                  = true ∧
                  (hdFaqSt st (lowerS (jsTrim n.textContent))).first = true ∧
                  tagOf n = "h3"
              · rw [if_pos hFAQ]
                refine ihL rest _ _ hsr
                  (accrev_snoc_ok acc _ hacc (hN' _) (hBoundFix _)) ?_ hRest
                intro a r ha hr
                have : (headingsSpN ⟨true, false⟩ n).2 = a := by simpa using ha
                rw [← this]
                exact hPairFix _ r hr
              · rw [if_neg hFAQ]
                by_cases hG : ¬ hasSpacingBefore acc = true
                · rw [if_pos hG]
                  have hguard : hasSpacingBefore acc = false := by
                    cases hB : hasSpacingBefore acc with
                    | false => rfl
                    | true => exact absurd hB hG
                  refine ihL rest _ _ hsr
                    (accrev_insert_ok acc _ hacc (hN' _) (hHead' _)
                      (fun a ha => guard_head_not_spacing acc hguard a ha))
                    ?_ hRest
                  intro a r ha hr
                  have : (headingsSpN
                      (hdFaqSt st (lowerS (jsTrim n.textContent))) n).2 = a := by
                    simpa using ha
                  rw [← this, hHead']
                  simp
                · rw [if_neg hG]
                  refine ihL rest _ _ hsr
                    (accrev_snoc_ok acc _ hacc (hN' _) (hBoundFix _)) ?_ hRest
                  intro a r ha hr
                  have : (headingsSpN
                      (hdFaqSt st (lowerS (jsTrim n.textContent))) n).2 = a := by
                    simpa using ha
                  rw [← this]
                  exact hPairFix _ r hr
          · rw [if_neg hH]
            refine ihL rest _ _ hsr
              (accrev_snoc_ok acc _ hacc (hN' st) (hBoundFix st)) ?_ hRest
            intro a r ha hr
            have : (headingsSpN st n).2 = a := by simpa using ha
            rw [← this]
            exact hPairFix st r hr

/-- The headings pass preserves freedom from adjacent spacing
paragraphs. -/
lemma headingsSpacingPass_noAdj (l : List Node) (h : adjSpL l = false) :
    adjSpL (headingsSpacingPass l) = false := by
  unfold headingsSpacingPass
  exact (headingsSp_noAdj_aux (sizeL l)).2 l ⟨false, false⟩ [] (Nat.le_refl _)
    rfl (by intro a r h1 _; simp at h1) h


lemma ktSpWalk_nil : ktSpWalk [] = ([], false) := rfl

lemma ktSpWalk_cons (n : Node) (rest : List Node) :
    ktSpWalk (n :: rest) =
      (if isKTH2 n then (n :: ktSpFindUl rest, true)
      else
        (if (ktSpWalkN n).2 = true then ((ktSpWalkN n).1 :: rest, true)
        else ((ktSpWalkN n).1 :: (ktSpWalk rest).1, (ktSpWalk rest).2))) := by
  rw [show ktSpWalk (n :: rest) =
    (if isKTH2 n then (n :: ktSpFindUl rest, true)
    else
      match ktSpWalkN n with
      | (n', true) => (n' :: rest, true)
      | (n', false) =>
          let p := ktSpWalk rest
          (n' :: p.1, p.2)) from rfl]
  cases hw : ktSpWalkN n with
  | mk n' f =>
      cases f <;> simp

lemma ktSpWalkN_text (s : String) : ktSpWalkN (.text s) = (.text s, false) := rfl

lemma ktSpWalkN_elem (t : String) (a : List (String × String))
    (cs : List Node) :
    ktSpWalkN (.element t a cs) =
      (.element t a (ktSpWalk cs).1, (ktSpWalk cs).2) := rfl

lemma nextElem_none_allText : ∀ l : List Node, nextElem l = none →
    l.all (fun n => ! n.isElem) = true := by
  intro l
  induction l with
  | nil => intro _; rfl
  | cons n rest ih =>
      intro h
      unfold nextElem at h
      by_cases hel : n.isElem = true
      · rw [if_pos hel] at h
        simp at h
      · rw [if_neg hel] at h
        simp only [List.all_cons, Bool.and_eq_true]
        exact ⟨by simp [Bool.eq_false_iff.2 hel], ih h⟩

lemma getLast?_mem_list : ∀ (l : List Node) (x : Node),
    l.getLast? = some x → x ∈ l := by
  intro l
  induction l with
  | nil => intro x h; simp at h
  | cons n rest ih =>
      intro x h
      cases rest with
      | nil =>
          simp [List.getLast?] at h
          simp [h]
      | cons m rs =>
          rw [List.getLast?_cons_cons] at h
          exact List.mem_cons.2 (Or.inr (ih x h))

lemma text_not_spacing (n : Node) (h : n.isElem = false) :
    isSpacingElem n = false := by
  cases n with
  | text s => rfl
  | element t a cs => simp [Node.isElem] at h

lemma insertBeforeFirstElem_noAdj : ∀ (l : List Node) (e : Node),
    nextElem l = some e → isSpacingElem e = false → adjSpL l = false →
    adjSpL (insertBeforeFirstElem l) = false := by
  intro l
  induction l with
  | nil => intro e h _ _; simp [nextElem] at h
  | cons n rest ih =>
      intro e hne hes hadj
      have hN : adjSpN n = false := by
        rw [adjSpL] at hadj
        rw [Bool.or_eq_false_iff, Bool.or_eq_false_iff] at hadj
        exact hadj.1.1
      have hPair : pairSp n rest = false := by
        rw [adjSpL] at hadj
        rw [Bool.or_eq_false_iff, Bool.or_eq_false_iff] at hadj
        exact hadj.1.2
      have hRest : adjSpL rest = false := by
        rw [adjSpL] at hadj
        rw [Bool.or_eq_false_iff, Bool.or_eq_false_iff] at hadj
        exact hadj.2
      unfold insertBeforeFirstElem
      by_cases hel : n.isElem = true
      · rw [if_pos hel]
        have hen : e = n := by
          unfold nextElem at hne
          rw [if_pos hel] at hne
          simpa using hne.symm
        rw [show adjSpL (spacingNode :: n :: rest) =
          (adjSpN spacingNode || pairSp spacingNode (n :: rest) ||
           adjSpL (n :: rest)) from rfl]
        rw [spacingNode_adjFree, hadj]
        rw [show pairSp spacingNode (n :: rest) =
          (isSpacingElem spacingNode && isSpacingElem n) from rfl]
        rw [← hen, hes]
        rfl
      · rw [if_neg hel]
        have hne2 : nextElem rest = some e := by
          unfold nextElem at hne
          rw [if_neg hel] at hne
          exact hne
        rw [show adjSpL (n :: insertBeforeFirstElem rest) =
          (adjSpN n || pairSp n (insertBeforeFirstElem rest) ||
           adjSpL (insertBeforeFirstElem rest)) from rfl]
        rw [hN, ih e hne2 hes hRest]
        rw [show pairSp n (insertBeforeFirstElem rest) =
          (match insertBeforeFirstElem rest with
           | m :: _ => isSpacingElem n && isSpacingElem m
           | [] => false) from rfl]
        have hns : isSpacingElem n = false :=
          text_not_spacing n (Bool.eq_false_iff.2 hel)
        cases insertBeforeFirstElem rest with
        | nil => rfl
        | cons m ms => rw [hns]; rfl

lemma ktSpInsert_noAdj (tail : List Node) (h : adjSpL tail = false) :
    adjSpL (ktSpInsert tail) = false := by
  cases hne : nextElem tail with
  | some e =>
      have hstep : ktSpInsert tail = (if isSpacingElem e = true then tail
          else insertBeforeFirstElem tail) := by
        unfold ktSpInsert
        rw [hne]
      rw [hstep]
      by_cases hsp : isSpacingElem e = true
      · rw [if_pos hsp]
        exact h
      · rw [if_neg hsp]
        exact insertBeforeFirstElem_noAdj tail e hne
          (Bool.eq_false_iff.2 hsp) h
  | none =>
      have hstep : ktSpInsert tail = tail ++ [spacingNode] := by
        unfold ktSpInsert
        rw [hne]
      rw [hstep]
      rw [Bool.eq_false_iff]
      intro hT
      rcases (adjSpL_append _ _).1 hT with h2 | h2 | h2
      · rw [h] at h2; simp at h2
      · rw [show adjSpL [spacingNode] =
          (adjSpN spacingNode || pairSp spacingNode [] || adjSpL [])
          from rfl] at h2
        rw [spacingNode_adjFree] at h2
        simp [pairSp, adjSpL] at h2
      · cases hlast : tail.getLast? with
        | none => rw [pairLast_none_left _ _ hlast] at h2; simp at h2
        | some x =>
            rw [pairLast_some _ ([spacingNode]) x spacingNode hlast
              (by rfl)] at h2
            have hxt := nextElem_none_allText tail hne
            simp only [List.all_eq_true] at hxt
            have := hxt x (getLast?_mem_list tail x hlast)
            rw [text_not_spacing x (by
              cases hxe : x.isElem with
              | false => rfl
              | true => rw [hxe] at this; simp at this)] at h2
            simp at h2

lemma ktSpFindUl_head : ∀ (rest : List Node),
    (ktSpFindUl rest).head? = rest.head? := by
  intro rest
  cases rest with
  | nil => rfl
  | cons m rs =>
      cases m with
      | text s => rfl
      | element t a cs =>
          by_cases ht : t = "ul"
          · subst ht; rfl
          · conv_lhs => unfold ktSpFindUl
            split
            · next heq => exact absurd heq (by simp)
            · next heq =>
                obtain ⟨h1, h2⟩ := List.cons.inj heq
                injection h1 with ht2 _ _
                exact absurd ht2 ht
            · next heq =>
                obtain ⟨h1, h2⟩ := List.cons.inj heq
                subst h1
                subst h2
                rfl

lemma ktSpFindUl_noAdj : ∀ (l : List Node), adjSpL l = false →
    adjSpL (ktSpFindUl l) = false := by
  intro l
  induction l with
  | nil => intro _; rfl
  | cons n rest ih =>
      intro hadj
      have hN : adjSpN n = false := by
        rw [adjSpL] at hadj
        rw [Bool.or_eq_false_iff, Bool.or_eq_false_iff] at hadj
        exact hadj.1.1
      have hPair : pairSp n rest = false := by
        rw [adjSpL] at hadj
        rw [Bool.or_eq_false_iff, Bool.or_eq_false_iff] at hadj
        exact hadj.1.2
      have hRest : adjSpL rest = false := by
        rw [adjSpL] at hadj
        rw [Bool.or_eq_false_iff, Bool.or_eq_false_iff] at hadj
        exact hadj.2
      cases n with
      | text s =>
          rw [show ktSpFindUl (Node.text s :: rest) =
            Node.text s :: ktSpFindUl rest from rfl]
          rw [show adjSpL (Node.text s :: ktSpFindUl rest) =
            (adjSpN (Node.text s) || pairSp (Node.text s) (ktSpFindUl rest) ||
             adjSpL (ktSpFindUl rest)) from rfl]
          rw [ih hRest]
          rw [show adjSpN (Node.text s) = false from rfl]
          rw [show pairSp (Node.text s) (ktSpFindUl rest) =
            (match ktSpFindUl rest with
             | m :: _ => isSpacingElem (Node.text s) && isSpacingElem m
             | [] => false) from rfl]
          cases ktSpFindUl rest with
          | nil => rfl
          | cons m ms => rfl
      | element t a cs =>
          by_cases ht : t = "ul"
          · subst ht
            rw [show ktSpFindUl (Node.element "ul" a cs :: rest) =
              Node.element "ul" a cs :: ktSpInsert rest from rfl]
            rw [show adjSpL (Node.element "ul" a cs :: ktSpInsert rest) =
              (adjSpN (Node.element "ul" a cs) ||
               pairSp (Node.element "ul" a cs) (ktSpInsert rest) ||
               adjSpL (ktSpInsert rest)) from rfl]
            rw [hN, ktSpInsert_noAdj rest hRest]
            rw [show pairSp (Node.element "ul" a cs) (ktSpInsert rest) =
              (match ktSpInsert rest with
               | m :: _ => isSpacingElem (Node.element "ul" a cs) &&
                   isSpacingElem m
               | [] => false) from rfl]
            have huls : isSpacingElem (Node.element "ul" a cs) = false := rfl
            cases ktSpInsert rest with
            | nil => rfl
            | cons m ms => rw [huls]; rfl
          · have hstep : ktSpFindUl (Node.element t a cs :: rest) =
                Node.element t a cs :: ktSpFindUl rest := by
              conv_lhs => unfold ktSpFindUl
              split
              · next heq => exact absurd heq (by simp)
              · next heq =>
                  obtain ⟨h1, h2⟩ := List.cons.inj heq
                  injection h1 with ht2 _ _
                  exact absurd ht2 ht
              · next heq =>
                  obtain ⟨h1, h2⟩ := List.cons.inj heq
                  subst h1
                  subst h2
                  rfl
            rw [hstep]
            rw [show adjSpL (Node.element t a cs :: ktSpFindUl rest) =
              (adjSpN (Node.element t a cs) ||
               pairSp (Node.element t a cs) (ktSpFindUl rest) ||
               adjSpL (ktSpFindUl rest)) from rfl]
            rw [hN, ih hRest]
            rw [show pairSp (Node.element t a cs) (ktSpFindUl rest) =
              (match ktSpFindUl rest with
               | m :: _ => isSpacingElem (Node.element t a cs) && isSpacingElem m
               | [] => false) from rfl]
            cases hfu : ktSpFindUl rest with
            | nil => rfl
            | cons m ms =>
                have hh : rest.head? = some m := by
                  rw [← ktSpFindUl_head rest, hfu]
                  rfl
                have hps : (match (m :: ms : List Node) with
                    | m2 :: _ => isSpacingElem (Node.element t a cs) &&
                        isSpacingElem m2
                    | [] => false) =
                    (isSpacingElem (Node.element t a cs) && isSpacingElem m) :=
                  rfl
                rw [hps]
                cases rest with
                | nil => simp at hh
                | cons r rs =>
                    obtain rfl : r = m := by simpa using hh
                    have hPair2 : (isSpacingElem (Node.element t a cs) &&
                        isSpacingElem r) = false := hPair
                    rw [hPair2]
                    rfl


lemma ktSpWalk_allText :
    ∀ (cs : List Node), cs.all (fun n => ! n.isElem) = true →
    ktSpWalk cs = (cs, false) := by
  intro cs
  induction cs with
  | nil => intro _; rfl
  | cons n rest ih =>
      intro hall
      simp only [List.all_cons, Bool.and_eq_true] at hall
      obtain ⟨s, rfl⟩ : ∃ s, n = Node.text s := by
        cases n with
        | text s => exact ⟨s, rfl⟩
        | element t a cs2 => simp [Node.isElem] at hall
      rw [ktSpWalk_cons]
      rw [if_neg (by rw [show isKTH2 (Node.text s) = false from rfl]; simp)]
      rw [ktSpWalkN_text]
      rw [if_neg (by simp)]
      rw [ih hall.2]

lemma mem_ktSpWalk :
    ∀ (cs : List Node) (x : Node), x ∈ cs → x.isElem = true →
    ∃ y ∈ (ktSpWalk cs).1, y.isElem = true := by
  intro cs
  induction cs with
  | nil => intro x hx _; simp at hx
  | cons n rest ih =>
      intro x hx hxe
      rw [ktSpWalk_cons]
      by_cases hkt : isKTH2 n = true
      · rw [if_pos hkt]
        obtain ⟨t, a, cs2, rfl⟩ : ∃ t a cs2, n = Node.element t a cs2 := by
          cases n with
          | text s => simp [isKTH2] at hkt
          | element t a cs2 => exact ⟨t, a, cs2, rfl⟩
        exact ⟨Node.element t a cs2, by simp, rfl⟩
      · rw [if_neg hkt]
        rcases List.mem_cons.1 hx with h2 | h2
        · subst h2
          obtain ⟨t, a, cs2, rfl⟩ : ∃ t a cs2, x = Node.element t a cs2 := by
            cases x with
            | text s => simp [Node.isElem] at hxe
            | element t a cs2 => exact ⟨t, a, cs2, rfl⟩
          have hel2 : ((ktSpWalkN (Node.element t a cs2)).1).isElem = true := rfl
          split
          · exact ⟨_, by simp, hel2⟩
          · exact ⟨_, by simp, hel2⟩
        · split
          · cases n with
            | text s =>
                rw [ktSpWalkN_text]
                exact ⟨x, by simp [h2], hxe⟩
            | element t a cs2 =>
                exact ⟨x, by simp [h2], hxe⟩
          · obtain ⟨y, hy, hye⟩ := ih x h2 hxe
            exact ⟨y, by simp [hy], hye⟩

lemma ktSpWalkN_spacing_fix (n : Node)
    (hsp : isSpacingElem ((ktSpWalkN n).1) = true) :
    (ktSpWalkN n).1 = n ∧ isSpacingElem n = true := by
  cases n with
  | text s => exact absurd hsp (by simp [ktSpWalkN_text, isSpacingElem])
  | element t a cs =>
      rw [ktSpWalkN_elem] at hsp ⊢
      obtain ⟨htp, hall⟩ := isSpacingElem_allText _ _ _ hsp
      have hcsT : cs.all (fun x => ! x.isElem) = true := by
        by_contra hc
        have : ∃ x ∈ cs, x.isElem = true := by
          by_contra hc2
          push_neg at hc2
          exact hc (by
            simp only [List.all_eq_true]
            intro x hx
            have := hc2 x hx
            simp [this])
        obtain ⟨x, hx, hxe⟩ := this
        obtain ⟨y, hy, hye⟩ := mem_ktSpWalk cs x hx hxe
        simp only [List.all_eq_true] at hall
        have := hall y hy
        rw [hye] at this
        simp at this
      have hid : (ktSpWalk cs).1 = cs := by
        rw [ktSpWalk_allText cs hcsT]
      rw [hid]
      rw [hid] at hsp
      exact ⟨rfl, hsp⟩

lemma ktSpWalk_head_spacing :
    ∀ (l : List Node) (h2 : Node), ((ktSpWalk l).1).head? = some h2 →
    isSpacingElem h2 = true →
    ∃ m ∈ l, isSpacingElem m = true ∧ l.head? = some m := by
  intro l h2 hh hsp
  cases l with
  | nil => rw [ktSpWalk_nil] at hh; simp at hh
  | cons n rest =>
      rw [ktSpWalk_cons] at hh
      by_cases hkt : isKTH2 n = true
      · rw [if_pos hkt] at hh
        have : n = h2 := by simpa using hh
        subst this
        exact ⟨n, by simp, hsp, rfl⟩
      · rw [if_neg hkt] at hh
        have hn : (ktSpWalkN n).1 = h2 := by
          by_cases hf : (ktSpWalkN n).2 = true
          · rw [if_pos hf] at hh
            simpa using hh
          · rw [if_neg hf] at hh
            simpa using hh
        rw [← hn] at hsp
        obtain ⟨hfix, hnsp⟩ := ktSpWalkN_spacing_fix n hsp
        exact ⟨n, by simp, hnsp, rfl⟩

lemma ktSp_noAdj_aux : ∀ (k : Nat),
    (∀ n, sizeN n ≤ k → adjSpN n = false →
      adjSpN ((ktSpWalkN n).1) = false) ∧
    (∀ l, sizeL l ≤ k → adjSpL l = false →
      adjSpL ((ktSpWalk l).1) = false) := by
  intro k
  induction k with
  | zero =>
      constructor
      · intro n hs _
        have := sizeN_pos n
        omega
      · intro l hs hadj
        cases l with
        | nil => rw [ktSpWalk_nil]; rfl
        | cons n rest =>
            have := sizeN_pos n
            simp [sizeL] at hs
            omega
  | succ k ih =>
      obtain ⟨ihN, ihL⟩ := ih
      have nodePart : ∀ n, sizeN n ≤ k + 1 → adjSpN n = false →
          adjSpN ((ktSpWalkN n).1) = false := by
        intro n hs hadj
        cases n with
        | text s => exact hadj
        | element t a cs =>
            have hcs : sizeL cs ≤ k := by simp [sizeN] at hs; omega
            rw [ktSpWalkN_elem]
            exact ihL cs hcs hadj
      refine ⟨nodePart, ?_⟩
      intro l hsize hadj
      cases l with
      | nil => rw [ktSpWalk_nil]; rfl
      | cons n rest =>
          have hN : adjSpN n = false := by
            rw [adjSpL] at hadj
            rw [Bool.or_eq_false_iff, Bool.or_eq_false_iff] at hadj
            exact hadj.1.1
          have hPair : pairSp n rest = false := by
            rw [adjSpL] at hadj
            rw [Bool.or_eq_false_iff, Bool.or_eq_false_iff] at hadj
            exact hadj.1.2
          have hRest : adjSpL rest = false := by
            rw [adjSpL] at hadj
            rw [Bool.or_eq_false_iff, Bool.or_eq_false_iff] at hadj
            exact hadj.2
          have hsr : sizeL rest ≤ k := by
            have := sizeN_pos n
            simp [sizeL] at hsize
            omega
          have hsn : sizeN n ≤ k + 1 := by
            simp [sizeL] at hsize
            have := sizeN_pos n
            omega
          have hN' : adjSpN ((ktSpWalkN n).1) = false := nodePart n hsn hN
          rw [ktSpWalk_cons]
          by_cases hkt : isKTH2 n = true
          · rw [if_pos hkt]
            rw [show adjSpL (n :: ktSpFindUl rest) =
              (adjSpN n || pairSp n (ktSpFindUl rest) ||
               adjSpL (ktSpFindUl rest)) from rfl]
            rw [hN, ktSpFindUl_noAdj rest hRest]
            cases hfu : ktSpFindUl rest with
            | nil => rfl
            | cons m ms =>
                have hh : rest.head? = some m := by
                  rw [← ktSpFindUl_head rest, hfu]
                  rfl
                have hps : (match (m :: ms : List Node) with
                    | m2 :: _ => isSpacingElem n && isSpacingElem m2
                    | [] => false) =
                    (isSpacingElem n && isSpacingElem m) := rfl
                rw [show pairSp n (m :: ms) =
                  (isSpacingElem n && isSpacingElem m) from rfl]
                cases rest with
                | nil => simp at hh
                | cons r rs =>
                    obtain rfl : r = m := by simpa using hh
                    have hPair2 : (isSpacingElem n && isSpacingElem r) = false :=
                      hPair
                    rw [hPair2]
                    rfl
          · rw [if_neg hkt]
            by_cases hf : (ktSpWalkN n).2 = true
            · rw [if_pos hf]
              rw [show adjSpL ((ktSpWalkN n).1 :: rest) =
                (adjSpN ((ktSpWalkN n).1) ||
                 pairSp ((ktSpWalkN n).1) rest || adjSpL rest) from rfl]
              rw [hN', hRest]
              cases rest with
              | nil => rfl
              | cons r rs =>
                  rw [show pairSp ((ktSpWalkN n).1) (r :: rs) =
                    (isSpacingElem ((ktSpWalkN n).1) && isSpacingElem r)
                    from rfl]
                  cases hns : isSpacingElem ((ktSpWalkN n).1) with
                  | false => rfl
                  | true =>
                      obtain ⟨hfix, hnsp⟩ := ktSpWalkN_spacing_fix n hns
                      have hPair2 : (isSpacingElem n && isSpacingElem r) =
                          false := hPair
                      rw [hnsp] at hPair2
                      rw [hPair2]
                      rfl
            · rw [if_neg hf]
              rw [show adjSpL ((ktSpWalkN n).1 :: (ktSpWalk rest).1) =
                (adjSpN ((ktSpWalkN n).1) ||
                 pairSp ((ktSpWalkN n).1) ((ktSpWalk rest).1) ||
                 adjSpL ((ktSpWalk rest).1)) from rfl]
              rw [hN', ihL rest hsr hRest]
              cases hwr : (ktSpWalk rest).1 with
              | nil => rfl
              | cons m ms =>
                  rw [show pairSp ((ktSpWalkN n).1) (m :: ms) =
                    (isSpacingElem ((ktSpWalkN n).1) && isSpacingElem m)
                    from rfl]
                  cases hns : isSpacingElem ((ktSpWalkN n).1) with
                  | false => rfl
                  | true =>
                      cases hms : isSpacingElem m with
                      | false => rfl
                      | true =>
                          obtain ⟨hfix, hnsp⟩ := ktSpWalkN_spacing_fix n hns
                          obtain ⟨m0, hm0, hm0sp, hm0h⟩ :=
                            ktSpWalk_head_spacing rest m (by rw [hwr]; rfl) hms
                          cases rest with
                          | nil => simp at hm0h
                          | cons r rs =>
                              obtain rfl : r = m0 := by simpa using hm0h
                              have hPair2 : (isSpacingElem n &&
                                  isSpacingElem r) = false := hPair
                              rw [hnsp, hm0sp] at hPair2
                              simp at hPair2
  
/-- The key-takeaways spacing pass preserves freedom from adjacent
spacing paragraphs. -/
lemma ktSpWalk_noAdj (l : List Node) (h : adjSpL l = false) :
    adjSpL ((ktSpWalk l).1) = false :=
  (ktSp_noAdj_aux (sizeL l)).2 l (Nat.le_refl _) h


/-- The composed spacing transform preserves freedom from adjacent
spacing paragraphs. -/
lemma addSpacingTree_noAdj (l : List Node) (h : adjSpL l = false) :
    adjSpL (addSpacingTree l) = false := by
  unfold addSpacingTree
  apply ktSpWalk_noAdj
  apply headingsSpacingPass_noAdj
  apply spacingPass_noAdj matchRead (fun s => rfl) matchRead_not_spacing
  apply sourcesSpacingPass_noAdj
  apply spacingPass_noAdj matchDisclaimer (fun s => rfl)
    matchDisclaimer_not_spacing
  apply spacingPass_noAdj matchAltImage (fun s => rfl)
    matchAltImage_not_spacing
  exact h

/-- C6, counterexample: an input that already holds two adjacent spacing
paragraphs passes through the spacing transform unchanged, so its output
(and the output of a re-run) still holds the adjacent pair — the claim's
unconditional wording fails. -/
theorem c6_existing_pair_survives :
    adjSpL (parseHTML "<p>&nbsp;</p><p>&nbsp;</p>") = true ∧
    addSpacing "<p>&nbsp;</p><p>&nbsp;</p>" = "<p>&nbsp;</p><p>&nbsp;</p>" ∧
    adjSpL (parseHTML (addSpacing "<p>&nbsp;</p><p>&nbsp;</p>")) = true := by
  refine ⟨by decide, by decide, by decide⟩

/-- C6, amended: on every document free of adjacent spacing paragraphs,
the spacing transform's output is again free of them — every insertion
site is guarded against an existing neighbouring spacing paragraph — and
hence so is the output of re-running the transform on its own output. -/
theorem c6_spacing_no_duplication :
    (∀ l, adjSpL l = false → adjSpL (addSpacingTree l) = false) ∧
    (∀ l, adjSpL l = false →
      adjSpL (addSpacingTree (addSpacingTree l)) = false) :=
  ⟨fun l h => addSpacingTree_noAdj l h,
    fun l h => addSpacingTree_noAdj _ (addSpacingTree_noAdj l h)⟩

/-- Witness for the amended C6 on a concrete document that does receive
spacing insertions. -/
theorem c6_spacing_no_duplication_witness :
    adjSpL (parseHTML "<h2>Intro</h2><p>Sources: A</p>") = false ∧
    adjSpL (addSpacingTree (parseHTML "<h2>Intro</h2><p>Sources: A</p>")) =
      false ∧
    adjSpL (addSpacingTree (addSpacingTree
      (parseHTML "<h2>Intro</h2><p>Sources: A</p>"))) = false :=
  ⟨by decide, c6_spacing_no_duplication.1 _ (by decide),
    c6_spacing_no_duplication.2 _ (by decide)⟩


end WordToHtml
